import Mathlib

/-!
# Lowering engine of the wazevo backend: block-argument moves and frame construction

Shallow embedding of

* `internal/engine/wazevo/backend/compiler_lower.go`
  (`lowerBlocks`, `lowerBlock`, `lowerBranches`, `lowerFunctionArguments`,
  `lowerFunctionReturns`, `lowerBlockArguments`), and
* `internal/engine/wazevo/backend/isa/amd64/machine_pro_epi_logue.go`
  (`SetupPrologue`, `SetupEpilogue`, `setupEpilogueAfter`).

Calls into the machine backend are recorded, in program order, in a trace of events.
A Go `panic` is an explicit outcome that keeps the state reached when it fired.
The amd64 instruction list is a heap of records addressed by index, with `prev`/`next`
links that may be nil.
-/

namespace Wazevo

/-! ## Registers -/

namespace regalloc

/-- Modelled from the spec: the register-class tag carried by a virtual register
(`regalloc.RegType`, declared outside the two source files). -/
inductive RegType where
  | RegTypeInvalid
  | RegTypeInt
  | RegTypeFloat
deriving DecidableEq, Repr

/-- Modelled from the spec: a virtual register (`regalloc.VReg`, declared outside the two
source files): a register name, the physical register it resolves to (0 when none), and its
register class. -/
structure VReg where
  id : Nat
  realReg : Nat
  regType : RegType
deriving DecidableEq, Repr

/-- Modelled from the spec: the physical register a virtual register resolves to
(`VReg.RealReg`). -/
def VReg.RealReg (v : VReg) : Nat := v.realReg

/-- Modelled from the spec: the register class of a virtual register (`VReg.RegType`). -/
def VReg.RegType (v : VReg) : regalloc.RegType := v.regType

end regalloc

/-! ## SSA input -/

namespace ssa

/-- Modelled from the spec: an SSA value, identified by its number (`ssa.Value`). -/
structure Value where
  id : Nat
deriving DecidableEq, Repr

/-- Modelled from the spec: the placeholder passed for an unused value (`ssa.ValueInvalid`). -/
def ValueInvalid : Value := ⟨4294967295⟩

/-- Modelled from the spec: the opcodes the lowering driver distinguishes (`ssa.Opcode`):
the branching ones, the function return, the constant-producing ones, and all others. -/
inductive Opcode where
  | OpcodeJump
  | OpcodeBrz
  | OpcodeBrnz
  | OpcodeBrTable
  | OpcodeReturn
  | OpcodeIconst
  | OpcodeF32const
  | OpcodeF64const
  | OpcodeOther (n : Nat)
deriving DecidableEq, Repr

/-- Modelled from the spec: what the lowering reads through a `ssa.BasicBlock` handle
besides its instructions: its parameters and its entry/return flags. -/
structure BlockRef where
  id : Nat
  params : List Value
  entryBlock : Bool
  returnBlock : Bool
deriving DecidableEq, Repr

/-- Modelled from the spec: the number of parameters of a block (`BasicBlock.Params`). -/
def BlockRef.Params (b : BlockRef) : Nat := b.params.length

/-- Modelled from the spec: an SSA instruction (`ssa.Instruction`): opcode, group id,
operand values (branch arguments or return values) and, for a branch, its target. -/
structure Instruction where
  id : Nat
  opcode : Opcode
  gid : Nat
  vs : List Value
  target : BlockRef
deriving DecidableEq, Repr

/-- Modelled from the spec: the "is branching" predicate (`Instruction.IsBranching`). -/
def Instruction.IsBranching (i : Instruction) : Bool :=
  match i.opcode with
  | .OpcodeJump | .OpcodeBrz | .OpcodeBrnz | .OpcodeBrTable => true
  | _ => false

/-- Modelled from the spec: whether the instruction produces a constant
(`Instruction.Constant`). -/
def Instruction.Constant (i : Instruction) : Bool :=
  match i.opcode with
  | .OpcodeIconst | .OpcodeF32const | .OpcodeF64const => true
  | _ => false

/-- Modelled from the spec: the arguments and the target of a branch
(`Instruction.BranchData`, without the condition). -/
def Instruction.BranchData (i : Instruction) : List Value × BlockRef := (i.vs, i.target)

/-- Modelled from the spec: the return values of a return instruction
(`Instruction.ReturnVals`). -/
def Instruction.ReturnVals (i : Instruction) : List Value := i.vs

/-- Modelled from the spec: a basic block: its handle and its ordered instruction list
(`Tail` is the last element, `Prev` walks towards the head). -/
structure BasicBlock where
  ref : BlockRef
  instrs : List Instruction
deriving DecidableEq, Repr

end ssa

/-! ## The compiler state and the trace of backend calls -/

open regalloc

/-- Modelled from the spec: where an SSA value is defined (`SSAValueDefinition`):
`Instr` is present exactly when the value is the result of an instruction. -/
structure SSAValueDefinition where
  Instr : Option ssa.Instruction
deriving DecidableEq, Repr

/-- Modelled from the spec: whether the definition is an instruction
(`SSAValueDefinition.IsFromInstr`). -/
def SSAValueDefinition.IsFromInstr (d : SSAValueDefinition) : Bool := d.Instr.isSome

/-- One call made by the lowering driver, in program order: the machine-backend operations
of `compiler_lower.go`, the group-id propagation and the temporary allocation (with the
register it returned). -/
inductive Event where
  | StartBlock (blk : ssa.BlockRef)
  | EndBlock
  | SetCurrentGroupID (gid : Nat)
  | LowerSingleBranch (br : ssa.Instruction)
  | LowerConditionalBranch (br : ssa.Instruction)
  | LowerInstr (i : ssa.Instruction)
  | FlushPendingInstructions
  | InsertMove (dst src : VReg)
  | InsertLoadConstant (cInst : ssa.Instruction) (dst : VReg)
  | InsertReturn
  | CalleeGenFunctionArgsToVRegs (vals : List ssa.Value)
  | CalleeGenVRegsToFunctionReturns (vals : List ssa.Value)
  | LinkAdjacentBlocks (prev next : ssa.BlockRef)
  | AllocateVReg (regType : RegType) (result : VReg)
deriving DecidableEq, Repr

/-- The ways the two source files abort: their explicit panics and the dereference of a nil
pointer; `outOfFuel` stands for a loop that has not ended within the fuel it was given. -/
inductive Panic where
  | mismatchedArguments
  | criticalEdgeSplitFailed
  | condBranchWithoutTerminator
  | nilDereference
  | todoSaveClobberedRegisters
  | todoAllocateSpillSlots
  | todoDeallocateSpillSlots
  | todoRestoreClobberedRegisters
  | outOfFuel
deriving DecidableEq, Repr

/-- Outcome of a step that may panic: the state reached, and the panic if one fired. -/
inductive Outcome (α : Type) where
  | done (c : α)
  | panicked (p : Panic) (c : α)

/-- The state carried by an outcome. -/
def Outcome.state {α : Type} : Outcome α → α
  | .done c => c
  | .panicked _ c => c

/-- The panic of an outcome, if any. -/
def Outcome.failure {α : Type} : Outcome α → Option Panic
  | .done _ => none
  | .panicked p _ => some p

/-- Modelled from the spec: the `compiler` whose methods `compiler_lower.go` defines (the
struct itself is declared outside the two source files): the read-only tables filled before
lowering, the scratch slices, and the trace of calls made so far. `σ` is the state of the virtual-register
allocator behind `AllocateVReg`, which is code outside the two source files and is taken as
the parameter `allocateVReg`; `markLowered` is the set of instructions the machine marks as
already lowered while it lowers a given one. -/
structure compiler (σ : Type) where
  ssaValueToVRegs : ssa.Value → VReg
  ssaValueDefinitions : ssa.Value → SSAValueDefinition
  ssaValueRefCounts : ssa.Value → Int
  allocateVReg : σ → RegType → VReg × σ
  markLowered : ssa.Instruction → List Nat
  vregAlloc : σ
  alreadyLowered : List Nat
  tmpVals : List ssa.Value
  varEdges : List (VReg × VReg)
  constEdges : List (ssa.Instruction × VReg)
  vRegSet : List VReg
  tempRegs : List VReg
  trace : List Event

variable {σ : Type}

/-- Modelled from the spec: the virtual register of a value (`compiler.VRegOf`). -/
def compiler.VRegOf (c : compiler σ) (v : ssa.Value) : VReg := c.ssaValueToVRegs v

/-- Record one backend call. -/
def compiler.emit (c : compiler σ) (e : Event) : compiler σ :=
  { c with trace := c.trace ++ [e] }

/-- Modelled from the spec: `compiler.AllocateVReg`, which asks the allocator for a register
of the given class; the call and the register returned are recorded. -/
def compiler.AllocateVReg (c : compiler σ) (t : RegType) : VReg × compiler σ :=
  let r := c.allocateVReg c.vregAlloc t
  (r.1, { c with vregAlloc := r.2, trace := c.trace ++ [Event.AllocateVReg t r.1] })

/-- Modelled from the spec: `compiler.setCurrentGroupID`, the propagation of a group id. -/
def compiler.setCurrentGroupID (c : compiler σ) (gid : Nat) : compiler σ :=
  c.emit (.SetCurrentGroupID gid)

/-- A machine call that lowers SSA instruction `i`: the call is recorded and the
instructions the machine fuses with it are marked as already lowered. -/
def compiler.machLower (c : compiler σ) (e : Event) (i : ssa.Instruction) : compiler σ :=
  { c with trace := c.trace ++ [e], alreadyLowered := c.alreadyLowered ++ c.markLowered i }

/-! ## `lowerBlockArguments` -/

/-- Lines 153-170: classify argument `i` against parameter `i`, for `i = 0, 1, ...`. -/
def lowerBlockArguments.classify (c : compiler σ) :
    List ssa.Value → List ssa.Value → compiler σ
  | src :: args, dst :: params =>
    let dstReg := c.VRegOf dst
    let srcDef := c.ssaValueDefinitions src
    let c1 : compiler σ :=
      match srcDef.Instr with
      | some cInst =>
        if cInst.Constant then
          { c with constEdges := c.constEdges ++ [(cInst, dstReg)] }
        else
          let srcReg := c.VRegOf src
          if srcReg ≠ dstReg then { c with varEdges := c.varEdges ++ [(srcReg, dstReg)] } else c
      | none =>
        let srcReg := c.VRegOf src
        if srcReg ≠ dstReg then { c with varEdges := c.varEdges ++ [(srcReg, dstReg)] } else c
    lowerBlockArguments.classify c1 args params
  | _, _ => c

/-- Lines 174-177: put every move-edge source into `vRegSet`. -/
def lowerBlockArguments.markSources (c : compiler σ) : List (VReg × VReg) → compiler σ
  | [] => c
  | edge :: rest =>
    lowerBlockArguments.markSources { c with vRegSet := edge.1 :: c.vRegSet } rest

/-- Lines 178-185: `separated` is false as soon as one destination is in `vRegSet`. -/
def lowerBlockArguments.separated (c : compiler σ) : List (VReg × VReg) → Bool
  | [] => true
  | edge :: rest => if edge.2 ∈ c.vRegSet then false else lowerBlockArguments.separated c rest

/-- Lines 189-192: one move per edge. -/
def lowerBlockArguments.direct (c : compiler σ) : List (VReg × VReg) → compiler σ
  | [] => c
  | edge :: rest => lowerBlockArguments.direct (c.emit (.InsertMove edge.2 edge.1)) rest

/-- Lines 198-203: copy every source into a newly allocated temporary. -/
def lowerBlockArguments.toTemps (c : compiler σ) : List (VReg × VReg) → compiler σ
  | [] => c
  | edge :: rest =>
    let src := edge.1
    let r := c.AllocateVReg src.RegType
    let c1 := { r.2 with tempRegs := r.2.tempRegs ++ [r.1] }
    lowerBlockArguments.toTemps (c1.emit (.InsertMove r.1 src)) rest

/-- Lines 205-209: copy temporary `i` into destination `i`; `temps` is what is left of
`tempRegs` from index `i` on (reading past its end is a nil dereference). -/
def lowerBlockArguments.fromTemps (c : compiler σ) :
    List VReg → List (VReg × VReg) → Outcome (compiler σ)
  | _, [] => .done c
  | [], _ :: _ => .panicked .nilDereference c
  | temp :: temps, edge :: rest =>
    lowerBlockArguments.fromTemps (c.emit (.InsertMove edge.2 temp)) temps rest

/-- Lines 213-216: load every constant into its destination. -/
def lowerBlockArguments.loadConstants (c : compiler σ) :
    List (ssa.Instruction × VReg) → compiler σ
  | [] => c
  | edge :: rest =>
    lowerBlockArguments.loadConstants (c.emit (.InsertLoadConstant edge.1 edge.2)) rest

/-- `compiler.lowerBlockArguments`. -/
def lowerBlockArguments (c : compiler σ) (args : List ssa.Value) (succ : ssa.BlockRef) :
    Outcome (compiler σ) :=
  if args.length ≠ succ.Params then
    .panicked .mismatchedArguments c
  else
    let c := { c with varEdges := [], constEdges := [] }
    let c := lowerBlockArguments.classify c args succ.params
    let c := { c with vRegSet := [] }
    let c := lowerBlockArguments.markSources c c.varEdges
    let separated := lowerBlockArguments.separated c c.varEdges
    if separated then
      let c := lowerBlockArguments.direct c c.varEdges
      .done (lowerBlockArguments.loadConstants c c.constEdges)
    else
      let c := { c with tempRegs := [] }
      let c := lowerBlockArguments.toTemps c c.varEdges
      match lowerBlockArguments.fromTemps c c.tempRegs c.varEdges with
      | .panicked p c => .panicked p c
      | .done c => .done (lowerBlockArguments.loadConstants c c.constEdges)

/-! ## `lowerFunctionReturns`, `lowerFunctionArguments`, `lowerBranches` -/

/-- `compiler.lowerFunctionReturns`. -/
def lowerFunctionReturns (c : compiler σ) (returns : List ssa.Value) : compiler σ :=
  c.emit (.CalleeGenVRegsToFunctionReturns returns)

/-- Lines 128-136: one entry of `tmpVals` per parameter of the entry block. -/
def lowerFunctionArguments.collect (c : compiler σ) : List ssa.Value → compiler σ
  | [] => c
  | p :: rest =>
    if c.ssaValueRefCounts p > 0 then
      lowerFunctionArguments.collect { c with tmpVals := c.tmpVals ++ [p] } rest
    else
      lowerFunctionArguments.collect { c with tmpVals := c.tmpVals ++ [ssa.ValueInvalid] } rest

/-- `compiler.lowerFunctionArguments`. -/
def lowerFunctionArguments (c : compiler σ) (entry : ssa.BlockRef) : compiler σ :=
  let c := { c with tmpVals := [] }
  let c := lowerFunctionArguments.collect c entry.params
  let c := c.emit (.CalleeGenFunctionArgsToVRegs c.tmpVals)
  c.emit .FlushPendingInstructions

/-- `compiler.lowerBranches`: `br0` is the last instruction of the block, `br1` the
branch before it when there is one. -/
def lowerBranches (c : compiler σ) (br0 : ssa.Instruction) (br1 : Option ssa.Instruction) :
    Outcome (compiler σ) :=
  let c := c.setCurrentGroupID br0.gid
  let c := c.machLower (.LowerSingleBranch br0) br0
  let c := c.emit .FlushPendingInstructions
  let c :=
    match br1 with
    | some b1 =>
      let c := c.setCurrentGroupID b1.gid
      let c := c.machLower (.LowerConditionalBranch b1) b1
      c.emit .FlushPendingInstructions
    | none => c
  if br0.opcode = .OpcodeJump then
    let args := br0.BranchData.1
    let target := br0.BranchData.2
    let argExists : Bool := args.length ≠ 0
    if argExists && br1.isSome then
      .panicked .criticalEdgeSplitFailed c
    else if argExists && target.returnBlock then
      .done ((lowerFunctionReturns c args).emit .FlushPendingInstructions)
    else if argExists then
      match lowerBlockArguments c args target with
      | .panicked p c => .panicked p c
      | .done c => .done (c.emit .FlushPendingInstructions)
    else
      .done (c.emit .FlushPendingInstructions)
  else
    .done (c.emit .FlushPendingInstructions)

/-! ## `lowerBlock`, `lowerBlocks` -/

/-- Lines 68-86: lower the non-branching instructions from `cur` back to the head of the
block; the list holds `cur`, `cur.Prev()`, ... in that order. -/
def lowerBlock.body (c : compiler σ) : List ssa.Instruction → compiler σ
  | [] => c
  | cur :: prevs =>
    let c := c.setCurrentGroupID cur.gid
    if cur.id ∈ c.alreadyLowered then
      lowerBlock.body c prevs
    else
      let c :=
        match cur.opcode with
        | .OpcodeReturn => (lowerFunctionReturns c cur.ReturnVals).emit .InsertReturn
        | _ => c.machLower (.LowerInstr cur) cur
      lowerBlock.body (c.emit .FlushPendingInstructions) prevs

/-- Lines 46-57: starting from the tail, the branches `br0`, `br1` and the instruction
`cur` (with everything before it) left to lower. An empty block has a nil tail, on which
`IsBranching` dereferences nil. -/
def lowerBlock.gather :
    List ssa.Instruction →
      Option (Option ssa.Instruction × Option ssa.Instruction × List ssa.Instruction)
  | [] => none
  | tail :: prevs =>
    if tail.IsBranching then
      match prevs with
      | [] => some (some tail, none, [])
      | p :: prevs2 =>
        if p.IsBranching then some (some tail, some p, prevs2)
        else some (some tail, none, p :: prevs2)
    else some (none, none, tail :: prevs)

/-- Lines 89-93: the end of `lowerBlock`. -/
def lowerBlock.finish (c : compiler σ) (blk : ssa.BasicBlock) : compiler σ :=
  let c := if blk.ref.entryBlock then lowerFunctionArguments c blk.ref else c
  c.emit .EndBlock

/-- `compiler.lowerBlock`. -/
def lowerBlock (c : compiler σ) (blk : ssa.BasicBlock) : Outcome (compiler σ) :=
  let c := c.emit (.StartBlock blk.ref)
  match lowerBlock.gather blk.instrs.reverse with
  | none => .panicked .nilDereference c
  | some (br0, br1, cur) =>
    let r : Outcome (compiler σ) :=
      match br0 with
      | some b0 => lowerBranches c b0 br1
      | none => .done c
    match r with
    | .panicked p c => .panicked p c
    | .done c =>
      if br1.isSome && br0.isNone then
        .panicked .condBranchWithoutTerminator c
      else
        .done (lowerBlock.finish (lowerBlock.body c cur) blk)

/-- Lines 24-29: lower every block, in iteration order. -/
def lowerBlocks.lowerAll (c : compiler σ) : List ssa.BasicBlock → Outcome (compiler σ)
  | [] => .done c
  | blk :: rest =>
    match lowerBlock c blk with
    | .panicked p c => .panicked p c
    | .done c => lowerBlocks.lowerAll c rest

/-- Lines 31-37: link each block to the one iterated before it. -/
def lowerBlocks.linkAll (c : compiler σ) :
    Option ssa.BasicBlock → List ssa.BasicBlock → compiler σ
  | _, [] => c
  | prev, next :: rest =>
    let c :=
      match prev with
      | some p => c.emit (.LinkAdjacentBlocks p.ref next.ref)
      | none => c
    lowerBlocks.linkAll c (some next) rest

/-- `compiler.lowerBlocks`; `rpo` is what the reverse-post-order iterator of the builder
yields. -/
def lowerBlocks (c : compiler σ) (rpo : List ssa.BasicBlock) : Outcome (compiler σ) :=
  match lowerBlocks.lowerAll c rpo with
  | .panicked p c => .panicked p c
  | .done c => .done (lowerBlocks.linkAll c none rpo)

/-! ## Ground truth for register moves -/

/-- Effect of one recorded call on a register file: a move copies, a constant load writes
the constant `cval` gives to its instruction, everything else leaves registers alone. -/
def execEvent {V : Type} (cval : ssa.Instruction → V) (s : VReg → V) : Event → VReg → V
  | .InsertMove dst src => Function.update s dst (s src)
  | .InsertLoadConstant cInst dst => Function.update s dst (cval cInst)
  | _ => s

/-- Run a sequence of recorded calls, in order. -/
def exec {V : Type} (cval : ssa.Instruction → V) (s : VReg → V) (tr : List Event) : VReg → V :=
  tr.foldl (execEvent cval) s

/-- Whether a recorded call is a register move. -/
def Event.isMove : Event → Bool
  | .InsertMove _ _ => true
  | _ => false

/-- Whether a recorded call is a constant load. -/
def Event.isLoadConstant : Event → Bool
  | .InsertLoadConstant _ _ => true
  | _ => false

/-- The temporary returned by a recorded call, if it is an allocation. -/
def Event.allocated : Event → Option VReg
  | .AllocateVReg _ r => some r
  | _ => none

/-- The calls recorded between state `c` and a later state `c2`. -/
def emitted (c c2 : compiler σ) : List Event := c2.trace.drop c.trace.length

/-- The move edges `lowerBlockArguments` builds for `args` against `succ`. -/
def moveEdges (c : compiler σ) (args : List ssa.Value) (succ : ssa.BlockRef) :
    List (VReg × VReg) :=
  (lowerBlockArguments.classify { c with varEdges := [], constEdges := [] }
    args succ.params).varEdges

/-- The constant edges `lowerBlockArguments` builds for `args` against `succ`. -/
def constantEdges (c : compiler σ) (args : List ssa.Value) (succ : ssa.BlockRef) :
    List (ssa.Instruction × VReg) :=
  (lowerBlockArguments.classify { c with varEdges := [], constEdges := [] }
    args succ.params).constEdges

/-- Simultaneous assignment of all edges from the state `s` before the edge. -/
def simultaneous {V : Type} (edges : List (VReg × VReg)) (s : VReg → V) (r : VReg) : V :=
  match edges.find? (fun e => e.2 = r) with
  | some e => s e.1
  | none => s r


/-! ### The classification and the two resolution strategies, as lists -/

/-- The constant-producing instruction that defines `src`, if there is one: the test of
line 159 on the definition table `defs`. -/
def constantDef (defs : ssa.Value → SSAValueDefinition) (src : ssa.Value) :
    Option ssa.Instruction :=
  match (defs src).Instr with
  | some cInst => if cInst.Constant then some cInst else none
  | none => none

/-- The move edge of an (argument, parameter) pair: none for a constant argument and for
a self-edge, otherwise source register and destination register. -/
def moveEdgeOf (vreg : ssa.Value → VReg) (defs : ssa.Value → SSAValueDefinition)
    (p : ssa.Value × ssa.Value) : Option (VReg × VReg) :=
  match constantDef defs p.1 with
  | some _ => none
  | none => if vreg p.1 ≠ vreg p.2 then some (vreg p.1, vreg p.2) else none

/-- The constant edge of an (argument, parameter) pair: the defining instruction and the
destination register, when the argument is a constant. -/
def constEdgeOf (vreg : ssa.Value → VReg) (defs : ssa.Value → SSAValueDefinition)
    (p : ssa.Value × ssa.Value) : Option (ssa.Instruction × VReg) :=
  (constantDef defs p.1).map (fun cInst => (cInst, vreg p.2))

/-- An (argument, parameter) pair is a self-edge: the argument is not a constant and its
register is the register of the parameter. -/
def isSelfEdge (vreg : ssa.Value → VReg) (defs : ssa.Value → SSAValueDefinition)
    (p : ssa.Value × ssa.Value) : Bool :=
  (constantDef defs p.1).isNone && (vreg p.1 = vreg p.2)

/-- No destination of `edges` is the source of one of them. -/
def nonOverlapping (edges : List (VReg × VReg)) : Prop :=
  ∀ e ∈ edges, e.2 ∉ edges.map Prod.fst

/-- The temporaries the allocator returns when asked, from state `s`, for one register of
each class in `ts`, in order. -/
def allocateAll (alloc : σ → RegType → VReg × σ) : σ → List RegType → List VReg
  | _, [] => []
  | s, t :: ts => (alloc s t).1 :: allocateAll alloc (alloc s t).2 ts

/-- The state of the allocator after those requests. -/
def allocateEnd (alloc : σ → RegType → VReg × σ) : σ → List RegType → σ
  | s, [] => s
  | s, t :: ts => allocateEnd alloc (alloc s t).2 ts

/-- The direct strategy: one move per edge, in edge order. -/
def directMoves (edges : List (VReg × VReg)) : List Event :=
  edges.map (fun e => Event.InsertMove e.2 e.1)

/-- First phase of the two-phase strategy: every source into its temporary. -/
def movesToTemps (temps : List VReg) (edges : List (VReg × VReg)) : List Event :=
  (temps.zip edges).map (fun p => Event.InsertMove p.1 p.2.1)

/-- Second phase of the two-phase strategy: every temporary into its destination. -/
def movesFromTemps (temps : List VReg) (edges : List (VReg × VReg)) : List Event :=
  (temps.zip edges).map (fun p => Event.InsertMove p.2.2 p.1)

/-- The constant loads, in edge order. -/
def constantLoads (edges : List (ssa.Instruction × VReg)) : List Event :=
  edges.map (fun e => Event.InsertLoadConstant e.1 e.2)

/-- An argument list and a parameter list without the pairs that are self-edges. -/
def dropSelfEdges (vreg : ssa.Value → VReg) (defs : ssa.Value → SSAValueDefinition) :
    List ssa.Value → List ssa.Value → List ssa.Value × List ssa.Value
  | src :: args, dst :: params =>
    let r := dropSelfEdges vreg defs args params
    if isSelfEdge vreg defs (src, dst) then r else (src :: r.1, dst :: r.2)
  | args, params => (args, params)

/-- The calls of the first phase as recorded: for every edge an allocation, then the copy
of the source into the temporary it returned. -/
def toTempsCalls : List VReg → List (VReg × VReg) → List Event
  | t :: ts, e :: es =>
    Event.AllocateVReg e.1.RegType t :: Event.InsertMove t e.1 :: toTempsCalls ts es
  | _, _ => []

/-- The calls `lowerBlockArguments` records for `args` against `succ` from state `c`. -/
def emittedBy (c : compiler σ) (args : List ssa.Value) (succ : ssa.BlockRef) : List Event :=
  emitted c (lowerBlockArguments c args succ).state

/-- The `InsertMove` calls among them, in order. -/
def emittedMoves (c : compiler σ) (args : List ssa.Value) (succ : ssa.BlockRef) :
    List Event :=
  (emittedBy c args succ).filter Event.isMove

/-- The `InsertLoadConstant` calls among them, in order. -/
def emittedLoads (c : compiler σ) (args : List ssa.Value) (succ : ssa.BlockRef) :
    List Event :=
  (emittedBy c args succ).filter Event.isLoadConstant

/-- The registers returned by the `AllocateVReg` calls among them, in order. -/
def temporaries (c : compiler σ) (args : List ssa.Value) (succ : ssa.BlockRef) :
    List VReg :=
  (emittedBy c args succ).filterMap Event.allocated

/-- Whether a recorded call marshals return values. -/
def Event.isReturnMarshal : Event → Bool
  | .CalleeGenVRegsToFunctionReturns _ => true
  | _ => false

instance nonOverlapping.decidable (edges : List (VReg × VReg)) :
    Decidable (nonOverlapping edges) := by
  unfold nonOverlapping
  infer_instance

/-! ### Concrete inputs -/

/-- A block handle with the given parameters. -/
def exampleBlock (params : List ssa.Value) : ssa.BlockRef :=
  { id := 1, params := params, entryBlock := false, returnBlock := false }

/-- A compiler state for concrete inputs: value `n` lives in integer register `n`, the
values numbered 100 and above are defined by an `iconst`, temporaries are numbered from
1000, and nothing has been recorded yet. -/
def exampleCompiler : compiler Nat :=
  { ssaValueToVRegs := fun v => ⟨v.id, 0, .RegTypeInt⟩
    ssaValueDefinitions := fun v =>
      if 100 ≤ v.id then ⟨some ⟨v.id, .OpcodeIconst, 0, [], exampleBlock []⟩⟩ else ⟨none⟩
    ssaValueRefCounts := fun _ => 1
    allocateVReg := fun n t => (⟨1000 + n, 0, t⟩, n + 1)
    markLowered := fun _ => []
    vregAlloc := 0
    alreadyLowered := []
    tmpVals := []
    varEdges := []
    constEdges := []
    vRegSet := []
    tempRegs := []
    trace := [] }

/-- A jump with the given arguments and target. -/
def exampleJump (args : List ssa.Value) (target : ssa.BlockRef) : ssa.Instruction :=
  { id := 10, opcode := .OpcodeJump, gid := 1, vs := args, target := target }

/-- A conditional branch. -/
def exampleBrz : ssa.Instruction :=
  { id := 11, opcode := .OpcodeBrz, gid := 2, vs := [⟨1⟩], target := exampleBlock [] }

/-- An instruction that is neither a branch, a return nor a constant. -/
def exampleAdd : ssa.Instruction :=
  { id := 12, opcode := .OpcodeOther 0, gid := 3, vs := [⟨1⟩, ⟨2⟩], target := exampleBlock [] }

/-- The register class asked of `AllocateVReg` by a recorded call, if it is an
allocation. -/
def Event.allocClass : Event → Option RegType
  | .AllocateVReg t _ => some t
  | _ => none

/-- The block a recorded call starts, if it is `StartBlock`: one per call of `lowerBlock`. -/
def Event.startedBlock : Event → Option ssa.BlockRef
  | .StartBlock b => some b
  | _ => none

/-- The pair of blocks a recorded call links, if it is `LinkAdjacentBlocks`. -/
def Event.linkedBlocks : Event → Option (ssa.BlockRef × ssa.BlockRef)
  | .LinkAdjacentBlocks p n => some (p, n)
  | _ => none

/-- The calls recorded by `lowerBranches` for `br0` and `br1` from state `c`. -/
def emittedByBranches (c : compiler σ) (br0 : ssa.Instruction)
    (br1 : Option ssa.Instruction) : List Event :=
  emitted c (lowerBranches c br0 br1).state

/-- A block made of an addition and a jump without arguments. -/
def exampleBlockA : ssa.BasicBlock :=
  ⟨⟨1, [], true, false⟩, [exampleAdd, exampleJump [] (exampleBlock [])]⟩

/-- A block that ends in a return. -/
def exampleBlockB : ssa.BasicBlock :=
  ⟨⟨2, [], false, false⟩, [⟨13, .OpcodeReturn, 4, [⟨1⟩], exampleBlock []⟩]⟩

/-- A block whose jump carries an argument although a conditional branch precedes it. -/
def exampleBlockCritical : ssa.BasicBlock :=
  ⟨⟨3, [], false, false⟩, [exampleBrz, exampleJump [⟨1⟩] (exampleBlock [⟨2⟩])]⟩

/-- The handle of the return block of a function with one result. -/
def exampleReturnBlock : ssa.BlockRef := ⟨9, [], false, true⟩

/-- The `LinkAdjacentBlocks` calls of lines 31-37, given the block iterated before (if any)
and the blocks still to iterate. -/
def linkCalls : Option ssa.BasicBlock → List ssa.BasicBlock → List Event
  | _, [] => []
  | none, next :: rest => linkCalls (some next) rest
  | some prev, next :: rest =>
    Event.LinkAdjacentBlocks prev.ref next.ref :: linkCalls (some next) rest

/-- The pairs of neighbours `(b_i, b_{i+1})` of a list of blocks, in order. -/
def adjacentPairs (rpo : List ssa.BasicBlock) : List (ssa.BlockRef × ssa.BlockRef) :=
  (rpo.zip rpo.tail).map (fun p => (p.1.ref, p.2.ref))

/-! ## amd64: the instruction list -/

namespace amd64

/-- Modelled from the spec: the instruction kinds the frame builder distinguishes
(`instructionKind`, declared outside the two source files); zero is the kind of a freshly
allocated record. -/
inductive instructionKind where
  | zero
  | nop0
  | ret
  | movRR
  | push64
  | pop64
  | otherKind (n : Nat)
deriving DecidableEq, Repr

/-- Modelled from the spec: an operand, of which only the register is read here. -/
structure operand where
  r : VReg
deriving DecidableEq, Repr

/-- Modelled from the spec: a register operand (`newOperandReg`). -/
def newOperandReg (r : VReg) : operand := ⟨r⟩

/-- Modelled from the spec: one record of the doubly-linked instruction list
(`instruction`); `prev` and `next` are addresses of other records, or nil. -/
structure instruction where
  kind : instructionKind
  op1 : operand
  op2 : operand
  b1 : Bool
  prev : Option Nat
  next : Option Nat
deriving DecidableEq, Repr

/-- Modelled from the spec: the stack pointer as a virtual register (`rspVReg`). -/
def rspVReg : VReg := ⟨5, 5, .RegTypeInt⟩

/-- Modelled from the spec: the frame pointer as a virtual register (`rbpVReg`). -/
def rbpVReg : VReg := ⟨6, 6, .RegTypeInt⟩

/-- Modelled from the spec: a freshly allocated record, every field zero. -/
def instruction.fresh : instruction :=
  ⟨.zero, ⟨⟨0, 0, .RegTypeInvalid⟩⟩, ⟨⟨0, 0, .RegTypeInvalid⟩⟩, false, none, none⟩

/-- Modelled from the spec: `instruction.asPush64`. -/
def instruction.asPush64 (i : instruction) (op : operand) : instruction :=
  { i with kind := .push64, op1 := op }

/-- Modelled from the spec: `instruction.asMovRR`, a copy from `rm` into `rd`. -/
def instruction.asMovRR (i : instruction) (rm rd : VReg) (_64 : Bool) : instruction :=
  { i with kind := .movRR, op1 := newOperandReg rm, op2 := newOperandReg rd, b1 := _64 }

/-- Modelled from the spec: `instruction.asPop64`. -/
def instruction.asPop64 (i : instruction) (rd : VReg) : instruction :=
  { i with kind := .pop64, op1 := newOperandReg rd }

/-- Modelled from the spec: `instruction.IsCopy`, true of register-to-register moves. -/
def instruction.IsCopy (i : instruction) : Bool := i.kind = .movRR

/-- The test of line 78: a copy whose two registers are the same physical register. -/
def instruction.redundantCopy (i : instruction) : Bool :=
  i.IsCopy && (i.op1.r.RealReg = i.op2.r.RealReg)

/-- The instruction without its links. -/
def instruction.unlink (i : instruction) : instruction :=
  { i with prev := none, next := none }

/-- Modelled from the spec: the `machine` of the amd64 backend (declared outside the two
source files), as far as frame construction reads it: the root of
the instruction list, the frame descriptor, and the records allocated so far. -/
structure machine where
  RootInstr : Option Nat
  clobberedRegs : List VReg
  spillSlotSize : Int
  stackBoundsCheckDisabled : Bool
  instrs : List instruction
deriving DecidableEq, Repr

/-- The `next` link of the record at address `a` (none when `a` is not allocated). -/
def machine.nextOf (m : machine) (a : Nat) : Option (Option Nat) :=
  (m.instrs[a]?).map (fun i => i.next)

/-- The `prev` link of the record at address `a`. -/
def machine.prevOf (m : machine) (a : Nat) : Option (Option Nat) :=
  (m.instrs[a]?).map (fun i => i.prev)

/-- The record at address `a` without its links. -/
def machine.payload (m : machine) (a : Nat) : Option instruction :=
  (m.instrs[a]?).map instruction.unlink

/-- Assignment `a.next = v`. -/
def machine.setNext (m : machine) (a : Nat) (v : Option Nat) : machine :=
  { m with instrs := m.instrs.modify (fun i => { i with next := v }) a }

/-- Assignment `a.prev = v`. -/
def machine.setPrev (m : machine) (a : Nat) (v : Option Nat) : machine :=
  { m with instrs := m.instrs.modify (fun i => { i with prev := v }) a }

/-- Modelled from the spec: `machine.allocateInstr` followed by one of the `as...`
initialisers: a new record at the next free address. -/
def machine.allocateInstr (m : machine) (init : instruction → instruction) : Nat × machine :=
  (m.instrs.length, { m with instrs := m.instrs ++ [init instruction.fresh] })

/-- Modelled from the spec: `linkInstr(prev, next)`: `prev.next = next; next.prev = prev`,
each through a pointer that must not be nil. -/
def linkInstr (m : machine) (prev next : Option Nat) : Outcome machine :=
  match prev with
  | none => .panicked .nilDereference m
  | some p =>
    if p < m.instrs.length then
      let m := m.setNext p next
      match next with
      | none => .panicked .nilDereference m
      | some n =>
        if n < m.instrs.length then .done (m.setPrev n prev)
        else .panicked .nilDereference m
    else .panicked .nilDereference m

/-- `machine.SetupPrologue`. -/
def SetupPrologue (m : machine) : Outcome machine :=
  let cur := m.RootInstr
  match cur with
  | none => .panicked .nilDereference m
  | some root =>
    match m.nextOf root with
    | none => .panicked .nilDereference m
    | some prevInitInst =>
      let a := m.allocateInstr (fun i => i.asPush64 (newOperandReg rbpVReg))
      match linkInstr a.2 cur (some a.1) with
      | .panicked p m => .panicked p m
      | .done m =>
        let cur := some a.1
        let a := m.allocateInstr (fun i => i.asMovRR rspVReg rbpVReg true)
        match linkInstr a.2 cur (some a.1) with
        | .panicked p m => .panicked p m
        | .done m =>
          let cur := some a.1
          if m.clobberedRegs.length > 0 then
            .panicked .todoSaveClobberedRegisters m
          else if m.spillSlotSize > 0 then
            .panicked .todoAllocateSpillSlots m
          else
            linkInstr m cur prevInitInst

/-- `machine.setupEpilogueAfter`. -/
def setupEpilogueAfter (m : machine) (cur : Option Nat) : Outcome machine :=
  match cur with
  | none => .panicked .nilDereference m
  | some c =>
    match m.nextOf c with
    | none => .panicked .nilDereference m
    | some prevNext =>
      if m.spillSlotSize > 0 then
        .panicked .todoDeallocateSpillSlots m
      else if m.clobberedRegs.length > 0 then
        .panicked .todoRestoreClobberedRegisters m
      else
        let a := m.allocateInstr (fun i => i.asMovRR rbpVReg rspVReg true)
        match linkInstr a.2 cur (some a.1) with
        | .panicked p m => .panicked p m
        | .done m =>
          let cur := some a.1
          let a := m.allocateInstr (fun i => i.asPop64 rbpVReg)
          match linkInstr a.2 cur (some a.1) with
          | .panicked p m => .panicked p m
          | .done m => linkInstr m (some a.1) prevNext

/-- The loop of `machine.SetupEpilogue`, from `cur`; every iteration uses one unit of
fuel, and `cur.next` is read after the body of the iteration has run. -/
def SetupEpilogue.loop : Nat → machine → Option Nat → Outcome machine
  | _, m, none => .done m
  | 0, m, some _ => .panicked .outOfFuel m
  | fuel + 1, m, some a =>
    match m.instrs[a]? with
    | none => .panicked .nilDereference m
    | some cur =>
      if cur.kind = .ret then
        match setupEpilogueAfter m cur.prev with
        | .panicked p m => .panicked p m
        | .done m => SetupEpilogue.loop fuel m ((m.nextOf a).getD none)
      else if cur.redundantCopy then
        let prev := cur.prev
        let next := cur.next
        match prev with
        | none => .panicked .nilDereference m
        | some p =>
          if p < m.instrs.length then
            let m := m.setNext p next
            let m :=
              match next with
              | some n => m.setPrev n prev
              | none => m
            SetupEpilogue.loop fuel m ((m.nextOf a).getD none)
          else .panicked .nilDereference m
      else
        SetupEpilogue.loop fuel m cur.next

/-- `machine.SetupEpilogue`. -/
def SetupEpilogue (fuel : Nat) (m : machine) : Outcome machine :=
  SetupEpilogue.loop fuel m m.RootInstr

/-! ### Streams -/

/-- The address that follows the list `l`: its head, or `e` when it is empty. -/
def headOr (l : List Nat) (e : Option Nat) : Option Nat :=
  match l with
  | [] => e
  | b :: _ => some b

/-- Following `next` links visits exactly the addresses of `l`, in order, and the last
one links to `e`. -/
def nextSeg (m : machine) : List Nat → Option Nat → Prop
  | [], _ => True
  | a :: l, e => m.nextOf a = some (headOr l e) ∧ nextSeg m l e

/-- Every address of `l` links back, through `prev`, to the one before it, the first one
to `p`. -/
def prevSeg (m : machine) : Option Nat → List Nat → Prop
  | _, [] => True
  | p, a :: l => m.prevOf a = some p ∧ prevSeg m (some a) l

/-- The stream: `l` lists the addresses reached from its head through `next`, until nil. -/
def isStream (m : machine) (l : List Nat) : Prop := nextSeg m l none

/-- Adjacency: every node with a successor is the `prev` of that successor. -/
def prevLinked (m : machine) : List Nat → Prop
  | [] => True
  | a :: l => prevSeg m (some a) l

/-- A well-formed doubly-linked stream. -/
def wellFormed (m : machine) (l : List Nat) : Prop := isStream m l ∧ prevLinked m l

/-- The instructions at the addresses of `l`, without their links. -/
def machine.contents (m : machine) (l : List Nat) : List instruction :=
  l.filterMap m.payload

/-- The kind of the record at address `a`. -/
def machine.kindOf (m : machine) (a : Nat) : Option instructionKind :=
  (m.instrs[a]?).map (fun i => i.kind)

/-- The epilogue copy `mov %rbp, %rsp`, without links. -/
def movRbpRsp : instruction := instruction.fresh.asMovRR rbpVReg rspVReg true

/-- The epilogue `pop %rbp`, without links. -/
def popRbp : instruction := instruction.fresh.asPop64 rbpVReg

/-- The prologue `push %rbp`, without links. -/
def pushRbp : instruction := instruction.fresh.asPush64 (newOperandReg rbpVReg)

/-- The prologue copy `mov %rsp, %rbp`, without links. -/
def movRspRbp : instruction := instruction.fresh.asMovRR rspVReg rbpVReg true

/-- What the frame builder is to make of a sequence of instructions: every redundant copy
deleted and every return `r` replaced by `mov %rbp, %rsp; pop %rbp; r`. -/
def withEpilogues : List instruction → List instruction
  | [] => []
  | i :: l =>
    if i.kind = .ret then movRbpRsp :: popRbp :: i :: withEpilogues l
    else if i.redundantCopy then withEpilogues l
    else i :: withEpilogues l

/-- Decision procedure for `nextSeg`. -/
def nextSeg.decide (m : machine) : (l : List Nat) → (e : Option Nat) → Decidable (nextSeg m l e)
  | [], _ => isTrue trivial
  | a :: l, e =>
    @instDecidableAnd (m.nextOf a = some (headOr l e)) (nextSeg m l e) inferInstance
      (nextSeg.decide m l e)

instance nextSeg.decidable (m : machine) (l : List Nat) (e : Option Nat) :
    Decidable (nextSeg m l e) := nextSeg.decide m l e

/-- Decision procedure for `prevSeg`. -/
def prevSeg.decide (m : machine) : (p : Option Nat) → (l : List Nat) → Decidable (prevSeg m p l)
  | _, [] => isTrue trivial
  | p, a :: l =>
    @instDecidableAnd (m.prevOf a = some p) (prevSeg m (some a) l) inferInstance
      (prevSeg.decide m (some a) l)

instance prevSeg.decidable (m : machine) (p : Option Nat) (l : List Nat) :
    Decidable (prevSeg m p l) := prevSeg.decide m p l

instance isStream.decidable (m : machine) (l : List Nat) : Decidable (isStream m l) :=
  nextSeg.decide m l none

instance prevLinked.decidable (m : machine) : (l : List Nat) → Decidable (prevLinked m l)
  | [] => isTrue trivial
  | a :: l => prevSeg.decide m (some a) l

instance wellFormed.decidable (m : machine) (l : List Nat) : Decidable (wellFormed m l) :=
  @instDecidableAnd (isStream m l) (prevLinked m l) inferInstance inferInstance

/-! ### Concrete streams -/

/-- The register `%rax`. -/
def raxVReg : VReg := ⟨1, 1, .RegTypeInt⟩

/-- The register `%rcx`. -/
def rcxVReg : VReg := ⟨2, 2, .RegTypeInt⟩

/-- A record of kind `k` between `prev` and `next`. -/
def exampleNode (k : instructionKind) (prev next : Option Nat) : instruction :=
  { instruction.fresh with kind := k, prev := prev, next := next }

/-- A copy from `src` to `dst` between `prev` and `next`. -/
def exampleCopy (src dst : VReg) (prev next : Option Nat) : instruction :=
  { instruction.fresh.asMovRR src dst true with prev := prev, next := next }

/-- The stream `nop -> mov %rax,%rcx -> mov %rax,%rax -> ret`, no spill slots, no clobbered
registers. -/
def exampleStream : machine :=
  { RootInstr := some 0
    clobberedRegs := []
    spillSlotSize := 0
    stackBoundsCheckDisabled := true
    instrs :=
      [exampleNode .nop0 none (some 1), exampleCopy raxVReg rcxVReg (some 0) (some 2),
        exampleCopy raxVReg raxVReg (some 1) (some 3), exampleNode .ret (some 2) none] }

/-- The stream `mov %rax,%rax -> ret`, whose root is a redundant copy. -/
def exampleRootCopy : machine :=
  { RootInstr := some 0
    clobberedRegs := []
    spillSlotSize := 0
    stackBoundsCheckDisabled := true
    instrs := [exampleCopy raxVReg raxVReg none (some 1), exampleNode .ret (some 0) none] }

/-- The stream `nop -> ret -> mov %rax,%rax` of a function that needs 8 bytes of spill
slots. -/
def exampleSpill : machine :=
  { RootInstr := some 0
    clobberedRegs := []
    spillSlotSize := 8
    stackBoundsCheckDisabled := true
    instrs :=
      [exampleNode .nop0 none (some 1), exampleNode .ret (some 0) (some 2),
        exampleCopy raxVReg raxVReg (some 1) none] }

/-- The stream made of a single return, which is its root. -/
def exampleRootRet : machine :=
  { RootInstr := some 0
    clobberedRegs := []
    spillSlotSize := 0
    stackBoundsCheckDisabled := true
    instrs := [exampleNode .ret none none] }

/-- The stream `nop -> ret` of a function that clobbers `%rax`. -/
def exampleClobbered : machine :=
  { RootInstr := some 0
    clobberedRegs := [raxVReg]
    spillSlotSize := 0
    stackBoundsCheckDisabled := true
    instrs := [exampleNode .nop0 none (some 1), exampleNode .ret (some 0) none] }

/-- The stream made of a single return, which is its root, of a function that needs 8
bytes of spill slots. -/
def exampleRootRetSpill : machine :=
  { RootInstr := some 0
    clobberedRegs := []
    spillSlotSize := 8
    stackBoundsCheckDisabled := true
    instrs := [exampleNode .ret none none] }

/-- The stream `nop -> mov %rax,%rcx -> mov %rax,%rax -> ret` with stack-bounds checking
enabled, no spill slots, no clobbered registers. -/
def exampleBoundsChecked : machine :=
  { RootInstr := some 0
    clobberedRegs := []
    spillSlotSize := 0
    stackBoundsCheckDisabled := false
    instrs :=
      [exampleNode .nop0 none (some 1), exampleCopy raxVReg rcxVReg (some 0) (some 2),
        exampleCopy raxVReg raxVReg (some 1) (some 3), exampleNode .ret (some 2) none] }

/-- The stream `nop -> mov %rax,%rax -> mov %rcx,%rcx -> ret -> mov %rax,%rax`: a run of
two redundant copies, the second one right before a return, and a redundant copy at the
end. -/
def exampleCopyRuns : machine :=
  { RootInstr := some 0
    clobberedRegs := []
    spillSlotSize := 0
    stackBoundsCheckDisabled := true
    instrs :=
      [exampleNode .nop0 none (some 1), exampleCopy raxVReg raxVReg (some 0) (some 2),
        exampleCopy rcxVReg rcxVReg (some 1) (some 3), exampleNode .ret (some 2) (some 4),
        exampleCopy raxVReg raxVReg (some 3) none] }

end amd64

/-! # Theorems -/

/-! ## `lowerBlockArguments`: what each loop records -/

theorem classify_eq (args params : List ssa.Value) (c : compiler σ) :
    lowerBlockArguments.classify c args params =
      { c with
        varEdges := c.varEdges ++
          (args.zip params).filterMap (moveEdgeOf c.ssaValueToVRegs c.ssaValueDefinitions)
        constEdges := c.constEdges ++
          (args.zip params).filterMap (constEdgeOf c.ssaValueToVRegs c.ssaValueDefinitions) } := by
  induction args generalizing params c with
  | nil => simp [lowerBlockArguments.classify]
  | cons src args ih =>
    cases params with
    | nil => simp [lowerBlockArguments.classify]
    | cons dst params =>
      simp only [lowerBlockArguments.classify, List.zip_cons_cons, List.filterMap_cons]
      rw [ih]
      cases hd : (c.ssaValueDefinitions src).Instr with
      | none =>
        by_cases hne : c.VRegOf src = c.VRegOf dst
        · have hne2 : c.ssaValueToVRegs src = c.ssaValueToVRegs dst := hne
          simp [moveEdgeOf, constEdgeOf, constantDef, hd, hne, hne2]
        · have hne2 : ¬ c.ssaValueToVRegs src = c.ssaValueToVRegs dst := hne
          simp [moveEdgeOf, constEdgeOf, constantDef, hd, hne, hne2, compiler.VRegOf]
      | some cInst =>
        by_cases hc : cInst.Constant = true
        · simp [moveEdgeOf, constEdgeOf, constantDef, hd, hc, compiler.VRegOf]
        · by_cases hne : c.VRegOf src = c.VRegOf dst
          · have hne2 : c.ssaValueToVRegs src = c.ssaValueToVRegs dst := hne
            simp [moveEdgeOf, constEdgeOf, constantDef, hd, hc, hne, hne2]
          · have hne2 : ¬ c.ssaValueToVRegs src = c.ssaValueToVRegs dst := hne
            simp [moveEdgeOf, constEdgeOf, constantDef, hd, hc, hne, hne2, compiler.VRegOf]

theorem markSources_eq (es : List (VReg × VReg)) (c : compiler σ) :
    lowerBlockArguments.markSources c es =
      { c with vRegSet := (es.map Prod.fst).reverse ++ c.vRegSet } := by
  induction es generalizing c with
  | nil => simp [lowerBlockArguments.markSources]
  | cons e es ih => simp [lowerBlockArguments.markSources, ih]

theorem separated_eq (es : List (VReg × VReg)) (c : compiler σ) :
    lowerBlockArguments.separated c es = true ↔ ∀ e ∈ es, e.2 ∉ c.vRegSet := by
  induction es with
  | nil => simp [lowerBlockArguments.separated]
  | cons e es ih =>
    by_cases h : e.2 ∈ c.vRegSet
    · simp [lowerBlockArguments.separated, h]
    · simp [lowerBlockArguments.separated, h, ih]

theorem direct_eq (es : List (VReg × VReg)) (c : compiler σ) :
    lowerBlockArguments.direct c es = { c with trace := c.trace ++ directMoves es } := by
  induction es generalizing c with
  | nil => simp [lowerBlockArguments.direct, directMoves]
  | cons e es ih => simp [lowerBlockArguments.direct, ih, directMoves, compiler.emit]

theorem loadConstants_eq (es : List (ssa.Instruction × VReg)) (c : compiler σ) :
    lowerBlockArguments.loadConstants c es =
      { c with trace := c.trace ++ constantLoads es } := by
  induction es generalizing c with
  | nil => simp [lowerBlockArguments.loadConstants, constantLoads]
  | cons e es ih => simp [lowerBlockArguments.loadConstants, ih, constantLoads, compiler.emit]

theorem toTemps_eq (es : List (VReg × VReg)) (c : compiler σ) :
    lowerBlockArguments.toTemps c es =
      { c with
        vregAlloc := allocateEnd c.allocateVReg c.vregAlloc (es.map (fun e => e.1.RegType))
        tempRegs := c.tempRegs ++
          allocateAll c.allocateVReg c.vregAlloc (es.map (fun e => e.1.RegType))
        trace := c.trace ++
          toTempsCalls (allocateAll c.allocateVReg c.vregAlloc (es.map (fun e => e.1.RegType)))
            es } := by
  induction es generalizing c with
  | nil => simp [lowerBlockArguments.toTemps, allocateAll, allocateEnd, toTempsCalls]
  | cons e es ih =>
    simp [lowerBlockArguments.toTemps, ih, allocateAll, allocateEnd, toTempsCalls,
      compiler.emit, compiler.AllocateVReg]

theorem fromTemps_eq (es : List (VReg × VReg)) (temps : List VReg) (c : compiler σ)
    (h : temps.length = es.length) :
    lowerBlockArguments.fromTemps c temps es =
      .done { c with trace := c.trace ++ movesFromTemps temps es } := by
  induction es generalizing c temps with
  | nil => simp [lowerBlockArguments.fromTemps, movesFromTemps]
  | cons e es ih =>
    cases temps with
    | nil => simp at h
    | cons t ts =>
      simp only [List.length_cons, Nat.add_right_cancel_iff] at h
      simp [lowerBlockArguments.fromTemps, ih _ _ h, movesFromTemps, compiler.emit]

theorem allocateAll_length (alloc : σ → RegType → VReg × σ) (s : σ) (ts : List RegType) :
    (allocateAll alloc s ts).length = ts.length := by
  induction ts generalizing s with
  | nil => rfl
  | cons t ts ih => simp [allocateAll, ih]

theorem moveEdges_eq (c : compiler σ) (args : List ssa.Value) (succ : ssa.BlockRef) :
    moveEdges c args succ =
      (args.zip succ.params).filterMap
        (moveEdgeOf c.ssaValueToVRegs c.ssaValueDefinitions) := by
  simp [moveEdges, classify_eq]

theorem constantEdges_eq (c : compiler σ) (args : List ssa.Value) (succ : ssa.BlockRef) :
    constantEdges c args succ =
      (args.zip succ.params).filterMap
        (constEdgeOf c.ssaValueToVRegs c.ssaValueDefinitions) := by
  simp [constantEdges, classify_eq]

theorem separated_iff (c0 : compiler σ) (es : List (VReg × VReg)) (h0 : c0.vRegSet = []) :
    lowerBlockArguments.separated (lowerBlockArguments.markSources c0 es) es = true ↔
      nonOverlapping es := by
  rw [separated_eq]
  simp [markSources_eq, nonOverlapping, h0]

/-- On matching counts and non-overlapping edges the direct strategy runs. -/
theorem lowerBlockArguments_direct (c : compiler σ) (args : List ssa.Value)
    (succ : ssa.BlockRef) (hlen : args.length = succ.Params)
    (hsep : nonOverlapping (moveEdges c args succ)) :
    ∃ c2, lowerBlockArguments c args succ = .done c2 ∧
      c2.trace = c.trace ++
        (directMoves (moveEdges c args succ) ++ constantLoads (constantEdges c args succ)) ∧
      c2.vregAlloc = c.vregAlloc := by
  unfold lowerBlockArguments
  simp only [hlen, ne_eq, not_true_eq_false, ↓reduceIte]
  split
  · refine ⟨_, rfl, ?_, ?_⟩
    · simp [direct_eq, loadConstants_eq, markSources_eq, moveEdges, constantEdges, classify_eq]
    · simp [direct_eq, loadConstants_eq, markSources_eq, classify_eq]
  · rename_i h
    rw [separated_eq] at h
    simp only [markSources_eq, classify_eq] at h
    simp only [nonOverlapping, moveEdges_eq] at hsep
    simp at h hsep
    obtain ⟨a, b, v1, v2, hm, he, y, w1, w2, hm2, he2⟩ := h
    exact (hsep a b v1 v2 hm he y w1 w2 hm2 he2).elim

/-- On matching counts and overlapping edges the two-phase strategy runs. -/
theorem lowerBlockArguments_twoPhase (c : compiler σ) (args : List ssa.Value)
    (succ : ssa.BlockRef) (hlen : args.length = succ.Params)
    (hov : ¬ nonOverlapping (moveEdges c args succ)) :
    ∃ c2, lowerBlockArguments c args succ = .done c2 ∧
      c2.trace = c.trace ++
        (toTempsCalls
            (allocateAll c.allocateVReg c.vregAlloc
              ((moveEdges c args succ).map (fun e => e.1.RegType)))
            (moveEdges c args succ) ++
          (movesFromTemps
            (allocateAll c.allocateVReg c.vregAlloc
              ((moveEdges c args succ).map (fun e => e.1.RegType)))
            (moveEdges c args succ) ++
          constantLoads (constantEdges c args succ))) := by
  unfold lowerBlockArguments
  simp only [hlen, ne_eq, not_true_eq_false, ↓reduceIte]
  split
  · rename_i h
    rw [separated_eq] at h
    simp only [markSources_eq, classify_eq] at h
    simp only [nonOverlapping, moveEdges_eq] at hov
    simp at h hov
    obtain ⟨a, b, v1, v2, hm, he, y, w1, w2, hm2, he2⟩ := hov
    exact (h a b v1 v2 hm he y w1 w2 hm2 he2).elim
  · simp only [toTemps_eq]
    rw [fromTemps_eq]
    · refine ⟨_, rfl, ?_⟩
      simp [loadConstants_eq, markSources_eq, moveEdges, constantEdges, classify_eq]
    · simp [allocateAll_length, markSources_eq]

theorem emittedBy_direct (c : compiler σ) (args : List ssa.Value)
    (succ : ssa.BlockRef) (hlen : args.length = succ.Params)
    (hsep : nonOverlapping (moveEdges c args succ)) :
    emittedBy c args succ =
      directMoves (moveEdges c args succ) ++ constantLoads (constantEdges c args succ) := by
  obtain ⟨c2, h1, h2, _⟩ := lowerBlockArguments_direct c args succ hlen hsep
  simp [emittedBy, emitted, h1, Outcome.state, h2]

theorem emittedBy_twoPhase (c : compiler σ) (args : List ssa.Value)
    (succ : ssa.BlockRef) (hlen : args.length = succ.Params)
    (hov : ¬ nonOverlapping (moveEdges c args succ)) :
    emittedBy c args succ =
      toTempsCalls
          (allocateAll c.allocateVReg c.vregAlloc
            ((moveEdges c args succ).map (fun e => e.1.RegType)))
          (moveEdges c args succ) ++
        (movesFromTemps
          (allocateAll c.allocateVReg c.vregAlloc
            ((moveEdges c args succ).map (fun e => e.1.RegType)))
          (moveEdges c args succ) ++
        constantLoads (constantEdges c args succ)) := by
  obtain ⟨c2, h1, h2⟩ := lowerBlockArguments_twoPhase c args succ hlen hov
  simp [emittedBy, emitted, h1, Outcome.state, h2]

/-! ### Which recorded calls are moves, loads, allocations -/

theorem filter_isMove_directMoves (es : List (VReg × VReg)) :
    (directMoves es).filter Event.isMove = directMoves es := by
  induction es with
  | nil => rfl
  | cons e es ih =>
    simp only [directMoves, List.map_cons] at ih ⊢
    simp [Event.isMove, ih]

theorem filter_isMove_constantLoads (ks : List (ssa.Instruction × VReg)) :
    (constantLoads ks).filter Event.isMove = [] := by
  induction ks with
  | nil => rfl
  | cons e es ih =>
    simp only [constantLoads, List.map_cons] at ih ⊢
    simp [Event.isMove, ih]

theorem filter_isLoad_constantLoads (ks : List (ssa.Instruction × VReg)) :
    (constantLoads ks).filter Event.isLoadConstant = constantLoads ks := by
  induction ks with
  | nil => rfl
  | cons e es ih =>
    simp only [constantLoads, List.map_cons] at ih ⊢
    simp [Event.isLoadConstant, ih]

theorem filter_isLoad_directMoves (es : List (VReg × VReg)) :
    (directMoves es).filter Event.isLoadConstant = [] := by
  induction es with
  | nil => rfl
  | cons e es ih =>
    simp only [directMoves, List.map_cons] at ih ⊢
    simp [Event.isLoadConstant, ih]

theorem allocated_directMoves (es : List (VReg × VReg)) :
    (directMoves es).filterMap Event.allocated = [] := by
  induction es with
  | nil => rfl
  | cons e es ih =>
    simp only [directMoves, List.map_cons] at ih ⊢
    simp [Event.allocated, ih]

theorem allocated_constantLoads (ks : List (ssa.Instruction × VReg)) :
    (constantLoads ks).filterMap Event.allocated = [] := by
  induction ks with
  | nil => rfl
  | cons e es ih =>
    simp only [constantLoads, List.map_cons] at ih ⊢
    simp [Event.allocated, ih]

theorem movesFromTemps_eq_directMoves (ts : List VReg) (es : List (VReg × VReg)) :
    movesFromTemps ts es = directMoves ((ts.zip es).map (fun p => (p.1, p.2.2))) := by
  simp [movesFromTemps, directMoves]

theorem movesToTemps_eq_directMoves (ts : List VReg) (es : List (VReg × VReg)) :
    movesToTemps ts es = directMoves ((ts.zip es).map (fun p => (p.2.1, p.1))) := by
  simp [movesToTemps, directMoves]

theorem filter_isMove_toTempsCalls (ts : List VReg) (es : List (VReg × VReg)) :
    (toTempsCalls ts es).filter Event.isMove = movesToTemps ts es := by
  induction ts generalizing es with
  | nil => simp [toTempsCalls, movesToTemps]
  | cons t ts ih =>
    cases es with
    | nil => simp [toTempsCalls, movesToTemps]
    | cons e es =>
      have := ih es
      simp only [movesToTemps] at this
      simp [toTempsCalls, movesToTemps, Event.isMove, this]

theorem filter_isLoad_toTempsCalls (ts : List VReg) (es : List (VReg × VReg)) :
    (toTempsCalls ts es).filter Event.isLoadConstant = [] := by
  induction ts generalizing es with
  | nil => simp [toTempsCalls]
  | cons t ts ih =>
    cases es with
    | nil => simp [toTempsCalls]
    | cons e es => simp [toTempsCalls, Event.isLoadConstant, ih es]

theorem allocated_toTempsCalls (ts : List VReg) (es : List (VReg × VReg))
    (h : ts.length = es.length) :
    (toTempsCalls ts es).filterMap Event.allocated = ts := by
  induction ts generalizing es with
  | nil => simp [toTempsCalls]
  | cons t ts ih =>
    cases es with
    | nil => simp at h
    | cons e es =>
      simp only [List.length_cons, Nat.add_right_cancel_iff] at h
      simp [toTempsCalls, Event.allocated, ih es h]

/-! ### Running a sequence of moves -/

theorem exec_append {V : Type} (cval : ssa.Instruction → V) (s : VReg → V)
    (xs ys : List Event) : exec cval s (xs ++ ys) = exec cval (exec cval s xs) ys := by
  simp [exec, List.foldl_append]

/-- A register that is no destination keeps its value. -/
theorem exec_directMoves_frame {V : Type} (cval : ssa.Instruction → V)
    (ps : List (VReg × VReg)) (s : VReg → V) (r : VReg) (hr : r ∉ ps.map Prod.snd) :
    exec cval s (directMoves ps) r = s r := by
  induction ps generalizing s with
  | nil => rfl
  | cons p ps ih =>
    simp only [List.map_cons, List.mem_cons, not_or] at hr
    have : exec cval s (directMoves (p :: ps)) =
        exec cval (Function.update s p.2 (s p.1)) (directMoves ps) := rfl
    rw [this, ih _ hr.2, Function.update_noteq hr.1]

/-- When the destinations are pairwise distinct and none of them is a source, every
destination ends up with the value its source had at the start. -/
theorem exec_directMoves_dst {V : Type} (cval : ssa.Instruction → V)
    (ps : List (VReg × VReg)) (s : VReg → V)
    (hnd : (ps.map Prod.snd).Nodup) (hsep : ∀ p ∈ ps, p.1 ∉ ps.map Prod.snd)
    (p : VReg × VReg) (hp : p ∈ ps) :
    exec cval s (directMoves ps) p.2 = s p.1 := by
  induction ps generalizing s with
  | nil => simp at hp
  | cons q ps ih =>
    have hstep : exec cval s (directMoves (q :: ps)) =
        exec cval (Function.update s q.2 (s q.1)) (directMoves ps) := rfl
    simp only [List.map_cons, List.nodup_cons] at hnd
    rw [hstep]
    rcases List.mem_cons.1 hp with rfl | hp2
    · rw [exec_directMoves_frame cval ps _ _ hnd.1, Function.update_same]
    · have hsep2 : ∀ p ∈ ps, p.1 ∉ ps.map Prod.snd := by
        intro x hx hmem
        exact hsep x (List.mem_cons_of_mem _ hx) (by simp only [List.map_cons]; exact List.mem_cons_of_mem _ hmem)
      rw [ih _ hnd.2 hsep2 hp2]
      have hne : p.1 ≠ q.2 := by
        intro he
        exact hsep p hp (by simp [he])
      rw [Function.update_noteq hne]

theorem exists_mem_zip_of_mem {α β : Type} (ts : List α) (es : List β)
    (h : ts.length = es.length) (e : β) (he : e ∈ es) : ∃ t, (t, e) ∈ ts.zip es := by
  induction es generalizing ts with
  | nil => simp at he
  | cons x es ih =>
    cases ts with
    | nil => simp at h
    | cons t ts =>
      simp only [List.length_cons, Nat.add_right_cancel_iff] at h
      rcases List.mem_cons.1 he with rfl | he2
      · exact ⟨t, by simp⟩
      · obtain ⟨t2, ht2⟩ := ih ts h he2
        exact ⟨t2, by simp [ht2]⟩

/-- The two-phase strategy on edges `es` with temporaries `ts`. -/
theorem exec_twoPhase {V : Type} (cval : ssa.Instruction → V)
    (ts : List VReg) (es : List (VReg × VReg)) (s : VReg → V)
    (hlen : ts.length = es.length) (hts : ts.Nodup) (hdst : (es.map Prod.snd).Nodup)
    (hfresh : ∀ t ∈ ts, t ∉ es.map Prod.fst ∧ t ∉ es.map Prod.snd) :
    (∀ e ∈ es, exec cval s (movesToTemps ts es ++ movesFromTemps ts es) e.2 = s e.1) ∧
    (∀ r, r ∉ ts → r ∉ es.map Prod.snd →
      exec cval s (movesToTemps ts es ++ movesFromTemps ts es) r = s r) := by
  have h1snd : ((ts.zip es).map (fun p => (p.2.1, p.1))).map Prod.snd = ts := by
    rw [List.map_map]
    exact List.map_fst_zip ts es (le_of_eq hlen)
  have h2snd : ((ts.zip es).map (fun p => (p.1, p.2.2))).map Prod.snd = es.map Prod.snd := by
    rw [List.map_map]
    have : (Prod.snd ∘ fun p : VReg × VReg × VReg => (p.1, p.2.2)) = Prod.snd ∘ Prod.snd := rfl
    rw [this, ← List.map_map, List.map_snd_zip ts es (le_of_eq hlen.symm)]
  have hmem1 : ∀ p ∈ (ts.zip es).map (fun p => (p.2.1, p.1)), p.1 ∈ es.map Prod.fst := by
    intro p hp
    obtain ⟨q, hq, rfl⟩ := List.mem_map.1 hp
    exact List.mem_map.2 ⟨q.2, (List.of_mem_zip hq).2, rfl⟩
  have hmem2 : ∀ p ∈ (ts.zip es).map (fun p => (p.1, p.2.2)), p.1 ∈ ts := by
    intro p hp
    obtain ⟨q, hq, rfl⟩ := List.mem_map.1 hp
    exact (List.of_mem_zip hq).1
  rw [movesToTemps_eq_directMoves, movesFromTemps_eq_directMoves]
  constructor
  · intro e he
    obtain ⟨t, ht⟩ := exists_mem_zip_of_mem ts es hlen e he
    rw [exec_append]
    have hp2 : (t, e.2) ∈ (ts.zip es).map (fun p => (p.1, p.2.2)) :=
      List.mem_map.2 ⟨(t, e), ht, rfl⟩
    have hp1 : (e.1, t) ∈ (ts.zip es).map (fun p => (p.2.1, p.1)) :=
      List.mem_map.2 ⟨(t, e), ht, rfl⟩
    have step2 := exec_directMoves_dst cval _
      (exec cval s (directMoves ((ts.zip es).map (fun p => (p.2.1, p.1)))))
      (by rw [h2snd]; exact hdst)
      (by
        intro p hp
        rw [h2snd]
        exact (hfresh p.1 (hmem2 p hp)).2)
      (t, e.2) hp2
    have step1 := exec_directMoves_dst cval _ s
      (by rw [h1snd]; exact hts)
      (by
        intro p hp hin
        rw [h1snd] at hin
        exact (hfresh p.1 hin).1 (hmem1 p hp))
      (e.1, t) hp1
    simpa [step1] using step2
  · intro r hr1 hr2
    rw [exec_append, exec_directMoves_frame cval _ _ r (by rw [h2snd]; exact hr2),
      exec_directMoves_frame cval _ _ r (by rw [h1snd]; exact hr1)]

theorem temporaries_twoPhase (c : compiler σ) (args : List ssa.Value)
    (succ : ssa.BlockRef) (hlen : args.length = succ.Params)
    (hov : ¬ nonOverlapping (moveEdges c args succ)) :
    temporaries c args succ =
      allocateAll c.allocateVReg c.vregAlloc
        ((moveEdges c args succ).map (fun e => e.1.RegType)) := by
  rw [temporaries, emittedBy_twoPhase c args succ hlen hov]
  simp only [List.filterMap_append, allocated_constantLoads, List.append_nil]
  rw [allocated_toTempsCalls _ _ (by simp [allocateAll_length])]
  rw [movesFromTemps_eq_directMoves, allocated_directMoves, List.append_nil]

theorem emittedMoves_twoPhase (c : compiler σ) (args : List ssa.Value)
    (succ : ssa.BlockRef) (hlen : args.length = succ.Params)
    (hov : ¬ nonOverlapping (moveEdges c args succ)) :
    emittedMoves c args succ =
      movesToTemps (temporaries c args succ) (moveEdges c args succ) ++
        movesFromTemps (temporaries c args succ) (moveEdges c args succ) := by
  rw [temporaries_twoPhase c args succ hlen hov]
  rw [emittedMoves, emittedBy_twoPhase c args succ hlen hov]
  simp only [List.filter_append, filter_isMove_constantLoads, List.append_nil,
    filter_isMove_toTempsCalls]
  rw [movesFromTemps_eq_directMoves, filter_isMove_directMoves]

theorem temporaries_length (c : compiler σ) (args : List ssa.Value)
    (succ : ssa.BlockRef) (hlen : args.length = succ.Params)
    (hov : ¬ nonOverlapping (moveEdges c args succ)) :
    (temporaries c args succ).length = (moveEdges c args succ).length := by
  rw [temporaries_twoPhase c args succ hlen hov]
  simp [allocateAll_length]

/-- C1: on the move edges `lowerBlockArguments` builds (the argument count matched), when
some destination is also a source, the destinations are pairwise distinct and the
temporaries returned by `AllocateVReg` are pairwise distinct and differ from every source
and every destination, running the emitted `InsertMove` calls in order from any register
state `s` leaves `s(src_i)` in every `dst_i`; on every register that is not a temporary
the final state is the simultaneous assignment of all edges from `s`. -/
theorem lowerBlockArguments_overlap_simultaneous {V : Type} (cval : ssa.Instruction → V)
    (c : compiler σ) (args : List ssa.Value) (succ : ssa.BlockRef) (s : VReg → V)
    (hlen : args.length = succ.Params)
    (hov : ¬ nonOverlapping (moveEdges c args succ))
    (hdst : ((moveEdges c args succ).map Prod.snd).Nodup)
    (htmp : (temporaries c args succ).Nodup)
    (hfresh : ∀ t ∈ temporaries c args succ,
      t ∉ (moveEdges c args succ).map Prod.fst ∧ t ∉ (moveEdges c args succ).map Prod.snd) :
    (∀ e ∈ moveEdges c args succ, exec cval s (emittedMoves c args succ) e.2 = s e.1) ∧
    (∀ r, r ∉ temporaries c args succ →
      exec cval s (emittedMoves c args succ) r = simultaneous (moveEdges c args succ) s r) := by
  have hT := temporaries_length c args succ hlen hov
  have key := exec_twoPhase cval (temporaries c args succ) (moveEdges c args succ) s
    hT htmp hdst hfresh
  rw [emittedMoves_twoPhase c args succ hlen hov]
  refine ⟨key.1, ?_⟩
  intro r hr
  unfold simultaneous
  cases hf : (moveEdges c args succ).find? (fun e => decide (e.2 = r)) with
  | none =>
    have hnone := List.find?_eq_none.1 hf
    apply key.2 r hr
    intro hmem
    obtain ⟨e, he, rfl⟩ := List.mem_map.1 hmem
    exact absurd (hnone e he) (by simp)
  | some e =>
    have he := List.mem_of_find?_eq_some hf
    have her : e.2 = r := by simpa using List.find?_some hf
    simp only []
    rw [← her]
    exact key.1 e he

/-- C1 at a concrete input: the swap `R1 -> R2`, `R2 -> R1`. -/
theorem lowerBlockArguments_overlap_simultaneous_witness :
    (∀ e ∈ moveEdges exampleCompiler [⟨1⟩, ⟨2⟩] (exampleBlock [⟨2⟩, ⟨1⟩]),
      exec (fun _ => 0) (fun r => r.id)
        (emittedMoves exampleCompiler [⟨1⟩, ⟨2⟩] (exampleBlock [⟨2⟩, ⟨1⟩])) e.2 = e.1.id) ∧
    (∀ r, r ∉ temporaries exampleCompiler [⟨1⟩, ⟨2⟩] (exampleBlock [⟨2⟩, ⟨1⟩]) →
      exec (fun _ => 0) (fun r => r.id)
        (emittedMoves exampleCompiler [⟨1⟩, ⟨2⟩] (exampleBlock [⟨2⟩, ⟨1⟩])) r =
      simultaneous (moveEdges exampleCompiler [⟨1⟩, ⟨2⟩] (exampleBlock [⟨2⟩, ⟨1⟩]))
        (fun r => r.id) r) :=
  lowerBlockArguments_overlap_simultaneous (fun _ => 0) exampleCompiler [⟨1⟩, ⟨2⟩]
    (exampleBlock [⟨2⟩, ⟨1⟩]) (fun r => r.id) (by decide) (by decide) (by decide)
    (by decide) (by decide)

theorem failure_of_length_eq (c : compiler σ) (args : List ssa.Value) (succ : ssa.BlockRef)
    (hlen : args.length = succ.Params) : (lowerBlockArguments c args succ).failure = none := by
  by_cases hsep : nonOverlapping (moveEdges c args succ)
  · obtain ⟨c2, h1, _⟩ := lowerBlockArguments_direct c args succ hlen hsep
    simp [h1, Outcome.failure]
  · obtain ⟨c2, h1, _⟩ := lowerBlockArguments_twoPhase c args succ hlen hsep
    simp [h1, Outcome.failure]

theorem emittedMoves_direct (c : compiler σ) (args : List ssa.Value)
    (succ : ssa.BlockRef) (hlen : args.length = succ.Params)
    (hsep : nonOverlapping (moveEdges c args succ)) :
    emittedMoves c args succ = directMoves (moveEdges c args succ) := by
  simp [emittedMoves, emittedBy_direct c args succ hlen hsep, filter_isMove_directMoves,
    filter_isMove_constantLoads]

theorem temporaries_direct (c : compiler σ) (args : List ssa.Value)
    (succ : ssa.BlockRef) (hlen : args.length = succ.Params)
    (hsep : nonOverlapping (moveEdges c args succ)) :
    temporaries c args succ = [] := by
  simp [temporaries, emittedBy_direct c args succ hlen hsep, allocated_directMoves,
    allocated_constantLoads]

/-- C2, amended: when the argument count matches and no move-edge destination is a
move-edge source, `lowerBlockArguments` completes, the `InsertMove` calls it records are
exactly one `InsertMove(dst_i, src_i)` per move edge, in edge order, and `AllocateVReg` is
not called. -/
theorem lowerBlockArguments_separated_direct (c : compiler σ) (args : List ssa.Value)
    (succ : ssa.BlockRef) (hlen : args.length = succ.Params)
    (hsep : nonOverlapping (moveEdges c args succ)) :
    (lowerBlockArguments c args succ).failure = none ∧
    emittedMoves c args succ = directMoves (moveEdges c args succ) ∧
    temporaries c args succ = [] ∧
    (∀ t r, Event.AllocateVReg t r ∉ emittedBy c args succ) ∧
    (lowerBlockArguments c args succ).state.vregAlloc = c.vregAlloc := by
  obtain ⟨c2, h1, _, h3⟩ := lowerBlockArguments_direct c args succ hlen hsep
  have hE := emittedBy_direct c args succ hlen hsep
  refine ⟨failure_of_length_eq c args succ hlen, emittedMoves_direct c args succ hlen hsep,
    temporaries_direct c args succ hlen hsep, ?_, ?_⟩
  · intro t r hmem
    rw [hE] at hmem
    simp [directMoves, constantLoads] at hmem
  · simp [h1, Outcome.state, h3]

/-- C2 at a concrete input: two arguments moved into two other registers. -/
theorem lowerBlockArguments_separated_direct_witness :
    (lowerBlockArguments exampleCompiler [⟨1⟩, ⟨2⟩] (exampleBlock [⟨3⟩, ⟨4⟩])).failure = none ∧
    emittedMoves exampleCompiler [⟨1⟩, ⟨2⟩] (exampleBlock [⟨3⟩, ⟨4⟩]) =
      directMoves (moveEdges exampleCompiler [⟨1⟩, ⟨2⟩] (exampleBlock [⟨3⟩, ⟨4⟩])) ∧
    temporaries exampleCompiler [⟨1⟩, ⟨2⟩] (exampleBlock [⟨3⟩, ⟨4⟩]) = [] ∧
    (∀ t r, Event.AllocateVReg t r ∉
      emittedBy exampleCompiler [⟨1⟩, ⟨2⟩] (exampleBlock [⟨3⟩, ⟨4⟩])) ∧
    (lowerBlockArguments exampleCompiler [⟨1⟩, ⟨2⟩]
      (exampleBlock [⟨3⟩, ⟨4⟩])).state.vregAlloc = exampleCompiler.vregAlloc :=
  lowerBlockArguments_separated_direct exampleCompiler [⟨1⟩, ⟨2⟩] (exampleBlock [⟨3⟩, ⟨4⟩])
    (by decide) (by decide)

/-- C2 as stated fails: one argument against a successor with two parameters has one
move edge, which overlaps nothing, yet the call stops at the count check and records no
move at all. -/
theorem lowerBlockArguments_separated_counterexample :
    nonOverlapping (moveEdges exampleCompiler [⟨1⟩] (exampleBlock [⟨2⟩, ⟨3⟩])) ∧
    moveEdges exampleCompiler [⟨1⟩] (exampleBlock [⟨2⟩, ⟨3⟩]) =
      [(⟨1, 0, .RegTypeInt⟩, ⟨2, 0, .RegTypeInt⟩)] ∧
    (lowerBlockArguments exampleCompiler [⟨1⟩] (exampleBlock [⟨2⟩, ⟨3⟩])).failure =
      some .mismatchedArguments ∧
    emittedMoves exampleCompiler [⟨1⟩] (exampleBlock [⟨2⟩, ⟨3⟩]) = [] ∧
    emittedMoves exampleCompiler [⟨1⟩] (exampleBlock [⟨2⟩, ⟨3⟩]) ≠
      directMoves (moveEdges exampleCompiler [⟨1⟩] (exampleBlock [⟨2⟩, ⟨3⟩])) := by
  decide

/-- C3, amended: when the argument count matches, `lowerBlockArguments` completes; the
`InsertLoadConstant` calls it records are, in argument order, exactly one
`InsertLoadConstant(defining instruction, VRegOf(succ.Param(i)))` for each argument `i`
defined by a constant-producing instruction; such an argument contributes no move edge, the
recorded moves are those of the move edges alone (direct, or through temporaries), and the
number of `AllocateVReg` calls is 0 or the number of move edges. -/
theorem lowerBlockArguments_constants (c : compiler σ) (args : List ssa.Value)
    (succ : ssa.BlockRef) (hlen : args.length = succ.Params) :
    (lowerBlockArguments c args succ).failure = none ∧
    emittedLoads c args succ =
      constantLoads ((args.zip succ.params).filterMap
        (constEdgeOf c.ssaValueToVRegs c.ssaValueDefinitions)) ∧
    (∀ p ∈ args.zip succ.params, ∀ cInst,
      constantDef c.ssaValueDefinitions p.1 = some cInst →
        Event.InsertLoadConstant cInst (c.VRegOf p.2) ∈ emittedLoads c args succ ∧
        moveEdgeOf c.ssaValueToVRegs c.ssaValueDefinitions p = none) ∧
    moveEdges c args succ =
      (args.zip succ.params).filterMap
        (moveEdgeOf c.ssaValueToVRegs c.ssaValueDefinitions) ∧
    (emittedMoves c args succ = directMoves (moveEdges c args succ) ∨
      emittedMoves c args succ =
        movesToTemps (temporaries c args succ) (moveEdges c args succ) ++
          movesFromTemps (temporaries c args succ) (moveEdges c args succ)) ∧
    ((temporaries c args succ).length = 0 ∨
      (temporaries c args succ).length = (moveEdges c args succ).length) := by
  have hloads : emittedLoads c args succ =
      constantLoads ((args.zip succ.params).filterMap
        (constEdgeOf c.ssaValueToVRegs c.ssaValueDefinitions)) := by
    rw [← constantEdges_eq]
    by_cases hsep : nonOverlapping (moveEdges c args succ)
    · simp [emittedLoads, emittedBy_direct c args succ hlen hsep, filter_isLoad_directMoves,
        filter_isLoad_constantLoads]
    · simp [emittedLoads, emittedBy_twoPhase c args succ hlen hsep,
        filter_isLoad_toTempsCalls, filter_isLoad_constantLoads,
        movesFromTemps_eq_directMoves, filter_isLoad_directMoves]
  refine ⟨failure_of_length_eq c args succ hlen, hloads, ?_, moveEdges_eq c args succ, ?_, ?_⟩
  · intro p hp cInst hc
    constructor
    · rw [hloads]
      simp only [constantLoads, List.mem_map, List.mem_filterMap]
      exact ⟨(cInst, c.VRegOf p.2), ⟨p, hp, by simp [constEdgeOf, hc, compiler.VRegOf]⟩, rfl⟩
    · simp [moveEdgeOf, hc]
  · by_cases hsep : nonOverlapping (moveEdges c args succ)
    · exact Or.inl (emittedMoves_direct c args succ hlen hsep)
    · exact Or.inr (emittedMoves_twoPhase c args succ hlen hsep)
  · by_cases hsep : nonOverlapping (moveEdges c args succ)
    · left
      rw [temporaries_direct c args succ hlen hsep]
      rfl
    · exact Or.inr (temporaries_length c args succ hlen hsep)

/-- C3 as stated fails: a constant argument against a successor with two parameters gets
no constant load, because the call stops at the count check. -/
theorem lowerBlockArguments_constants_counterexample :
    (constantDef exampleCompiler.ssaValueDefinitions ⟨100⟩).isSome = true ∧
    (lowerBlockArguments exampleCompiler [⟨100⟩] (exampleBlock [⟨2⟩, ⟨3⟩])).failure =
      some .mismatchedArguments ∧
    emittedLoads exampleCompiler [⟨100⟩] (exampleBlock [⟨2⟩, ⟨3⟩]) = [] := by
  decide

/-- C3 at a concrete input: a constant, and a swap of two registers. -/
theorem lowerBlockArguments_constants_witness :
    (lowerBlockArguments exampleCompiler [⟨100⟩, ⟨1⟩, ⟨2⟩]
      (exampleBlock [⟨5⟩, ⟨2⟩, ⟨1⟩])).failure = none ∧
    emittedLoads exampleCompiler [⟨100⟩, ⟨1⟩, ⟨2⟩] (exampleBlock [⟨5⟩, ⟨2⟩, ⟨1⟩]) =
      [Event.InsertLoadConstant ⟨100, .OpcodeIconst, 0, [], exampleBlock []⟩
        ⟨5, 0, .RegTypeInt⟩] ∧
    (temporaries exampleCompiler [⟨100⟩, ⟨1⟩, ⟨2⟩] (exampleBlock [⟨5⟩, ⟨2⟩, ⟨1⟩])).length =
      (moveEdges exampleCompiler [⟨100⟩, ⟨1⟩, ⟨2⟩] (exampleBlock [⟨5⟩, ⟨2⟩, ⟨1⟩])).length :=
  ⟨(lowerBlockArguments_constants exampleCompiler [⟨100⟩, ⟨1⟩, ⟨2⟩]
      (exampleBlock [⟨5⟩, ⟨2⟩, ⟨1⟩]) (by decide)).1,
    by decide, by decide⟩

/-! ### Self-edges -/

theorem dropSelfEdges_moveEdges (vreg : ssa.Value → VReg)
    (defs : ssa.Value → SSAValueDefinition) (args params : List ssa.Value) :
    ((dropSelfEdges vreg defs args params).1.zip
        (dropSelfEdges vreg defs args params).2).filterMap (moveEdgeOf vreg defs) =
      (args.zip params).filterMap (moveEdgeOf vreg defs) := by
  induction args generalizing params with
  | nil => simp [dropSelfEdges]
  | cons a args ih =>
    cases params with
    | nil => simp [dropSelfEdges]
    | cons p params =>
      by_cases hs : isSelfEdge vreg defs (a, p) = true
      · have hnone : moveEdgeOf vreg defs (a, p) = none := by
          simp only [isSelfEdge, Bool.and_eq_true, Option.isNone_iff_eq_none,
            decide_eq_true_eq] at hs
          simp [moveEdgeOf, hs.1, hs.2]
        simp [dropSelfEdges, hs, ih, hnone]
      · simp only [dropSelfEdges, hs, Bool.false_eq_true, ↓reduceIte, List.zip_cons_cons,
          List.filterMap_cons, ih]

theorem dropSelfEdges_constEdges (vreg : ssa.Value → VReg)
    (defs : ssa.Value → SSAValueDefinition) (args params : List ssa.Value) :
    ((dropSelfEdges vreg defs args params).1.zip
        (dropSelfEdges vreg defs args params).2).filterMap (constEdgeOf vreg defs) =
      (args.zip params).filterMap (constEdgeOf vreg defs) := by
  induction args generalizing params with
  | nil => simp [dropSelfEdges]
  | cons a args ih =>
    cases params with
    | nil => simp [dropSelfEdges]
    | cons p params =>
      by_cases hs : isSelfEdge vreg defs (a, p) = true
      · have hnone : constEdgeOf vreg defs (a, p) = none := by
          simp only [isSelfEdge, Bool.and_eq_true, Option.isNone_iff_eq_none,
            decide_eq_true_eq] at hs
          simp [constEdgeOf, hs.1]
        simp [dropSelfEdges, hs, ih, hnone]
      · simp only [dropSelfEdges, hs, Bool.false_eq_true, ↓reduceIte, List.zip_cons_cons,
          List.filterMap_cons, ih]

theorem dropSelfEdges_length (vreg : ssa.Value → VReg)
    (defs : ssa.Value → SSAValueDefinition) (args params : List ssa.Value) :
    (dropSelfEdges vreg defs args params).1.length =
        (dropSelfEdges vreg defs args params).2.length ↔
      args.length = params.length := by
  induction args generalizing params with
  | nil => simp [dropSelfEdges]
  | cons a args ih =>
    cases params with
    | nil => simp [dropSelfEdges]
    | cons p params =>
      by_cases hs : isSelfEdge vreg defs (a, p) = true
      · simp [dropSelfEdges, hs, ih]
      · simp [dropSelfEdges, hs, ih]

theorem classify_congr (c : compiler σ) (args params args2 params2 : List ssa.Value)
    (h1 : (args2.zip params2).filterMap (moveEdgeOf c.ssaValueToVRegs c.ssaValueDefinitions) =
      (args.zip params).filterMap (moveEdgeOf c.ssaValueToVRegs c.ssaValueDefinitions))
    (h2 : (args2.zip params2).filterMap (constEdgeOf c.ssaValueToVRegs c.ssaValueDefinitions) =
      (args.zip params).filterMap (constEdgeOf c.ssaValueToVRegs c.ssaValueDefinitions)) :
    lowerBlockArguments.classify c args2 params2 = lowerBlockArguments.classify c args params := by
  rw [classify_eq, classify_eq, h1, h2]

theorem lowerBlockArguments_congr (c : compiler σ) (args args2 : List ssa.Value)
    (succ succ2 : ssa.BlockRef)
    (hl : args2.length = succ2.Params ↔ args.length = succ.Params)
    (h1 : (args2.zip succ2.params).filterMap
        (moveEdgeOf c.ssaValueToVRegs c.ssaValueDefinitions) =
      (args.zip succ.params).filterMap (moveEdgeOf c.ssaValueToVRegs c.ssaValueDefinitions))
    (h2 : (args2.zip succ2.params).filterMap
        (constEdgeOf c.ssaValueToVRegs c.ssaValueDefinitions) =
      (args.zip succ.params).filterMap (constEdgeOf c.ssaValueToVRegs c.ssaValueDefinitions)) :
    lowerBlockArguments c args2 succ2 = lowerBlockArguments c args succ := by
  have hc := classify_congr { c with varEdges := [], constEdges := [] } args succ.params
    args2 succ2.params h1 h2
  unfold lowerBlockArguments
  by_cases h : args.length = succ.Params
  · simp only [hl.2 h, h, ne_eq, not_true_eq_false, ↓reduceIte, hc]
  · have h2 : ¬ args2.length = succ2.Params := fun x => h (hl.1 x)
    simp [h, h2]

/-- C4: a self-edge argument produces no move and takes no part in overlap detection:
the outcome of `lowerBlockArguments`, with everything it records, is the one for the same
lists with all self-edge arguments and their parameters removed; and when every argument is
a self-edge no `InsertMove` is recorded and no temporary is allocated. -/
theorem lowerBlockArguments_selfEdges (c : compiler σ) (args : List ssa.Value)
    (succ : ssa.BlockRef) :
    lowerBlockArguments c
        (dropSelfEdges c.ssaValueToVRegs c.ssaValueDefinitions args succ.params).1
        { succ with
          params := (dropSelfEdges c.ssaValueToVRegs c.ssaValueDefinitions args succ.params).2 } =
      lowerBlockArguments c args succ ∧
    emittedBy c
        (dropSelfEdges c.ssaValueToVRegs c.ssaValueDefinitions args succ.params).1
        { succ with
          params := (dropSelfEdges c.ssaValueToVRegs c.ssaValueDefinitions args succ.params).2 } =
      emittedBy c args succ ∧
    ((∀ p ∈ args.zip succ.params,
        isSelfEdge c.ssaValueToVRegs c.ssaValueDefinitions p = true) →
      emittedMoves c args succ = [] ∧ temporaries c args succ = []) := by
  have key := lowerBlockArguments_congr c args
    (dropSelfEdges c.ssaValueToVRegs c.ssaValueDefinitions args succ.params).1 succ
    { succ with
      params := (dropSelfEdges c.ssaValueToVRegs c.ssaValueDefinitions args succ.params).2 }
    (dropSelfEdges_length _ _ _ _) (dropSelfEdges_moveEdges _ _ _ _)
    (dropSelfEdges_constEdges _ _ _ _)
  refine ⟨key, by simp only [emittedBy, key], ?_⟩
  intro hall
  have hE : moveEdges c args succ = [] := by
    rw [moveEdges_eq]
    apply List.filterMap_eq_nil_iff.2
    intro p hp
    have hs := hall p hp
    simp only [isSelfEdge, Bool.and_eq_true, Option.isNone_iff_eq_none,
      decide_eq_true_eq] at hs
    simp [moveEdgeOf, hs.1, hs.2]
  by_cases hlen : args.length = succ.Params
  · have hsep : nonOverlapping (moveEdges c args succ) := by
      rw [hE]
      simp [nonOverlapping]
    refine ⟨?_, temporaries_direct c args succ hlen hsep⟩
    rw [emittedMoves_direct c args succ hlen hsep, hE]
    rfl
  · have hp : lowerBlockArguments c args succ = .panicked .mismatchedArguments c := by
      simp [lowerBlockArguments, hlen]
    simp [emittedMoves, temporaries, emittedBy, emitted, hp, Outcome.state]

/-- C4 at a concrete input: a self-edge between two other arguments, and a list of
self-edges only. -/
theorem lowerBlockArguments_selfEdges_witness :
    emittedBy exampleCompiler [⟨1⟩, ⟨2⟩] (exampleBlock [⟨2⟩, ⟨1⟩]) =
      emittedBy exampleCompiler [⟨1⟩, ⟨7⟩, ⟨2⟩] (exampleBlock [⟨2⟩, ⟨7⟩, ⟨1⟩]) ∧
    emittedMoves exampleCompiler [⟨7⟩, ⟨8⟩] (exampleBlock [⟨7⟩, ⟨8⟩]) = [] ∧
    temporaries exampleCompiler [⟨7⟩, ⟨8⟩] (exampleBlock [⟨7⟩, ⟨8⟩]) = [] :=
  ⟨(lowerBlockArguments_selfEdges exampleCompiler [⟨1⟩, ⟨7⟩, ⟨2⟩]
      (exampleBlock [⟨2⟩, ⟨7⟩, ⟨1⟩])).2.1,
    (lowerBlockArguments_selfEdges exampleCompiler [⟨7⟩, ⟨8⟩]
      (exampleBlock [⟨7⟩, ⟨8⟩])).2.2 (by decide)⟩

/-- C5: `lowerBlockArguments` fails exactly when the argument count differs from the
parameter count of the successor, the failure is the count-mismatch invariant violation,
and a failing call has recorded nothing: no move, no constant load, no allocation. -/
theorem lowerBlockArguments_fails_iff (c : compiler σ) (args : List ssa.Value)
    (succ : ssa.BlockRef) :
    ((lowerBlockArguments c args succ).failure ≠ none ↔ args.length ≠ succ.Params) ∧
    ((lowerBlockArguments c args succ).failure = some .mismatchedArguments ↔
      args.length ≠ succ.Params) ∧
    ((lowerBlockArguments c args succ).failure ≠ none →
      emittedBy c args succ = [] ∧
      (lowerBlockArguments c args succ).state.vregAlloc = c.vregAlloc ∧
      (lowerBlockArguments c args succ).state.trace = c.trace) := by
  by_cases hlen : args.length = succ.Params
  · have hf := failure_of_length_eq c args succ hlen
    simp [hf, hlen]
  · have hp : lowerBlockArguments c args succ = .panicked .mismatchedArguments c := by
      simp [lowerBlockArguments, hlen]
    simp [hp, Outcome.failure, Outcome.state, hlen, emittedBy, emitted]

/-- C5 at the input of the claim: two arguments against three parameters. -/
theorem lowerBlockArguments_fails_iff_witness :
    (lowerBlockArguments exampleCompiler [⟨1⟩, ⟨2⟩]
      (exampleBlock [⟨3⟩, ⟨4⟩, ⟨5⟩])).failure = some .mismatchedArguments ∧
    emittedBy exampleCompiler [⟨1⟩, ⟨2⟩] (exampleBlock [⟨3⟩, ⟨4⟩, ⟨5⟩]) = [] :=
  ⟨(lowerBlockArguments_fails_iff exampleCompiler [⟨1⟩, ⟨2⟩]
      (exampleBlock [⟨3⟩, ⟨4⟩, ⟨5⟩])).2.1.2 (by decide),
    ((lowerBlockArguments_fails_iff exampleCompiler [⟨1⟩, ⟨2⟩]
      (exampleBlock [⟨3⟩, ⟨4⟩, ⟨5⟩])).2.2 (by decide)).1⟩

/-! ### Branches -/

/-- C7: when `br0` is a jump that carries arguments and a conditional branch `br1` is
present, `lowerBranches` fails with the critical-edge invariant violation, having recorded
only the lowering of the two branches: no block-argument move, no constant load, no
allocation and no return-value marshaling. -/
theorem lowerBranches_critical_edge (c : compiler σ) (br0 br1 : ssa.Instruction)
    (hjump : br0.opcode = .OpcodeJump) (hargs : br0.BranchData.1 ≠ []) :
    ∃ c2, lowerBranches c br0 (some br1) = .panicked .criticalEdgeSplitFailed c2 ∧
      emitted c c2 =
        [Event.SetCurrentGroupID br0.gid, Event.LowerSingleBranch br0,
          Event.FlushPendingInstructions, Event.SetCurrentGroupID br1.gid,
          Event.LowerConditionalBranch br1, Event.FlushPendingInstructions] ∧
      (∀ e ∈ emitted c c2, e.isMove = false ∧ e.isLoadConstant = false ∧
        e.isReturnMarshal = false ∧ e.allocated = none) ∧
      c2.vregAlloc = c.vregAlloc := by
  have hne : br0.BranchData.1.length ≠ 0 := by
    intro h
    exact hargs (List.length_eq_zero.1 h)
  have htr : emitted c
      ((((((c.setCurrentGroupID br0.gid).machLower (.LowerSingleBranch br0) br0).emit
        .FlushPendingInstructions).setCurrentGroupID br1.gid).machLower
          (.LowerConditionalBranch br1) br1).emit .FlushPendingInstructions) =
      [Event.SetCurrentGroupID br0.gid, Event.LowerSingleBranch br0,
          Event.FlushPendingInstructions, Event.SetCurrentGroupID br1.gid,
          Event.LowerConditionalBranch br1, Event.FlushPendingInstructions] := by
    simp [emitted, compiler.emit, compiler.machLower, compiler.setCurrentGroupID]
  refine ⟨_, ?_, htr, ?_, ?_⟩
  · simp [lowerBranches, hjump, hne]
  · rw [htr]
    intro e he
    simp only [List.mem_cons, List.mem_singleton, List.not_mem_nil, or_false] at he
    rcases he with rfl | rfl | rfl | rfl | rfl | rfl <;>
      simp [Event.isMove, Event.isLoadConstant, Event.isReturnMarshal, Event.allocated]
  · simp [compiler.emit, compiler.machLower, compiler.setCurrentGroupID]

/-- C7 at a concrete input: a jump with one argument after a conditional branch. -/
theorem lowerBranches_critical_edge_witness :
    ∃ c2, lowerBranches exampleCompiler (exampleJump [⟨1⟩] (exampleBlock [⟨2⟩]))
        (some exampleBrz) = .panicked .criticalEdgeSplitFailed c2 ∧
      emitted exampleCompiler c2 =
        [Event.SetCurrentGroupID 1,
          Event.LowerSingleBranch (exampleJump [⟨1⟩] (exampleBlock [⟨2⟩])),
          Event.FlushPendingInstructions, Event.SetCurrentGroupID 2,
          Event.LowerConditionalBranch exampleBrz, Event.FlushPendingInstructions] ∧
      (∀ e ∈ emitted exampleCompiler c2, e.isMove = false ∧ e.isLoadConstant = false ∧
        e.isReturnMarshal = false ∧ e.allocated = none) ∧
      c2.vregAlloc = exampleCompiler.vregAlloc :=
  lowerBranches_critical_edge exampleCompiler (exampleJump [⟨1⟩] (exampleBlock [⟨2⟩]))
    exampleBrz (by decide) (by decide)

/-! ### The check for a conditional branch without terminator -/

theorem collect_trace (ps : List ssa.Value) (c : compiler σ) :
    (lowerFunctionArguments.collect c ps).trace = c.trace := by
  induction ps generalizing c with
  | nil => rfl
  | cons p ps ih =>
    by_cases h : c.ssaValueRefCounts p > 0
    · simp [lowerFunctionArguments.collect, h, ih]
    · simp [lowerFunctionArguments.collect, h, ih]

theorem finish_trace (c : compiler σ) (blk : ssa.BasicBlock) :
    ∃ t, (lowerBlock.finish c blk).trace = c.trace ++ t := by
  by_cases h : blk.ref.entryBlock = true
  · refine ⟨[Event.CalleeGenFunctionArgsToVRegs
        (lowerFunctionArguments.collect { c with tmpVals := [] } blk.ref.params).tmpVals,
      Event.FlushPendingInstructions, Event.EndBlock], ?_⟩
    simp [lowerBlock.finish, h, lowerFunctionArguments, compiler.emit, collect_trace]
  · exact ⟨[.EndBlock], by simp [lowerBlock.finish, h, compiler.emit]⟩

theorem body_trace (l : List ssa.Instruction) (c : compiler σ) :
    ∃ t, (lowerBlock.body c l).trace = c.trace ++ t := by
  induction l generalizing c with
  | nil => exact ⟨[], by simp [lowerBlock.body]⟩
  | cons cur prevs ih =>
    simp only [lowerBlock.body]
    split
    · obtain ⟨t, ht⟩ := ih (c.setCurrentGroupID cur.gid)
      refine ⟨Event.SetCurrentGroupID cur.gid :: t, ?_⟩
      rw [ht]
      simp [compiler.setCurrentGroupID, compiler.emit]
    · split
      · obtain ⟨t, ht⟩ := ih (((lowerFunctionReturns (c.setCurrentGroupID cur.gid)
          cur.ReturnVals).emit .InsertReturn).emit .FlushPendingInstructions)
        refine ⟨Event.SetCurrentGroupID cur.gid ::
          Event.CalleeGenVRegsToFunctionReturns cur.ReturnVals ::
          Event.InsertReturn :: Event.FlushPendingInstructions :: t, ?_⟩
        rw [ht]
        simp [compiler.setCurrentGroupID, compiler.emit, lowerFunctionReturns]
      · obtain ⟨t, ht⟩ := ih (((c.setCurrentGroupID cur.gid).machLower
          (.LowerInstr cur) cur).emit .FlushPendingInstructions)
        refine ⟨Event.SetCurrentGroupID cur.gid :: Event.LowerInstr cur ::
          Event.FlushPendingInstructions :: t, ?_⟩
        rw [ht]
        simp [compiler.setCurrentGroupID, compiler.emit, compiler.machLower]

theorem lowerBranches_not_jump (c : compiler σ) (br0 : ssa.Instruction)
    (h : br0.opcode ≠ .OpcodeJump) :
    lowerBranches c br0 none =
      .done ((((c.setCurrentGroupID br0.gid).machLower (.LowerSingleBranch br0) br0).emit
        .FlushPendingInstructions).emit .FlushPendingInstructions) := by
  simp [lowerBranches, h]

/-- C6, what the code does instead: a block whose last instruction is a conditional
branch, with no branch before it, is not rejected. `lowerBlock` takes the conditional
branch for the terminator `br0`, hands it to `LowerSingleBranch`, and completes. -/
theorem lowerBlock_trailing_cond_branch_accepted (c : compiler σ) (blk : ssa.BasicBlock)
    (pre : List ssa.Instruction) (b : ssa.Instruction)
    (hinstrs : blk.instrs = pre ++ [b])
    (hcond : b.opcode = .OpcodeBrz ∨ b.opcode = .OpcodeBrnz)
    (hprev : ∀ p, pre.getLast? = some p → p.IsBranching = false) :
    (lowerBlock c blk).failure = none ∧
    ∃ t, (lowerBlock c blk).state.trace =
      c.trace ++ [Event.StartBlock blk.ref, Event.SetCurrentGroupID b.gid,
        Event.LowerSingleBranch b, Event.FlushPendingInstructions,
        Event.FlushPendingInstructions] ++ t := by
  have hbr : b.IsBranching = true := by
    rcases hcond with h | h <;> simp [ssa.Instruction.IsBranching, h]
  have hnj : b.opcode ≠ .OpcodeJump := by
    rcases hcond with h | h <;> simp [h]
  have hrev : blk.instrs.reverse = b :: pre.reverse := by
    rw [hinstrs]
    simp
  have hg : ∃ cur, lowerBlock.gather blk.instrs.reverse = some (some b, none, cur) := by
    rw [hrev]
    cases hp : pre.reverse with
    | nil => exact ⟨[], by simp [lowerBlock.gather, hbr]⟩
    | cons p rest =>
      have hlast : pre.getLast? = some p := by
        rw [List.getLast?_eq_head?_reverse, hp]
        rfl
      have := hprev p hlast
      exact ⟨p :: rest, by simp [lowerBlock.gather, hbr, this]⟩
  obtain ⟨cur, hcur⟩ := hg
  obtain ⟨t1, ht1⟩ := body_trace cur
    ((((((c.emit (.StartBlock blk.ref)).setCurrentGroupID b.gid).machLower
      (.LowerSingleBranch b) b).emit .FlushPendingInstructions).emit
        .FlushPendingInstructions))
  obtain ⟨t2, ht2⟩ := finish_trace (lowerBlock.body
    ((((((c.emit (.StartBlock blk.ref)).setCurrentGroupID b.gid).machLower
      (.LowerSingleBranch b) b).emit .FlushPendingInstructions).emit
        .FlushPendingInstructions)) cur) blk
  have hres : lowerBlock c blk = .done (lowerBlock.finish (lowerBlock.body
    ((((((c.emit (.StartBlock blk.ref)).setCurrentGroupID b.gid).machLower
      (.LowerSingleBranch b) b).emit .FlushPendingInstructions).emit
        .FlushPendingInstructions)) cur) blk) := by
    simp [lowerBlock, hcur, lowerBranches_not_jump _ _ hnj]
  refine ⟨by simp [hres, Outcome.failure], t1 ++ t2, ?_⟩
  rw [hres]
  simp only [Outcome.state]
  rw [ht2, ht1]
  simp [compiler.emit, compiler.machLower, compiler.setCurrentGroupID]

/-- C6 at a concrete input: the block `[add, brz]` is lowered without any failure, and the
conditional branch reaches `LowerSingleBranch`. -/
theorem lowerBlock_trailing_cond_branch_accepted_witness :
    (lowerBlock exampleCompiler ⟨exampleBlock [], [exampleAdd, exampleBrz]⟩).failure = none ∧
    (lowerBlock exampleCompiler ⟨exampleBlock [], [exampleAdd, exampleBrz]⟩).state.trace =
      [Event.StartBlock (exampleBlock []), Event.SetCurrentGroupID 2,
        Event.LowerSingleBranch exampleBrz, Event.FlushPendingInstructions,
        Event.FlushPendingInstructions, Event.SetCurrentGroupID 3,
        Event.LowerInstr exampleAdd, Event.FlushPendingInstructions, Event.EndBlock] :=
  ⟨(lowerBlock_trailing_cond_branch_accepted exampleCompiler
      ⟨exampleBlock [], [exampleAdd, exampleBrz]⟩ [exampleAdd] exampleBrz rfl
      (by decide) (by decide)).1, by decide⟩

/-- The guard of lines 63-65 cannot fire: `br1` is only ever set after `br0`. -/
theorem lowerBlock_gather_br1 (l : List ssa.Instruction)
    (br0 br1 : Option ssa.Instruction) (cur : List ssa.Instruction)
    (h : lowerBlock.gather l = some (br0, br1, cur)) (h1 : br1.isSome = true) :
    br0.isSome = true := by
  cases l with
  | nil => simp [lowerBlock.gather] at h
  | cons tail prevs =>
    simp only [lowerBlock.gather] at h
    split at h
    · cases prevs with
      | nil =>
        simp only [Option.some.injEq, Prod.mk.injEq] at h
        rw [← h.1]
        rfl
      | cons p prevs2 =>
        simp only at h
        split at h
        · simp only [Option.some.injEq, Prod.mk.injEq] at h
          rw [← h.1]
          rfl
        · simp only [Option.some.injEq, Prod.mk.injEq] at h
          rw [← h.1]
          rfl
    · simp only [Option.some.injEq, Prod.mk.injEq] at h
      rw [← h.2.1] at h1
      simp at h1

theorem lowerBlockArguments_failure_cases (c : compiler σ) (args : List ssa.Value)
    (succ : ssa.BlockRef) :
    (∃ c2, lowerBlockArguments c args succ = .done c2) ∨
      lowerBlockArguments c args succ = .panicked .mismatchedArguments c := by
  by_cases hlen : args.length = succ.Params
  · left
    have hf := failure_of_length_eq c args succ hlen
    cases h : lowerBlockArguments c args succ with
    | done c2 => exact ⟨c2, rfl⟩
    | panicked p c2 => simp [h, Outcome.failure] at hf
  · right
    simp [lowerBlockArguments, hlen]

theorem lowerBranches_failure_ne (c : compiler σ) (br0 : ssa.Instruction)
    (br1 : Option ssa.Instruction) :
    (lowerBranches c br0 br1).failure ≠ some .condBranchWithoutTerminator := by
  unfold lowerBranches
  simp only
  split
  · split
    · simp [Outcome.failure]
    · split
      · simp [Outcome.failure]
      · split
        · rename_i c3 hc3
          split
          · rename_i p c4 heq
            rcases lowerBlockArguments_failure_cases _ _ _ with ⟨c5, h5⟩ | h5
            · rw [h5] at heq
              cases heq
            · rw [h5] at heq
              cases heq
              simp [Outcome.failure]
          · simp [Outcome.failure]
        · simp [Outcome.failure]
  · simp [Outcome.failure]

/-- The guard of lines 63-65 never fires: no block makes `lowerBlock` fail with the
"conditional branch without terminator" violation. -/
theorem lowerBlock_guard_unreachable (c : compiler σ) (blk : ssa.BasicBlock) :
    (lowerBlock c blk).failure ≠ some .condBranchWithoutTerminator := by
  unfold lowerBlock
  simp only
  cases hg : lowerBlock.gather blk.instrs.reverse with
  | none => simp [Outcome.failure]
  | some r =>
    obtain ⟨br0, br1, cur⟩ := r
    simp only
    cases br0 with
    | none =>
      have h1 : br1.isSome = false := by
        cases hb : br1.isSome with
        | false => rfl
        | true => simpa using lowerBlock_gather_br1 _ _ _ _ hg hb
      simp [h1, Outcome.failure]
    | some b0 =>
      simp only
      have hne := lowerBranches_failure_ne (c.emit (.StartBlock blk.ref)) b0 br1
      cases hr : lowerBranches (c.emit (.StartBlock blk.ref)) b0 br1 with
      | panicked p c2 =>
        rw [hr] at hne
        simpa [Outcome.failure] using hne
      | done c2 => simp [Outcome.failure]

namespace amd64

/-! ## The instruction list: reading after writing -/

theorem nextOf_lt (m : machine) (a : Nat) (v : Option Nat) (h : m.nextOf a = some v) :
    a < m.instrs.length := by
  by_contra hge
  simp [machine.nextOf, List.getElem?_eq_none (Nat.le_of_not_lt hge)] at h

theorem prevOf_lt (m : machine) (a : Nat) (v : Option Nat) (h : m.prevOf a = some v) :
    a < m.instrs.length := by
  by_contra hge
  simp [machine.prevOf, List.getElem?_eq_none (Nat.le_of_not_lt hge)] at h

theorem setNext_length (m : machine) (a : Nat) (v : Option Nat) :
    (m.setNext a v).instrs.length = m.instrs.length := by
  simp [machine.setNext]

theorem setPrev_length (m : machine) (a : Nat) (v : Option Nat) :
    (m.setPrev a v).instrs.length = m.instrs.length := by
  simp [machine.setPrev]

theorem setNext_nextOf (m : machine) (a : Nat) (v : Option Nat) (b : Nat)
    (h : a < m.instrs.length) :
    (m.setNext a v).nextOf b = if b = a then some v else m.nextOf b := by
  simp only [machine.nextOf, machine.setNext, List.getElem?_modify]
  by_cases hb : b = a
  · subst hb
    simp [List.getElem?_eq_getElem h]
  · have : ¬ a = b := fun x => hb x.symm
    cases hg : m.instrs[b]? <;> simp [hb, this]

theorem setNext_prevOf (m : machine) (a : Nat) (v : Option Nat) (b : Nat) :
    (m.setNext a v).prevOf b = m.prevOf b := by
  simp only [machine.prevOf, machine.setNext, List.getElem?_modify]
  cases hg : m.instrs[b]? with
  | none => simp
  | some i => by_cases hb : a = b <;> simp [hb]

theorem setNext_payload (m : machine) (a : Nat) (v : Option Nat) (b : Nat) :
    (m.setNext a v).payload b = m.payload b := by
  simp only [machine.payload, machine.setNext, List.getElem?_modify]
  cases hg : m.instrs[b]? with
  | none => simp
  | some i => by_cases hb : a = b <;> simp [hb, instruction.unlink]

theorem setPrev_prevOf (m : machine) (a : Nat) (v : Option Nat) (b : Nat)
    (h : a < m.instrs.length) :
    (m.setPrev a v).prevOf b = if b = a then some v else m.prevOf b := by
  simp only [machine.prevOf, machine.setPrev, List.getElem?_modify]
  by_cases hb : b = a
  · subst hb
    simp [List.getElem?_eq_getElem h]
  · have : ¬ a = b := fun x => hb x.symm
    cases hg : m.instrs[b]? <;> simp [hb, this]

theorem setPrev_nextOf (m : machine) (a : Nat) (v : Option Nat) (b : Nat) :
    (m.setPrev a v).nextOf b = m.nextOf b := by
  simp only [machine.nextOf, machine.setPrev, List.getElem?_modify]
  cases hg : m.instrs[b]? with
  | none => simp
  | some i => by_cases hb : a = b <;> simp [hb]

theorem setPrev_payload (m : machine) (a : Nat) (v : Option Nat) (b : Nat) :
    (m.setPrev a v).payload b = m.payload b := by
  simp only [machine.payload, machine.setPrev, List.getElem?_modify]
  cases hg : m.instrs[b]? with
  | none => simp
  | some i => by_cases hb : a = b <;> simp [hb, instruction.unlink]

theorem allocateInstr_fst (m : machine) (init : instruction → instruction) :
    (m.allocateInstr init).1 = m.instrs.length := rfl

theorem allocateInstr_length (m : machine) (init : instruction → instruction) :
    (m.allocateInstr init).2.instrs.length = m.instrs.length + 1 := by
  simp [machine.allocateInstr]

theorem getElem?_snoc {α : Type} (l : List α) (x : α) (b : Nat) :
    (l ++ [x])[b]? = if b = l.length then some x else l[b]? := by
  by_cases hb : b = l.length
  · subst hb
    simp
  · rcases Nat.lt_or_gt_of_ne hb with h | h
    · simp [hb, List.getElem?_append_left h]
    · have h1 : l.length ≤ b := Nat.le_of_lt h
      have h2 : (l ++ [x]).length ≤ b := by simp; omega
      simp [hb, List.getElem?_eq_none h1, List.getElem?_eq_none h2]

theorem allocateInstr_nextOf (m : machine) (init : instruction → instruction) (b : Nat) :
    (m.allocateInstr init).2.nextOf b =
      if b = m.instrs.length then some (init instruction.fresh).next else m.nextOf b := by
  simp only [machine.nextOf, machine.allocateInstr, getElem?_snoc]
  split <;> simp

theorem allocateInstr_prevOf (m : machine) (init : instruction → instruction) (b : Nat) :
    (m.allocateInstr init).2.prevOf b =
      if b = m.instrs.length then some (init instruction.fresh).prev else m.prevOf b := by
  simp only [machine.prevOf, machine.allocateInstr, getElem?_snoc]
  split <;> simp

theorem allocateInstr_payload (m : machine) (init : instruction → instruction) (b : Nat) :
    (m.allocateInstr init).2.payload b =
      if b = m.instrs.length then some (init instruction.fresh).unlink else m.payload b := by
  simp only [machine.payload, machine.allocateInstr, getElem?_snoc]
  split <;> simp

theorem setNext_frame (m : machine) (a : Nat) (v : Option Nat) :
    (m.setNext a v).RootInstr = m.RootInstr ∧
    (m.setNext a v).spillSlotSize = m.spillSlotSize ∧
    (m.setNext a v).clobberedRegs = m.clobberedRegs ∧
    (m.setNext a v).stackBoundsCheckDisabled = m.stackBoundsCheckDisabled :=
  ⟨rfl, rfl, rfl, rfl⟩

theorem setPrev_frame (m : machine) (a : Nat) (v : Option Nat) :
    (m.setPrev a v).RootInstr = m.RootInstr ∧
    (m.setPrev a v).spillSlotSize = m.spillSlotSize ∧
    (m.setPrev a v).clobberedRegs = m.clobberedRegs ∧
    (m.setPrev a v).stackBoundsCheckDisabled = m.stackBoundsCheckDisabled :=
  ⟨rfl, rfl, rfl, rfl⟩

theorem allocateInstr_frame (m : machine) (init : instruction → instruction) :
    (m.allocateInstr init).2.RootInstr = m.RootInstr ∧
    (m.allocateInstr init).2.spillSlotSize = m.spillSlotSize ∧
    (m.allocateInstr init).2.clobberedRegs = m.clobberedRegs ∧
    (m.allocateInstr init).2.stackBoundsCheckDisabled = m.stackBoundsCheckDisabled :=
  ⟨rfl, rfl, rfl, rfl⟩

theorem linkInstr_eq (m : machine) (p n : Nat) (hp : p < m.instrs.length)
    (hn : n < m.instrs.length) :
    linkInstr m (some p) (some n) = .done ((m.setNext p (some n)).setPrev n (some p)) := by
  simp [linkInstr, hp, hn, setNext_length]


theorem setupEpilogueAfter_spec (m : machine) (p a : Nat)
    (hp : m.nextOf p = some (some a)) (ha : a < m.instrs.length)
    (hs : m.spillSlotSize ≤ 0) (hc : m.clobberedRegs = []) :
    ∃ m2, setupEpilogueAfter m (some p) = .done m2 ∧
      m2.instrs.length = m.instrs.length + 2 ∧
      (∀ b, m2.nextOf b =
        if b = p then some (some m.instrs.length)
        else if b = m.instrs.length then some (some (m.instrs.length + 1))
        else if b = m.instrs.length + 1 then some (some a)
        else m.nextOf b) ∧
      (∀ b, m2.prevOf b =
        if b = m.instrs.length then some (some p)
        else if b = m.instrs.length + 1 then some (some m.instrs.length)
        else if b = a then some (some (m.instrs.length + 1))
        else m.prevOf b) ∧
      (∀ b, m2.payload b =
        if b = m.instrs.length then some movRbpRsp
        else if b = m.instrs.length + 1 then some popRbp
        else m.payload b) ∧
      m2.RootInstr = m.RootInstr ∧ m2.spillSlotSize = m.spillSlotSize ∧
      m2.clobberedRegs = m.clobberedRegs ∧
      m2.stackBoundsCheckDisabled = m.stackBoundsCheckDisabled := by
  have hpl : p < m.instrs.length := nextOf_lt m p _ hp
  have hs2 : ¬ m.spillSlotSize > 0 := not_lt.2 hs
  -- the five intermediate states
  obtain ⟨m1, hm1⟩ : ∃ m1, m1 =
      (m.allocateInstr (fun i => i.asMovRR rbpVReg rspVReg true)).2 := ⟨_, rfl⟩
  have l1 : m1.instrs.length = m.instrs.length + 1 := by rw [hm1, allocateInstr_length]
  obtain ⟨m2, hm2⟩ : ∃ m2, m2 =
      (m1.setNext p (some m.instrs.length)).setPrev m.instrs.length (some p) := ⟨_, rfl⟩
  have l2 : m2.instrs.length = m.instrs.length + 1 := by
    rw [hm2, setPrev_length, setNext_length, l1]
  obtain ⟨m3, hm3⟩ : ∃ m3, m3 = (m2.allocateInstr (fun i => i.asPop64 rbpVReg)).2 := ⟨_, rfl⟩
  have l3 : m3.instrs.length = m.instrs.length + 2 := by rw [hm3, allocateInstr_length, l2]
  obtain ⟨m4, hm4⟩ : ∃ m4, m4 =
      (m3.setNext m.instrs.length (some (m.instrs.length + 1))).setPrev
        (m.instrs.length + 1) (some m.instrs.length) := ⟨_, rfl⟩
  have l4 : m4.instrs.length = m.instrs.length + 2 := by
    rw [hm4, setPrev_length, setNext_length, l3]
  obtain ⟨m5, hm5⟩ : ∃ m5, m5 =
      (m4.setNext (m.instrs.length + 1) (some a)).setPrev a (some (m.instrs.length + 1)) :=
    ⟨_, rfl⟩
  have l5 : m5.instrs.length = m.instrs.length + 2 := by
    rw [hm5, setPrev_length, setNext_length, l4]
  have e1 : linkInstr m1 (some p) (some m.instrs.length) = .done m2 := by
    rw [hm2]
    exact linkInstr_eq m1 p _ (by omega) (by omega)
  have e2 : linkInstr m3 (some m.instrs.length) (some (m.instrs.length + 1)) = .done m4 := by
    rw [hm4]
    exact linkInstr_eq m3 _ _ (by omega) (by omega)
  have e3 : linkInstr m4 (some (m.instrs.length + 1)) (some a) = .done m5 := by
    rw [hm5]
    exact linkInstr_eq m4 _ _ (by omega) (by omega)
  have a2 : (m2.allocateInstr (fun i => i.asPop64 rbpVReg)).1 = m.instrs.length + 1 := by
    rw [allocateInstr_fst, l2]
  refine ⟨m5, ?_, l5, ?_, ?_, ?_, ?_, ?_, ?_, ?_⟩
  · simp only [setupEpilogueAfter, hp, hs2, ↓reduceIte, hc, List.length_nil, gt_iff_lt,
      lt_self_iff_false, allocateInstr_fst, ← hm1, e1, l2, ← hm3, e2, e3]
  · intro b
    rw [hm5, setPrev_nextOf, setNext_nextOf _ _ _ _ (by omega), hm4, setPrev_nextOf,
      setNext_nextOf _ _ _ _ (by omega), hm3, allocateInstr_nextOf, hm2, setPrev_nextOf,
      setNext_nextOf _ _ _ _ (by omega), hm1, allocateInstr_nextOf]
    simp only [setPrev_length, setNext_length, allocateInstr_length]
    split_ifs <;> first | rfl | omega
  · intro b
    rw [hm5, setPrev_prevOf _ _ _ _ (by rw [setNext_length]; omega), setNext_prevOf, hm4,
      setPrev_prevOf _ _ _ _ (by rw [setNext_length]; omega), setNext_prevOf, hm3,
      allocateInstr_prevOf, hm2,
      setPrev_prevOf _ _ _ _ (by rw [setNext_length]; omega), setNext_prevOf, hm1,
      allocateInstr_prevOf]
    simp only [setPrev_length, setNext_length, allocateInstr_length]
    split_ifs <;> first | rfl | omega
  · intro b
    rw [hm5, setPrev_payload, setNext_payload, hm4, setPrev_payload, setNext_payload, hm3,
      allocateInstr_payload, hm2, setPrev_payload, setNext_payload, hm1,
      allocateInstr_payload]
    simp only [setPrev_length, setNext_length, allocateInstr_length]
    by_cases h1 : b = m.instrs.length
    · subst h1
      simp [movRbpRsp, instruction.unlink, instruction.asMovRR, instruction.fresh]
    · by_cases h2 : b = m.instrs.length + 1
      · subst h2
        simp [popRbp, instruction.unlink, instruction.asPop64, instruction.fresh]
      · simp [h1, h2]
  · rw [hm5, (setPrev_frame _ _ _).1, (setNext_frame _ _ _).1, hm4, (setPrev_frame _ _ _).1,
      (setNext_frame _ _ _).1, hm3, (allocateInstr_frame _ _).1, hm2, (setPrev_frame _ _ _).1,
      (setNext_frame _ _ _).1, hm1, (allocateInstr_frame _ _).1]
  · rw [hm5, (setPrev_frame _ _ _).2.1, (setNext_frame _ _ _).2.1, hm4,
      (setPrev_frame _ _ _).2.1, (setNext_frame _ _ _).2.1, hm3, (allocateInstr_frame _ _).2.1,
      hm2, (setPrev_frame _ _ _).2.1, (setNext_frame _ _ _).2.1, hm1,
      (allocateInstr_frame _ _).2.1]
  · rw [hm5, (setPrev_frame _ _ _).2.2.1, (setNext_frame _ _ _).2.2.1, hm4,
      (setPrev_frame _ _ _).2.2.1, (setNext_frame _ _ _).2.2.1, hm3,
      (allocateInstr_frame _ _).2.2.1, hm2, (setPrev_frame _ _ _).2.2.1,
      (setNext_frame _ _ _).2.2.1, hm1, (allocateInstr_frame _ _).2.2.1]
  · rw [hm5, (setPrev_frame _ _ _).2.2.2, (setNext_frame _ _ _).2.2.2, hm4,
      (setPrev_frame _ _ _).2.2.2, (setNext_frame _ _ _).2.2.2, hm3,
      (allocateInstr_frame _ _).2.2.2, hm2, (setPrev_frame _ _ _).2.2.2,
      (setNext_frame _ _ _).2.2.2, hm1, (allocateInstr_frame _ _).2.2.2]


/-! ## Segments of the list under local changes -/

theorem nextSeg_congr (m m2 : machine) (l : List Nat) (e : Option Nat)
    (h : ∀ a ∈ l, m2.nextOf a = m.nextOf a) (hs : nextSeg m l e) : nextSeg m2 l e := by
  induction l with
  | nil => trivial
  | cons a l ih =>
    simp only [nextSeg] at hs ⊢
    exact ⟨by rw [h a (by simp)]; exact hs.1, ih (fun b hb => h b (by simp [hb])) hs.2⟩

theorem prevSeg_congr (m m2 : machine) (l : List Nat) (p : Option Nat)
    (h : ∀ a ∈ l, m2.prevOf a = m.prevOf a) (hs : prevSeg m p l) : prevSeg m2 p l := by
  induction l generalizing p with
  | nil => trivial
  | cons a l ih =>
    simp only [prevSeg] at hs ⊢
    exact ⟨by rw [h a (by simp)]; exact hs.1, ih _ (fun b hb => h b (by simp [hb])) hs.2⟩

theorem prevLinked_congr (m m2 : machine) (l : List Nat)
    (h : ∀ a ∈ l, m2.prevOf a = m.prevOf a) (hs : prevLinked m l) : prevLinked m2 l := by
  cases l with
  | nil => trivial
  | cons a l => exact prevSeg_congr m m2 l _ (fun b hb => h b (by simp [hb])) hs

theorem nextSeg_append (m : machine) (l1 l2 : List Nat) (e : Option Nat) :
    nextSeg m (l1 ++ l2) e ↔ nextSeg m l1 (headOr l2 e) ∧ nextSeg m l2 e := by
  induction l1 with
  | nil => simp [nextSeg]
  | cons a l1 ih =>
    have hh : headOr (l1 ++ l2) e = headOr l1 (headOr l2 e) := by
      cases l1 <;> rfl
    show nextSeg m (a :: (l1 ++ l2)) e ↔ _
    simp only [nextSeg, ih, hh, and_assoc]

theorem prevSeg_snoc (m : machine) (q : Option Nat) (t : List Nat) (p a : Nat) :
    prevSeg m q (t ++ [p] ++ [a]) ↔ prevSeg m q (t ++ [p]) ∧ m.prevOf a = some (some p) := by
  induction t generalizing q with
  | nil => simp [prevSeg]
  | cons x t ih =>
    show prevSeg m q (x :: (t ++ [p] ++ [a])) ↔ prevSeg m q (x :: (t ++ [p])) ∧ _
    simp only [prevSeg, ih, and_assoc]

theorem prevLinked_snoc (m : machine) (l : List Nat) (p a : Nat) :
    prevLinked m (l ++ [p] ++ [a]) ↔
      prevLinked m (l ++ [p]) ∧ m.prevOf a = some (some p) := by
  cases l with
  | nil => simp [prevLinked, prevSeg]
  | cons x l =>
    show prevSeg m (some x) (l ++ [p] ++ [a]) ↔ prevSeg m (some x) (l ++ [p]) ∧ _
    exact prevSeg_snoc m _ l p a

theorem nextSeg_lt (m : machine) (l : List Nat) (e : Option Nat) (h : nextSeg m l e) :
    ∀ a ∈ l, a < m.instrs.length := by
  induction l with
  | nil => simp
  | cons a l ih =>
    simp only [nextSeg] at h
    intro b hb
    rcases List.mem_cons.1 hb with rfl | hb2
    · exact nextOf_lt m _ _ h.1
    · exact ih h.2 b hb2

theorem contents_congr (m m2 : machine) (l : List Nat)
    (h : ∀ a ∈ l, m2.payload a = m.payload a) : m2.contents l = m.contents l := by
  induction l with
  | nil => rfl
  | cons a l ih =>
    simp only [machine.contents, List.filterMap_cons, h a (by simp)]
    have := ih (fun b hb => h b (by simp [hb]))
    simp only [machine.contents] at this
    rw [this]

theorem contents_cons (m : machine) (a : Nat) (l : List Nat) (i : instruction)
    (h : m.instrs[a]? = some i) : m.contents (a :: l) = i.unlink :: m.contents l := by
  simp [machine.contents, machine.payload, h]


theorem nodup_chain (o rest : List Nat) (p a : Nat) :
    (o ++ [p] ++ (a :: rest)).Nodup ↔
      o.Nodup ∧ ((¬ p = a ∧ p ∉ rest) ∧ a ∉ rest ∧ rest.Nodup) ∧
        p ∉ o ∧ a ∉ o ∧ o.Disjoint rest := by
  rw [List.append_assoc, List.nodup_append]
  simp only [List.singleton_append, List.nodup_cons, List.mem_cons, not_or,
    List.disjoint_cons_right]

theorem nodup_insert (pre suf : List Nat) (x : Nat) (h : (pre ++ suf).Nodup)
    (h1 : x ∉ pre) (h2 : x ∉ suf) : (pre ++ [x] ++ suf).Nodup := by
  rw [List.append_assoc, List.singleton_append, List.nodup_middle, List.nodup_cons]
  exact ⟨by simp [h1, h2], h⟩

theorem instr_of_nextOf (m : machine) (a : Nat) (v : Option Nat)
    (h : m.nextOf a = some v) : ∃ i, m.instrs[a]? = some i ∧ i.next = v := by
  cases hi : m.instrs[a]? with
  | none => simp [machine.nextOf, hi] at h
  | some i => exact ⟨i, rfl, by simpa [machine.nextOf, hi] using h⟩

theorem prev_of_prevOf (m : machine) (a : Nat) (i : instruction) (v : Option Nat)
    (hi : m.instrs[a]? = some i) (h : m.prevOf a = some v) : i.prev = v := by
  simpa [machine.prevOf, hi] using h

theorem contents_payload_cons (m : machine) (a : Nat) (l : List Nat) (i : instruction)
    (h : m.payload a = some i) : m.contents (a :: l) = i :: m.contents l := by
  simp [machine.contents, h]

/-- The loop of `SetupEpilogue` at a node `p` already passed, with the nodes `rest` still
to visit: it completes, and leaves a well-formed list whose new tail holds what the frame
builder is to make of `rest`. -/
theorem loop_spec (rest : List Nat) :
    ∀ (fuel : Nat) (m : machine) (o : List Nat) (p : Nat),
      nextSeg m o (some p) → m.nextOf p = some (headOr rest none) → nextSeg m rest none →
      prevLinked m (o ++ [p]) → prevSeg m (some p) rest → (o ++ [p] ++ rest).Nodup →
      ((∃ a ∈ rest, ∃ i, m.payload a = some i ∧ i.kind = .ret) →
        m.spillSlotSize ≤ 0 ∧ m.clobberedRegs = []) →
      rest.length < fuel →
      ∃ m2 l2, SetupEpilogue.loop fuel m (headOr rest none) = .done m2 ∧
        nextSeg m2 (o ++ [p] ++ l2) none ∧ prevLinked m2 (o ++ [p] ++ l2) ∧
        (o ++ [p] ++ l2).Nodup ∧
        m2.contents l2 = withEpilogues (m.contents rest) ∧
        (∀ b, b < m.instrs.length → m2.payload b = m.payload b) ∧
        m2.instrs.length =
          m.instrs.length + 2 * (m.contents rest).countP (fun i => i.kind = .ret) ∧
        (∀ a ∈ rest, (∀ i, m.payload a = some i → i.redundantCopy = false) → a ∈ l2) ∧
        m2.RootInstr = m.RootInstr ∧ m2.spillSlotSize = m.spillSlotSize ∧
        m2.clobberedRegs = m.clobberedRegs := by
  induction rest with
  | nil =>
    intro fuel m o p h1 h2 _ h4 _ h6 _ _
    refine ⟨m, [], ?_, ?_, ?_, ?_, rfl, fun _ _ => rfl, ?_, ?_, rfl, rfl, rfl⟩
    · cases fuel <;> simp [headOr, SetupEpilogue.loop]
    · rw [List.append_nil, nextSeg_append]
      exact ⟨h1, by simpa [nextSeg, headOr] using h2⟩
    · simpa using h4
    · simpa using h6
    · simp [machine.contents]
    · simp
  | cons a rest ih =>
    intro fuel m o p h1 h2 h3 h4 h5 h6 h7 h8
    obtain ⟨fuel, rfl⟩ : ∃ f, fuel = f + 1 := ⟨fuel - 1, by simp at h8; omega⟩
    simp only [nextSeg] at h3
    simp only [prevSeg] at h5
    obtain ⟨cur, hcur, hnext⟩ := instr_of_nextOf m a _ h3.1
    have hprev : cur.prev = some p := prev_of_prevOf m a cur _ hcur h5.1
    have hnd := (nodup_chain o rest p a).1 h6
    obtain ⟨hnd_o, ⟨⟨hpa, hpr⟩, har, hnd_r⟩, hpo, hao, hdis⟩ := hnd
    have hlt_o := nextSeg_lt m o _ h1
    have hlt_p : p < m.instrs.length := nextOf_lt m p _ h2
    have hlt_a : a < m.instrs.length := nextOf_lt m a _ h3.1
    have hlt_r := nextSeg_lt m rest _ h3.2
    have hfuel : rest.length < fuel := by simp at h8; omega
    have hpay : m.payload a = some cur.unlink := by simp [machine.payload, hcur]
    have hhead : headOr (a :: rest) none = some a := rfl
    rw [hhead] at h2 ⊢
    by_cases hret : cur.kind = .ret
    · -- a return: the epilogue goes between `p` and `a`
      have hframe := h7 ⟨a, by simp, cur.unlink, hpay, hret⟩
      obtain ⟨m1, e1, l1, n1, p1, y1, r1, s1, c1, _⟩ :=
        setupEpilogueAfter_spec m p a h2 hlt_a hframe.1 hframe.2
      have hn_a : m1.nextOf a = some (headOr rest none) := by
        rw [n1]
        have : a ≠ m.instrs.length := by omega
        have : a ≠ m.instrs.length + 1 := by omega
        have : a ≠ p := fun h => hpa h.symm
        simp [*]
      have hn_o : ∀ b ∈ o, m1.nextOf b = m.nextOf b := by
        intro b hb
        rw [n1]
        have := hlt_o b hb
        have : b ≠ p := fun h => hpo (h ▸ hb)
        have : b ≠ m.instrs.length := by omega
        have : b ≠ m.instrs.length + 1 := by omega
        simp [*]
      have hn_r : ∀ b ∈ rest, m1.nextOf b = m.nextOf b := by
        intro b hb
        rw [n1]
        have := hlt_r b hb
        have : b ≠ p := fun h => hpr (h ▸ hb)
        have : b ≠ m.instrs.length := by omega
        have : b ≠ m.instrs.length + 1 := by omega
        simp [*]
      have hp_op : ∀ b ∈ o ++ [p], m1.prevOf b = m.prevOf b := by
        intro b hb
        rw [p1]
        have hblt : b < m.instrs.length := by
          rcases List.mem_append.1 hb with h | h
          · exact hlt_o b h
          · simp at h; omega
        have : b ≠ a := by
          rcases List.mem_append.1 hb with h | h
          · exact fun e => hao (e ▸ h)
          · simp at h; exact fun e => hpa (h ▸ e)
        have : b ≠ m.instrs.length := by omega
        have : b ≠ m.instrs.length + 1 := by omega
        simp [*]
      have hp_r : ∀ b ∈ rest, m1.prevOf b = m.prevOf b := by
        intro b hb
        rw [p1]
        have := hlt_r b hb
        have : b ≠ a := fun h => har (h ▸ hb)
        have : b ≠ m.instrs.length := by omega
        have : b ≠ m.instrs.length + 1 := by omega
        simp [*]
      have hy_old : ∀ b, b < m.instrs.length → m1.payload b = m.payload b := by
        intro b hb
        rw [y1]
        have : b ≠ m.instrs.length := by omega
        have : b ≠ m.instrs.length + 1 := by omega
        simp [*]
      have hc_r : m1.contents rest = m.contents rest :=
        contents_congr m m1 rest (fun b hb => hy_old b (hlt_r b hb))
      -- hypotheses of the induction hypothesis
      have g1 : nextSeg m1 (o ++ [p] ++ [m.instrs.length] ++ [m.instrs.length + 1])
          (some a) := by
        simp only [nextSeg_append, nextSeg, headOr, and_true]
        refine ⟨⟨⟨nextSeg_congr m m1 o _ hn_o h1, ?_⟩, ?_⟩, ?_⟩
        · rw [n1]; simp
        · rw [n1]
          have : m.instrs.length ≠ p := by omega
          simp [*]
        · rw [n1]
          have : m.instrs.length + 1 ≠ p := by omega
          simp [*]
      have g4 : prevLinked m1
          (o ++ [p] ++ [m.instrs.length] ++ [m.instrs.length + 1] ++ [a]) := by
        rw [prevLinked_snoc, prevLinked_snoc, prevLinked_snoc]
        refine ⟨⟨⟨prevLinked_congr m m1 _ hp_op h4, ?_⟩, ?_⟩, ?_⟩
        · rw [p1]; simp
        · rw [p1]; simp
        · rw [p1]
          have : a ≠ m.instrs.length := by omega
          have : a ≠ m.instrs.length + 1 := by omega
          simp [*]
      have g6 : (o ++ [p] ++ [m.instrs.length] ++ [m.instrs.length + 1] ++ [a] ++
          rest).Nodup := by
        have hall : ∀ b ∈ o ++ [p] ++ (a :: rest), b < m.instrs.length := by
          intro b hb
          simp only [List.mem_append, List.mem_cons, List.mem_singleton,
            List.not_mem_nil, or_false] at hb
          rcases hb with (h | h) | h | h
          · exact hlt_o b h
          · omega
          · omega
          · exact hlt_r b h
        have s1 := nodup_insert (o ++ [p]) (a :: rest) m.instrs.length h6
          (fun h => absurd (hall _ (by simp only [List.mem_append] at h ⊢; exact Or.inl h))
            (by omega))
          (fun h => absurd (hall _ (by simp only [List.mem_append]; exact Or.inr h))
            (by omega))
        have s2 := nodup_insert (o ++ [p] ++ [m.instrs.length]) (a :: rest)
          (m.instrs.length + 1) s1
          (fun h => by
            simp only [List.mem_append, List.mem_singleton] at h
            rcases h with (h | h) | h
            · exact absurd (hlt_o _ h) (by omega)
            · omega
            · omega)
          (fun h => absurd (hall _ (by simp only [List.mem_append]; exact Or.inr h))
            (by omega))
        simpa [List.append_assoc] using s2
      have g7 : (∃ b ∈ rest, ∃ i, m1.payload b = some i ∧ i.kind = .ret) →
          m1.spillSlotSize ≤ 0 ∧ m1.clobberedRegs = [] := by
        intro _
        rw [s1, c1]
        exact hframe
      obtain ⟨m2, l2, e2, n2, p2, d2, c2, y2, len2, mem2, r2, s2, cl2⟩ :=
        ih fuel m1 (o ++ [p] ++ [m.instrs.length] ++ [m.instrs.length + 1]) a
          g1 hn_a (nextSeg_congr m m1 rest _ hn_r h3.2) g4
          (prevSeg_congr m m1 rest _ hp_r h5.2) g6 g7 hfuel
      refine ⟨m2, m.instrs.length :: (m.instrs.length + 1) :: a :: l2,
        ?_, ?_, ?_, ?_, ?_, ?_, ?_, ?_, ?_, ?_, ?_⟩
      · simp only [SetupEpilogue.loop, hcur, hret, ↓reduceIte, hprev, e1, hn_a,
          Option.getD_some]
        exact e2
      · simpa [List.append_assoc] using n2
      · simpa [List.append_assoc] using p2
      · simpa [List.append_assoc] using d2
      · have hx : m2.payload m.instrs.length = some movRbpRsp := by
          rw [y2 _ (by omega), y1]; simp
        have hy : m2.payload (m.instrs.length + 1) = some popRbp := by
          rw [y2 _ (by omega), y1]; simp
        have ha : m2.payload a = some cur.unlink := by
          rw [y2 _ (by omega), hy_old a hlt_a, hpay]
        rw [contents_cons m a rest cur hcur]
        have hk : cur.unlink.kind = .ret := hret
        simp only [withEpilogues, hk, ↓reduceIte]
        rw [contents_payload_cons m2 _ _ _ hx, contents_payload_cons m2 _ _ _ hy,
          contents_payload_cons m2 _ _ _ ha, c2, hc_r]
      · intro b hb
        rw [y2 b (by omega), hy_old b hb]
      · rw [len2, l1, hc_r, contents_cons m a rest cur hcur]
        have hk : cur.unlink.kind = .ret := hret
        simp [List.countP_cons, hk]
        omega
      · intro b hb hnr
        rcases List.mem_cons.1 hb with rfl | hb2
        · simp
        · have := mem2 b hb2 (by
            intro i hi
            rw [hy_old b (hlt_r b hb2)] at hi
            exact hnr i hi)
          simp [this]
      · rw [r2, r1]
      · rw [s2, s1]
      · rw [cl2, c1]
    · have hk : ¬ cur.unlink.kind = .ret := hret
      have hc_cons : (m.contents (a :: rest)).countP (fun i => i.kind = .ret) =
          (m.contents rest).countP (fun i => i.kind = .ret) := by
        rw [contents_cons m a rest cur hcur]
        simp [List.countP_cons, hk]
      by_cases hred : cur.redundantCopy = true
      · -- a redundant copy: `p` is linked to what follows `a`
        have hredu : cur.unlink.redundantCopy = true := hred
        obtain ⟨m1, eloop, hm1⟩ : ∃ m1 : machine,
            SetupEpilogue.loop (fuel + 1) m (some a) =
              SetupEpilogue.loop fuel m1 ((m1.nextOf a).getD none) ∧
            ((rest = [] ∧ m1 = m.setNext p none) ∨
              ∃ n t, rest = n :: t ∧ m1 = (m.setNext p (some n)).setPrev n (some p)) := by
          cases hr : rest with
          | nil =>
            refine ⟨m.setNext p none, ?_, Or.inl ⟨rfl, rfl⟩⟩
            rw [hr] at hnext
            simp only [headOr] at hnext
            simp only [SetupEpilogue.loop, hcur, hret, ↓reduceIte, hred, hprev, hlt_p, hnext]
          | cons n t =>
            refine ⟨(m.setNext p (some n)).setPrev n (some p), ?_, Or.inr ⟨n, t, rfl, rfl⟩⟩
            rw [hr] at hnext
            simp only [headOr] at hnext
            simp only [SetupEpilogue.loop, hcur, hret, ↓reduceIte, hred, hprev, hlt_p, hnext]
        have hn1 : ∀ b, m1.nextOf b = if b = p then some (headOr rest none) else m.nextOf b := by
          intro b
          rcases hm1 with ⟨hr, hm⟩ | ⟨n, t, hr, hm⟩
          · rw [hm, hr]; simp only [headOr]; rw [setNext_nextOf _ _ _ _ hlt_p]
          · rw [hm, hr]; simp only [headOr]; rw [setPrev_nextOf, setNext_nextOf _ _ _ _ hlt_p]
        have hp1 : ∀ b, m1.prevOf b =
            if headOr rest none = some b then some (some p) else m.prevOf b := by
          intro b
          rcases hm1 with ⟨hr, hm⟩ | ⟨n, t, hr, hm⟩
          · rw [hm, hr]; simp only [headOr]; rw [setNext_prevOf]; simp
          · rw [hm, hr]
            simp only [headOr]
            rw [setPrev_prevOf _ _ _ _ (by rw [setNext_length]; exact hlt_r n (by simp [hr])),
              setNext_prevOf]
            by_cases hb : b = n
            · simp [hb]
            · have : ¬ n = b := fun h => hb h.symm
              simp [hb, this]
        have hy1 : ∀ b, m1.payload b = m.payload b := by
          intro b
          rcases hm1 with ⟨_, hm⟩ | ⟨n, t, _, hm⟩
          · rw [hm, setNext_payload]
          · rw [hm, setPrev_payload, setNext_payload]
        have hl1 : m1.instrs.length = m.instrs.length := by
          rcases hm1 with ⟨_, hm⟩ | ⟨n, t, _, hm⟩
          · rw [hm, setNext_length]
          · rw [hm, setPrev_length, setNext_length]
        have hf1 : m1.RootInstr = m.RootInstr ∧ m1.spillSlotSize = m.spillSlotSize ∧
            m1.clobberedRegs = m.clobberedRegs := by
          rcases hm1 with ⟨_, hm⟩ | ⟨n, t, _, hm⟩
          · rw [hm]; exact ⟨rfl, rfl, rfl⟩
          · rw [hm]; exact ⟨rfl, rfl, rfl⟩
        have hhead_mem : ∀ b, headOr rest none = some b → b ∈ rest := by
          intro b hb
          cases rest with
          | nil => simp [headOr] at hb
          | cons n t => simp only [headOr, Option.some.injEq] at hb; simp [hb]
        have g1 : nextSeg m1 o (some p) :=
          nextSeg_congr m m1 o _ (fun b hb => by
            rw [hn1]
            have : b ≠ p := fun h => hpo (h ▸ hb)
            simp [this]) h1
        have g2 : m1.nextOf p = some (headOr rest none) := by rw [hn1]; simp
        have g3 : nextSeg m1 rest none :=
          nextSeg_congr m m1 rest _ (fun b hb => by
            rw [hn1]
            have : b ≠ p := fun h => hpr (h ▸ hb)
            simp [this]) h3.2
        have g4 : prevLinked m1 (o ++ [p]) :=
          prevLinked_congr m m1 _ (fun b hb => by
            rw [hp1]
            have : ¬ headOr rest none = some b := by
              intro h
              have hbr := hhead_mem b h
              rcases List.mem_append.1 hb with h2 | h2
              · exact hdis h2 hbr
              · simp at h2; exact hpr (h2 ▸ hbr)
            simp [this]) h4
        have g5 : prevSeg m1 (some p) rest := by
          cases rest with
          | nil => trivial
          | cons n t =>
            have h52 := h5.2
            simp only [prevSeg] at h52 ⊢
            refine ⟨by rw [hp1]; simp [headOr], ?_⟩
            refine prevSeg_congr m m1 t _ (fun b hb => ?_) h52.2
            rw [hp1]
            have : ¬ n = b := by
              intro h
              have := (List.nodup_cons.1 hnd_r).1
              exact this (h ▸ hb)
            simp [headOr, this]
        have g6 : (o ++ [p] ++ rest).Nodup :=
          h6.sublist (List.Sublist.append_left (List.sublist_cons_self a rest) (o ++ [p]))
        have g7 : (∃ b ∈ rest, ∃ i, m1.payload b = some i ∧ i.kind = .ret) →
            m1.spillSlotSize ≤ 0 ∧ m1.clobberedRegs = [] := by
          rintro ⟨b, hb, i, hi, hki⟩
          rw [hf1.2.1, hf1.2.2]
          exact h7 ⟨b, List.mem_cons_of_mem _ hb, i, by rw [← hy1]; exact hi, hki⟩
        have hc_r : m1.contents rest = m.contents rest :=
          contents_congr m m1 rest (fun b _ => hy1 b)
        obtain ⟨m2, l2, e2, n2, p2, d2, c2, y2, len2, mem2, r2, s2, cl2⟩ :=
          ih fuel m1 o p g1 g2 g3 g4 g5 g6 g7 hfuel
        refine ⟨m2, l2, ?_, n2, p2, d2, ?_, ?_, ?_, ?_, ?_, ?_, ?_⟩
        · have hna : m1.nextOf a = some (headOr rest none) := by
            rw [hn1]
            have : a ≠ p := fun h => hpa h.symm
            simp [this, h3.1]
          rw [eloop, hna]
          exact e2
        · rw [c2, hc_r, contents_cons m a rest cur hcur]
          simp [withEpilogues, hk, hredu]
        · intro b hb
          rw [y2 b (by omega), hy1]
        · rw [len2, hl1, hc_r, hc_cons]
        · intro b hb hnr
          rcases List.mem_cons.1 hb with rfl | hb2
          · have := hnr _ hpay
            rw [hredu] at this
            cases this
          · exact mem2 b hb2 (fun i hi => hnr i (by rw [← hy1]; exact hi))
        · rw [r2, hf1.1]
        · rw [s2, hf1.2.1]
        · rw [cl2, hf1.2.2]
      · -- any other instruction stays
        have hredu : ¬ cur.unlink.redundantCopy = true := hred
        have g1 : nextSeg m (o ++ [p]) (some a) := by
          rw [nextSeg_append]
          exact ⟨h1, by simpa [nextSeg, headOr] using h2⟩
        have g4 : prevLinked m (o ++ [p] ++ [a]) := by
          rw [prevLinked_snoc]
          exact ⟨h4, h5.1⟩
        have g6 : (o ++ [p] ++ [a] ++ rest).Nodup := by
          simpa [List.append_assoc] using h6
        have g7 : (∃ b ∈ rest, ∃ i, m.payload b = some i ∧ i.kind = .ret) →
            m.spillSlotSize ≤ 0 ∧ m.clobberedRegs = [] := by
          rintro ⟨b, hb, i, hi, hki⟩
          exact h7 ⟨b, List.mem_cons_of_mem _ hb, i, hi, hki⟩
        obtain ⟨m2, l2, e2, n2, p2, d2, c2, y2, len2, mem2, r2, s2, cl2⟩ :=
          ih fuel m (o ++ [p]) a g1 h3.1 h3.2 g4 h5.2 g6 g7 hfuel
        refine ⟨m2, a :: l2, ?_, ?_, ?_, ?_, ?_, y2, ?_, ?_, r2, s2, cl2⟩
        · simp only [SetupEpilogue.loop, hcur, hret, ↓reduceIte, hred, hnext]
          exact e2
        · simpa [List.append_assoc] using n2
        · simpa [List.append_assoc] using p2
        · simpa [List.append_assoc] using d2
        · have ha : m2.payload a = some cur.unlink := by rw [y2 a hlt_a, hpay]
          rw [contents_payload_cons m2 _ _ _ ha, c2, contents_cons m a rest cur hcur]
          simp [withEpilogues, hk, hredu]
        · rw [len2, hc_cons]
        · intro b hb hnr
          rcases List.mem_cons.1 hb with rfl | hb2
          · simp
          · simp [mem2 b hb2 hnr]


/-! ## A stream ends in nil, so it visits no node twice -/

theorem nextSeg_unique (m : machine) (l1 : List Nat) :
    ∀ l2 : List Nat, nextSeg m l1 none → nextSeg m l2 none →
      headOr l1 none = headOr l2 none → l1 = l2 := by
  induction l1 with
  | nil =>
    intro l2 _ _ h
    cases l2 with
    | nil => rfl
    | cons b l2 => simp [headOr] at h
  | cons a l1 ih =>
    intro l2 h1 h2 h
    cases l2 with
    | nil => simp [headOr] at h
    | cons b l2 =>
      simp only [headOr, Option.some.injEq] at h
      subst h
      simp only [nextSeg] at h1 h2
      have hh : headOr l1 none = headOr l2 none := by
        have := h1.1.symm.trans h2.1
        simpa using this
      rw [ih l2 h1.2 h2.2 hh]

theorem nextSeg_nodup (m : machine) (l : List Nat) (h : nextSeg m l none) : l.Nodup := by
  induction l with
  | nil => exact List.nodup_nil
  | cons a l ih =>
    have h2 := h
    simp only [nextSeg] at h2
    refine List.nodup_cons.2 ⟨?_, ih h2.2⟩
    intro hmem
    obtain ⟨s, t, hst⟩ := List.append_of_mem hmem
    have hsuf : nextSeg m (a :: t) none := by
      have := h2.2
      rw [hst, nextSeg_append] at this
      exact this.2
    have := nextSeg_unique m (a :: l) (a :: t) h hsuf rfl
    have hl : l = t := by simpa using this
    have hlen := congrArg List.length hst
    rw [hl] at hlen
    simp at hlen
    omega

/-! ## `SetupEpilogue` on a well-formed stream -/

theorem SetupEpilogue_spec (m : machine) (root : Nat) (body : List Nat) (fuel : Nat)
    (r : instruction)
    (hroot : m.RootInstr = some root) (hwf : wellFormed m (root :: body))
    (hr : m.payload root = some r) (hret : r.kind ≠ .ret) (hred : r.redundantCopy = false)
    (hframe : (∃ a ∈ body, ∃ i, m.payload a = some i ∧ i.kind = .ret) →
      m.spillSlotSize ≤ 0 ∧ m.clobberedRegs = [])
    (hfuel : (root :: body).length < fuel) :
    ∃ m2 l2, SetupEpilogue fuel m = .done m2 ∧ wellFormed m2 (root :: l2) ∧
      (root :: l2).Nodup ∧
      m2.contents (root :: l2) = withEpilogues (m.contents (root :: body)) ∧
      (∀ b, b < m.instrs.length → m2.payload b = m.payload b) ∧
      m2.instrs.length =
        m.instrs.length + 2 * (m.contents (root :: body)).countP (fun i => i.kind = .ret) ∧
      (∀ a ∈ root :: body, (∀ i, m.payload a = some i → i.redundantCopy = false) →
        a ∈ root :: l2) ∧
      m2.RootInstr = m.RootInstr ∧ m2.spillSlotSize = m.spillSlotSize ∧
      m2.clobberedRegs = m.clobberedRegs := by
  obtain ⟨hs, hp⟩ := hwf
  have hnd := nextSeg_nodup m _ hs
  simp only [isStream, nextSeg] at hs
  obtain ⟨cur, hcur, hnext⟩ := instr_of_nextOf m root _ hs.1
  have hlt : root < m.instrs.length := nextOf_lt m root _ hs.1
  have hru : r = cur.unlink := by
    simpa [machine.payload, hcur] using hr.symm
  have hk : ¬ cur.kind = .ret := by rw [hru] at hret; exact hret
  have hk2 : ¬ cur.unlink.kind = .ret := hk
  have hrc : ¬ cur.redundantCopy = true := by
    rw [hru] at hred
    intro h
    have : cur.unlink.redundantCopy = true := h
    rw [hred] at this
    cases this
  have hrc2 : ¬ cur.unlink.redundantCopy = true := hrc
  obtain ⟨fuel, rfl⟩ : ∃ f, fuel = f + 1 := ⟨fuel - 1, by simp at hfuel; omega⟩
  obtain ⟨m2, l2, e2, n2, p2, d2, c2, y2, len2, mem2, r2, s2, cl2⟩ :=
    loop_spec body fuel m [] root trivial hs.1 hs.2 trivial hp (by simpa using hnd) hframe
      (by simp at hfuel; omega)
  have hcnt : (m.contents (root :: body)).countP (fun i => i.kind = .ret) =
      (m.contents body).countP (fun i => i.kind = .ret) := by
    rw [contents_cons m root body cur hcur]
    simp [List.countP_cons, hk2]
  refine ⟨m2, l2, ?_, ⟨by simpa using n2, by simpa using p2⟩, by simpa using d2, ?_, y2, ?_,
    ?_, r2, s2, cl2⟩
  · simp only [SetupEpilogue, hroot, SetupEpilogue.loop, hcur, hk, ↓reduceIte, hrc, hnext]
    exact e2
  · have ha : m2.payload root = some cur.unlink := by
      rw [y2 root hlt]
      simp [machine.payload, hcur]
    rw [contents_payload_cons m2 _ _ _ ha, c2, contents_cons m root body cur hcur]
    simp [withEpilogues, hk2, hrc2]
  · rw [len2, hcnt]
  · intro b hb hnr
    rcases List.mem_cons.1 hb with rfl | hb2
    · simp
    · simp [mem2 b hb2 hnr]

/-! ## What the frame builder makes of a sequence -/

theorem movRbpRsp_facts : movRbpRsp.kind ≠ .ret ∧ movRbpRsp.redundantCopy = false := by
  decide

theorem popRbp_facts : popRbp.kind ≠ .ret ∧ popRbp.redundantCopy = false := by
  decide

/-- Every return of the result is right after `pop %rbp`, itself right after
`mov %rbp, %rsp`. -/
theorem withEpilogues_before_ret (cs : List instruction) :
    ∀ (pre post : List instruction) (i : instruction),
      withEpilogues cs = pre ++ i :: post → i.kind = .ret →
        ∃ pre2, pre = pre2 ++ [movRbpRsp, popRbp] := by
  induction cs with
  | nil =>
    intro pre post i h _
    simp [withEpilogues] at h
  | cons c cs ih =>
    intro pre post i h hi
    by_cases hc : c.kind = .ret
    · simp only [withEpilogues, hc, ↓reduceIte] at h
      match pre, h with
      | [], h =>
        simp only [List.nil_append, List.cons.injEq] at h
        exact absurd (h.1 ▸ hi) movRbpRsp_facts.1
      | [x], h =>
        simp only [List.singleton_append, List.cons.injEq] at h
        exact absurd (h.2.1 ▸ hi) popRbp_facts.1
      | [x, y], h =>
        simp only [List.cons_append, List.nil_append, List.cons.injEq] at h
        exact ⟨[], by simp [h.1, h.2.1]⟩
      | x :: y :: z :: pre3, h =>
        simp only [List.cons_append, List.cons.injEq] at h
        obtain ⟨pre2, hp⟩ := ih pre3 post i h.2.2.2 hi
        exact ⟨x :: y :: z :: pre2, by simp [hp]⟩
    · by_cases hr : c.redundantCopy = true
      · simp only [withEpilogues, hc, ↓reduceIte, hr] at h
        exact ih pre post i h hi
      · simp only [withEpilogues, hc, ↓reduceIte, hr, Bool.false_eq_true] at h
        match pre, h with
        | [], h =>
          simp only [List.nil_append, List.cons.injEq] at h
          exact absurd (h.1 ▸ hi) hc
        | x :: pre3, h =>
          simp only [List.cons_append, List.cons.injEq] at h
          obtain ⟨pre2, hp⟩ := ih pre3 post i h.2 hi
          exact ⟨x :: pre2, by simp [hp]⟩

theorem withEpilogues_not_redundant (cs : List instruction) :
    ∀ i ∈ withEpilogues cs, i.redundantCopy = false := by
  induction cs with
  | nil => simp [withEpilogues]
  | cons c cs ih =>
    intro i hi
    by_cases hc : c.kind = .ret
    · simp only [withEpilogues, hc, ↓reduceIte, List.mem_cons] at hi
      rcases hi with rfl | rfl | rfl | hi
      · exact movRbpRsp_facts.2
      · exact popRbp_facts.2
      · simp [instruction.redundantCopy, instruction.IsCopy, hc]
      · exact ih i hi
    · by_cases hr : c.redundantCopy = true
      · simp only [withEpilogues, hc, ↓reduceIte, hr] at hi
        exact ih i hi
      · simp only [withEpilogues, hc, ↓reduceIte, hr, Bool.false_eq_true, List.mem_cons] at hi
        rcases hi with rfl | hi
        · simpa using hr
        · exact ih i hi

theorem withEpilogues_count_ret (cs : List instruction) :
    (withEpilogues cs).countP (fun i => i.kind = .ret) =
      cs.countP (fun i => i.kind = .ret) := by
  induction cs with
  | nil => rfl
  | cons c cs ih =>
    by_cases hc : c.kind = .ret
    · simp [withEpilogues, hc, List.countP_cons, ih, movRbpRsp_facts.1, popRbp_facts.1]
    · by_cases hr : c.redundantCopy = true
      · simp [withEpilogues, hc, hr, List.countP_cons, ih]
      · simp [withEpilogues, hc, hr, List.countP_cons, ih]


theorem contents_length (m : machine) (l : List Nat) (e : Option Nat) (h : nextSeg m l e) :
    (m.contents l).length = l.length := by
  induction l with
  | nil => rfl
  | cons a l ih =>
    simp only [nextSeg] at h
    obtain ⟨i, hi, _⟩ := instr_of_nextOf m a _ h.1
    rw [contents_cons m a l i hi]
    simp [ih h.2]

theorem payload_lt (m : machine) (a : Nat) (i : instruction) (h : m.payload a = some i) :
    a < m.instrs.length := by
  by_contra hge
  simp [machine.payload, List.getElem?_eq_none (Nat.le_of_not_lt hge)] at h

/-- C8, amended: on a well-formed stream whose root is neither a return nor a redundant
copy, with spill-slot size 0 and no clobbered register, `SetupEpilogue` completes (given
fuel for one iteration per node); in the stream it leaves, every return is immediately
preceded by `pop %rbp`, itself immediately preceded by `mov %rbp, %rsp`; the returns are
those of the input, the stream is the input with its redundant copies dropped and that pair
put before each return, and exactly two instructions were allocated per return. -/
theorem SetupEpilogue_epilogue_before_return (m : machine) (root : Nat) (body : List Nat)
    (fuel : Nat) (r : instruction)
    (hroot : m.RootInstr = some root) (hwf : wellFormed m (root :: body))
    (hr : m.payload root = some r) (hret : r.kind ≠ .ret) (hred : r.redundantCopy = false)
    (hspill : m.spillSlotSize = 0) (hclob : m.clobberedRegs = [])
    (hfuel : (root :: body).length < fuel) :
    ∃ m2 l2, SetupEpilogue fuel m = .done m2 ∧ m2.RootInstr = some root ∧
      isStream m2 (root :: l2) ∧
      (m2.contents (root :: l2)).length = (root :: l2).length ∧
      (∀ pre post i, m2.contents (root :: l2) = pre ++ i :: post → i.kind = .ret →
        ∃ pre2, pre = pre2 ++ [movRbpRsp, popRbp]) ∧
      m2.contents (root :: l2) = withEpilogues (m.contents (root :: body)) ∧
      (m2.contents (root :: l2)).countP (fun i => i.kind = .ret) =
        (m.contents (root :: body)).countP (fun i => i.kind = .ret) ∧
      m2.instrs.length =
        m.instrs.length + 2 * (m.contents (root :: body)).countP (fun i => i.kind = .ret) := by
  obtain ⟨m2, l2, e2, wf2, _, c2, _, len2, _, r2, _, _⟩ :=
    SetupEpilogue_spec m root body fuel r hroot hwf hr hret hred
      (fun _ => ⟨le_of_eq hspill, hclob⟩) hfuel
  refine ⟨m2, l2, e2, by rw [r2, hroot], wf2.1, contents_length m2 _ _ wf2.1, ?_, c2, ?_, len2⟩
  · intro pre post i h hi
    rw [c2] at h
    exact withEpilogues_before_ret _ pre post i h hi
  · rw [c2, withEpilogues_count_ret]

/-- C8 at a concrete input: `nop -> mov %rax,%rcx -> mov %rax,%rax -> ret`. -/
theorem SetupEpilogue_epilogue_before_return_witness :
    ∃ m2 l2, SetupEpilogue 5 exampleStream = .done m2 ∧ m2.RootInstr = some 0 ∧
      isStream m2 (0 :: l2) ∧
      (m2.contents (0 :: l2)).length = (0 :: l2).length ∧
      (∀ pre post i, m2.contents (0 :: l2) = pre ++ i :: post → i.kind = .ret →
        ∃ pre2, pre = pre2 ++ [movRbpRsp, popRbp]) ∧
      m2.contents (0 :: l2) = withEpilogues (exampleStream.contents [0, 1, 2, 3]) ∧
      (m2.contents (0 :: l2)).countP (fun i => i.kind = .ret) =
        (exampleStream.contents [0, 1, 2, 3]).countP (fun i => i.kind = .ret) ∧
      m2.instrs.length =
        exampleStream.instrs.length +
          2 * (exampleStream.contents [0, 1, 2, 3]).countP (fun i => i.kind = .ret) :=
  SetupEpilogue_epilogue_before_return exampleStream 0 [1, 2, 3] 5
    (exampleNode .nop0 none none) (by decide) (by decide) (by decide) (by decide) (by decide)
    (by decide) (by decide) (by decide)

/-- C8 as stated fails: the stream `mov %rax,%rax -> ret` is well formed and its root is
not a return, there are no spill slots and no clobbered registers, yet `SetupEpilogue`
never completes: removing the root dereferences its nil `prev`, and the return is left
without epilogue. -/
theorem SetupEpilogue_epilogue_before_return_counterexample :
    wellFormed exampleRootCopy [0, 1] ∧ exampleRootCopy.RootInstr = some 0 ∧
    exampleRootCopy.kindOf 0 = some .movRR ∧
    exampleRootCopy.spillSlotSize = 0 ∧ exampleRootCopy.clobberedRegs = [] ∧
    (SetupEpilogue 0 exampleRootCopy).failure = some .outOfFuel ∧
    (∀ fuel, SetupEpilogue (fuel + 1) exampleRootCopy =
      .panicked .nilDereference exampleRootCopy) ∧
    exampleRootCopy.prevOf 1 = some (some 0) ∧
    exampleRootCopy.payload 0 ≠ some popRbp :=
  ⟨by decide, rfl, rfl, rfl, rfl, rfl, fun _ => rfl, rfl, by decide⟩

/-- C9, amended: on a well-formed stream whose root is neither a copy nor a return, and
which, if it contains a return, belongs to a function with spill-slot size 0 and no
clobbered register, `SetupEpilogue` completes (given fuel for one iteration per node); no
node of the stream it leaves is a copy between two registers that resolve to the same
physical register, and every copy of the input between different physical registers is
still in the stream, unchanged. -/
theorem SetupEpilogue_redundant_copies (m : machine) (root : Nat) (body : List Nat)
    (fuel : Nat) (r : instruction)
    (hroot : m.RootInstr = some root) (hwf : wellFormed m (root :: body))
    (hr : m.payload root = some r) (hcopy : r.IsCopy = false) (hret : r.kind ≠ .ret)
    (hframe : (∃ a ∈ root :: body, ∃ i, m.payload a = some i ∧ i.kind = .ret) →
      m.spillSlotSize = 0 ∧ m.clobberedRegs = [])
    (hfuel : (root :: body).length < fuel) :
    ∃ m2 l2, SetupEpilogue fuel m = .done m2 ∧ m2.RootInstr = some root ∧
      isStream m2 (root :: l2) ∧
      (∀ b ∈ root :: l2, ∀ i, m2.payload b = some i →
        ¬ (i.IsCopy = true ∧ i.op1.r.RealReg = i.op2.r.RealReg)) ∧
      (∀ b ∈ root :: body, ∀ i, m.payload b = some i → i.IsCopy = true →
        i.op1.r.RealReg ≠ i.op2.r.RealReg → b ∈ root :: l2 ∧ m2.payload b = some i) := by
  have hred : r.redundantCopy = false := by simp [instruction.redundantCopy, hcopy]
  obtain ⟨m2, l2, e2, wf2, _, c2, y2, _, mem2, r2, _, _⟩ :=
    SetupEpilogue_spec m root body fuel r hroot hwf hr hret hred
      (fun ⟨a, ha, i, hi, hk⟩ =>
        have h := hframe ⟨a, List.mem_cons_of_mem _ ha, i, hi, hk⟩
        ⟨le_of_eq h.1, h.2⟩) hfuel
  refine ⟨m2, l2, e2, by rw [r2, hroot], wf2.1, ?_, ?_⟩
  · intro b hb i hi hbad
    have hmem : i ∈ m2.contents (root :: l2) :=
      List.mem_filterMap.2 ⟨b, hb, hi⟩
    rw [c2] at hmem
    have := withEpilogues_not_redundant _ i hmem
    simp [instruction.redundantCopy, hbad.1, hbad.2] at this
  · intro b hb i hi hc hne
    refine ⟨mem2 b hb ?_, by rw [y2 b (payload_lt m b i hi), hi]⟩
    intro j hj
    rw [hi] at hj
    cases hj
    simp [instruction.redundantCopy, hc, hne]

/-- C9 at a concrete input: `nop -> mov %rax,%rcx -> mov %rax,%rax -> ret`. -/
theorem SetupEpilogue_redundant_copies_witness :
    ∃ m2 l2, SetupEpilogue 5 exampleStream = .done m2 ∧ m2.RootInstr = some 0 ∧
      isStream m2 (0 :: l2) ∧
      (∀ b ∈ 0 :: l2, ∀ i, m2.payload b = some i →
        ¬ (i.IsCopy = true ∧ i.op1.r.RealReg = i.op2.r.RealReg)) ∧
      (∀ b ∈ [0, 1, 2, 3], ∀ i, exampleStream.payload b = some i → i.IsCopy = true →
        i.op1.r.RealReg ≠ i.op2.r.RealReg → b ∈ 0 :: l2 ∧ m2.payload b = some i) :=
  SetupEpilogue_redundant_copies exampleStream 0 [1, 2, 3] 5
    (exampleNode .nop0 none none) (by decide) (by decide) (by decide) (by decide) (by decide)
    (fun _ => by decide) (by decide)

/-- C9 as stated fails, twice. With 8 bytes of spill slots the stream
`nop -> ret -> mov %rax,%rax`, whose root is not a copy, makes `SetupEpilogue` stop at the
return, and the redundant copy after it is still linked. And the stream made of a single
return, whose root is not a copy either, makes it dereference the nil `prev` of the
root. -/
theorem SetupEpilogue_redundant_copies_counterexample :
    (wellFormed exampleSpill [0, 1, 2] ∧ exampleSpill.RootInstr = some 0 ∧
      exampleSpill.kindOf 0 = some .nop0 ∧
      (SetupEpilogue 0 exampleSpill).failure = some .outOfFuel ∧
      (SetupEpilogue 1 exampleSpill).failure = some .outOfFuel ∧
      (∀ fuel, SetupEpilogue (fuel + 2) exampleSpill =
        .panicked .todoDeallocateSpillSlots exampleSpill) ∧
      isStream exampleSpill [0, 1, 2] ∧
      exampleSpill.payload 2 = some (exampleCopy raxVReg raxVReg none none) ∧
      (exampleCopy raxVReg raxVReg none none).redundantCopy = true) ∧
    (wellFormed exampleRootRet [0] ∧ exampleRootRet.RootInstr = some 0 ∧
      exampleRootRet.kindOf 0 = some .ret ∧
      (SetupEpilogue 0 exampleRootRet).failure = some .outOfFuel ∧
      (∀ fuel, SetupEpilogue (fuel + 1) exampleRootRet =
        .panicked .nilDereference exampleRootRet)) :=
  ⟨⟨by decide, rfl, rfl, rfl, rfl, fun _ => rfl, by decide, rfl, rfl⟩,
    ⟨by decide, rfl, rfl, rfl, fun _ => rfl⟩⟩


/-! ## `SetupPrologue` -/

theorem SetupPrologue_spec (m : machine) (root i1 : Nat)
    (hroot : m.RootInstr = some root) (hn : m.nextOf root = some (some i1))
    (hi1 : i1 < m.instrs.length)
    (hs : m.spillSlotSize ≤ 0) (hc : m.clobberedRegs = []) :
    ∃ m2, SetupPrologue m = .done m2 ∧
      m2.instrs.length = m.instrs.length + 2 ∧
      (∀ b, m2.nextOf b =
        if b = root then some (some m.instrs.length)
        else if b = m.instrs.length then some (some (m.instrs.length + 1))
        else if b = m.instrs.length + 1 then some (some i1)
        else m.nextOf b) ∧
      (∀ b, m2.prevOf b =
        if b = m.instrs.length then some (some root)
        else if b = m.instrs.length + 1 then some (some m.instrs.length)
        else if b = i1 then some (some (m.instrs.length + 1))
        else m.prevOf b) ∧
      (∀ b, m2.payload b =
        if b = m.instrs.length then some pushRbp
        else if b = m.instrs.length + 1 then some movRspRbp
        else m.payload b) ∧
      m2.RootInstr = m.RootInstr := by
  have hpl : root < m.instrs.length := nextOf_lt m root _ hn
  have hs2 : ¬ m.spillSlotSize > 0 := not_lt.2 hs
  obtain ⟨m1, hm1⟩ : ∃ m1, m1 =
      (m.allocateInstr (fun i => i.asPush64 (newOperandReg rbpVReg))).2 := ⟨_, rfl⟩
  have l1 : m1.instrs.length = m.instrs.length + 1 := by rw [hm1, allocateInstr_length]
  obtain ⟨m2, hm2⟩ : ∃ m2, m2 =
      (m1.setNext root (some m.instrs.length)).setPrev m.instrs.length (some root) :=
    ⟨_, rfl⟩
  have l2 : m2.instrs.length = m.instrs.length + 1 := by
    rw [hm2, setPrev_length, setNext_length, l1]
  obtain ⟨m3, hm3⟩ : ∃ m3, m3 =
      (m2.allocateInstr (fun i => i.asMovRR rspVReg rbpVReg true)).2 := ⟨_, rfl⟩
  have l3 : m3.instrs.length = m.instrs.length + 2 := by rw [hm3, allocateInstr_length, l2]
  obtain ⟨m4, hm4⟩ : ∃ m4, m4 =
      (m3.setNext m.instrs.length (some (m.instrs.length + 1))).setPrev
        (m.instrs.length + 1) (some m.instrs.length) := ⟨_, rfl⟩
  have l4 : m4.instrs.length = m.instrs.length + 2 := by
    rw [hm4, setPrev_length, setNext_length, l3]
  obtain ⟨m5, hm5⟩ : ∃ m5, m5 =
      (m4.setNext (m.instrs.length + 1) (some i1)).setPrev i1 (some (m.instrs.length + 1)) :=
    ⟨_, rfl⟩
  have l5 : m5.instrs.length = m.instrs.length + 2 := by
    rw [hm5, setPrev_length, setNext_length, l4]
  have e1 : linkInstr m1 (some root) (some m.instrs.length) = .done m2 := by
    rw [hm2]
    exact linkInstr_eq m1 root _ (by omega) (by omega)
  have e2 : linkInstr m3 (some m.instrs.length) (some (m.instrs.length + 1)) = .done m4 := by
    rw [hm4]
    exact linkInstr_eq m3 _ _ (by omega) (by omega)
  have e3 : linkInstr m4 (some (m.instrs.length + 1)) (some i1) = .done m5 := by
    rw [hm5]
    exact linkInstr_eq m4 _ _ (by omega) (by omega)
  have c4 : m4.clobberedRegs = [] := by
    rw [hm4, (setPrev_frame _ _ _).2.2.1, (setNext_frame _ _ _).2.2.1, hm3,
      (allocateInstr_frame _ _).2.2.1, hm2, (setPrev_frame _ _ _).2.2.1,
      (setNext_frame _ _ _).2.2.1, hm1, (allocateInstr_frame _ _).2.2.1, hc]
  have s4 : ¬ m4.spillSlotSize > 0 := by
    rw [hm4, (setPrev_frame _ _ _).2.1, (setNext_frame _ _ _).2.1, hm3,
      (allocateInstr_frame _ _).2.1, hm2, (setPrev_frame _ _ _).2.1,
      (setNext_frame _ _ _).2.1, hm1, (allocateInstr_frame _ _).2.1]
    exact hs2
  refine ⟨m5, ?_, l5, ?_, ?_, ?_, ?_⟩
  · simp only [SetupPrologue, hroot, hn, allocateInstr_fst, ← hm1, e1, l2, ← hm3, e2, c4,
      List.length_nil, gt_iff_lt, lt_self_iff_false, ↓reduceIte, s4, e3]
  · intro b
    rw [hm5, setPrev_nextOf, setNext_nextOf _ _ _ _ (by omega), hm4, setPrev_nextOf,
      setNext_nextOf _ _ _ _ (by omega), hm3, allocateInstr_nextOf, hm2, setPrev_nextOf,
      setNext_nextOf _ _ _ _ (by omega), hm1, allocateInstr_nextOf]
    simp only [setPrev_length, setNext_length, allocateInstr_length]
    split_ifs <;> first | rfl | omega
  · intro b
    rw [hm5, setPrev_prevOf _ _ _ _ (by rw [setNext_length]; omega), setNext_prevOf, hm4,
      setPrev_prevOf _ _ _ _ (by rw [setNext_length]; omega), setNext_prevOf, hm3,
      allocateInstr_prevOf, hm2,
      setPrev_prevOf _ _ _ _ (by rw [setNext_length]; omega), setNext_prevOf, hm1,
      allocateInstr_prevOf]
    simp only [setPrev_length, setNext_length, allocateInstr_length]
    split_ifs <;> first | rfl | omega
  · intro b
    rw [hm5, setPrev_payload, setNext_payload, hm4, setPrev_payload, setNext_payload, hm3,
      allocateInstr_payload, hm2, setPrev_payload, setNext_payload, hm1,
      allocateInstr_payload]
    simp only [setPrev_length, setNext_length, allocateInstr_length]
    by_cases h1 : b = m.instrs.length
    · subst h1
      simp [pushRbp, instruction.unlink, instruction.asPush64, instruction.fresh]
    · by_cases h2 : b = m.instrs.length + 1
      · subst h2
        simp [movRspRbp, instruction.unlink, instruction.asMovRR, instruction.fresh]
      · simp [h1, h2]
  · rw [hm5, (setPrev_frame _ _ _).1, (setNext_frame _ _ _).1, hm4, (setPrev_frame _ _ _).1,
      (setNext_frame _ _ _).1, hm3, (allocateInstr_frame _ _).1, hm2, (setPrev_frame _ _ _).1,
      (setNext_frame _ _ _).1, hm1, (allocateInstr_frame _ _).1]

/-- C10: on a stream `root -> i1 -> ... -> in` with at least one instruction after the
root, no clobbered register and spill-slot size 0, `SetupPrologue` completes and leaves the
stream `root -> push %rbp -> mov %rsp,%rbp -> i1 -> ... -> in`: the two new instructions are
the two records it allocated, they come once, in that order, right after the root, and the
instructions of the input keep their contents and their order; a doubly-linked input gives
a doubly-linked result. -/
theorem SetupPrologue_inserts_prologue (m : machine) (root i1 : Nat) (body : List Nat)
    (hroot : m.RootInstr = some root) (hstream : isStream m (root :: i1 :: body))
    (hclob : m.clobberedRegs = []) (hspill : m.spillSlotSize = 0) :
    ∃ m2, SetupPrologue m = .done m2 ∧ m2.RootInstr = some root ∧
      isStream m2 (root :: m.instrs.length :: (m.instrs.length + 1) :: i1 :: body) ∧
      m2.payload m.instrs.length = some pushRbp ∧
      m2.payload (m.instrs.length + 1) = some movRspRbp ∧
      m2.instrs.length = m.instrs.length + 2 ∧
      m2.contents (root :: m.instrs.length :: (m.instrs.length + 1) :: i1 :: body) =
        m.contents [root] ++ [pushRbp, movRspRbp] ++ m.contents (i1 :: body) ∧
      (m.contents (root :: i1 :: body)).length = (root :: i1 :: body).length ∧
      (prevLinked m (root :: i1 :: body) →
        prevLinked m2 (root :: m.instrs.length :: (m.instrs.length + 1) :: i1 :: body)) := by
  have hnd := nextSeg_nodup m _ hstream
  have hlt := nextSeg_lt m _ _ hstream
  have hs := hstream
  simp only [isStream, nextSeg, headOr] at hs
  have hroot_lt : root < m.instrs.length := hlt root (by simp)
  have hi1_lt : i1 < m.instrs.length := hlt i1 (by simp)
  obtain ⟨m2, e, len, n2, p2, y2, r2⟩ :=
    SetupPrologue_spec m root i1 hroot hs.1 hi1_lt (le_of_eq hspill) hclob
  have hroot_notin : root ∉ i1 :: body := (List.nodup_cons.1 hnd).1
  have hn_tail : ∀ b ∈ i1 :: body, m2.nextOf b = m.nextOf b := by
    intro b hb
    rw [n2]
    have := hlt b (List.mem_cons_of_mem _ hb)
    have : b ≠ root := fun h => hroot_notin (h ▸ hb)
    have : b ≠ m.instrs.length := by omega
    have : b ≠ m.instrs.length + 1 := by omega
    simp [*]
  have hy_old : ∀ b, b < m.instrs.length → m2.payload b = m.payload b := by
    intro b hb
    rw [y2]
    have : b ≠ m.instrs.length := by omega
    have : b ≠ m.instrs.length + 1 := by omega
    simp [*]
  have hx : m2.payload m.instrs.length = some pushRbp := by rw [y2]; simp
  have hy : m2.payload (m.instrs.length + 1) = some movRspRbp := by rw [y2]; simp
  obtain ⟨cur, hcur, _⟩ := instr_of_nextOf m root _ hs.1
  have hpr : m.payload root = some cur.unlink := by simp [machine.payload, hcur]
  refine ⟨m2, e, by rw [r2, hroot], ?_, hx, hy, len, ?_, contents_length m _ _ hstream, ?_⟩
  · simp only [isStream, nextSeg, headOr]
    refine ⟨by rw [n2]; simp, ?_, ?_, ?_⟩
    · rw [n2]
      have : m.instrs.length ≠ root := by omega
      simp [this]
    · rw [n2]
      have : m.instrs.length + 1 ≠ root := by omega
      simp [this]
    · exact nextSeg_congr m m2 (i1 :: body) none hn_tail hs.2
  · rw [contents_payload_cons m2 _ _ _ (by rw [hy_old root hroot_lt, hpr]),
      contents_payload_cons m2 _ _ _ hx, contents_payload_cons m2 _ _ _ hy,
      contents_congr m m2 (i1 :: body)
        (fun b hb => hy_old b (hlt b (List.mem_cons_of_mem _ hb))),
      contents_payload_cons m root [] _ hpr]
    simp [machine.contents]
  · intro hp
    simp only [prevLinked, prevSeg] at hp ⊢
    have hi1_notin : i1 ∉ body := (List.nodup_cons.1 (List.nodup_cons.1 hnd).2).1
    refine ⟨by rw [p2]; simp, ?_, ?_, ?_⟩
    · rw [p2]; simp
    · rw [p2]
      have : i1 ≠ m.instrs.length := by omega
      have : i1 ≠ m.instrs.length + 1 := by omega
      simp [*]
    · refine prevSeg_congr m m2 body _ (fun b hb => ?_) hp.2
      rw [p2]
      have := hlt b (by simp [hb])
      have : b ≠ i1 := fun h => hi1_notin (h ▸ hb)
      have : b ≠ m.instrs.length := by omega
      have : b ≠ m.instrs.length + 1 := by omega
      simp [*]

/-- C10 at a concrete input: `nop -> mov %rax,%rcx -> mov %rax,%rax -> ret`. -/
theorem SetupPrologue_inserts_prologue_witness :
    ∃ m2, SetupPrologue exampleStream = .done m2 ∧ m2.RootInstr = some 0 ∧
      isStream m2 [0, 4, 5, 1, 2, 3] ∧
      m2.payload 4 = some pushRbp ∧ m2.payload 5 = some movRspRbp ∧
      m2.instrs.length = 6 ∧
      m2.contents [0, 4, 5, 1, 2, 3] =
        exampleStream.contents [0] ++ [pushRbp, movRspRbp] ++
          exampleStream.contents [1, 2, 3] ∧
      (exampleStream.contents [0, 1, 2, 3]).length = 4 ∧
      (prevLinked exampleStream [0, 1, 2, 3] → prevLinked m2 [0, 4, 5, 1, 2, 3]) :=
  SetupPrologue_inserts_prologue exampleStream 0 1 [2, 3] (by decide) (by decide)
    (by decide) (by decide)

end amd64

/-! ### Entry-block arguments -/

theorem collect_eq (ps : List ssa.Value) (c : compiler σ) :
    lowerFunctionArguments.collect c ps =
      { c with tmpVals := c.tmpVals ++
          ps.map (fun p => if c.ssaValueRefCounts p > 0 then p else ssa.ValueInvalid) } := by
  induction ps generalizing c with
  | nil => simp [lowerFunctionArguments.collect]
  | cons p ps ih =>
    by_cases h : c.ssaValueRefCounts p > 0
    · simp [lowerFunctionArguments.collect, h, ih]
    · simp [lowerFunctionArguments.collect, h, ih]

/-- C14: whatever `tmpVals` held before, `lowerFunctionArguments` passes to
`CalleeGenFunctionArgsToVRegs` a list with one element per parameter of the entry block,
element `i` being `Param(i)` when its recorded use count is positive and the placeholder
`ssa.ValueInvalid` otherwise (in particular when the count is zero); the call is followed by
a flush and nothing else is recorded. -/
theorem lowerFunctionArguments_marshals (c : compiler σ) (entry : ssa.BlockRef) :
    ∃ vals, emitted c (lowerFunctionArguments c entry) =
        [Event.CalleeGenFunctionArgsToVRegs vals, Event.FlushPendingInstructions] ∧
      vals.length = entry.Params ∧
      (∀ (i : Nat) (p : ssa.Value), entry.params[i]? = some p →
        (0 < c.ssaValueRefCounts p → vals[i]? = some p) ∧
        (c.ssaValueRefCounts p = 0 → vals[i]? = some ssa.ValueInvalid)) ∧
      vals = entry.params.map
        (fun p => if c.ssaValueRefCounts p > 0 then p else ssa.ValueInvalid) := by
  refine ⟨entry.params.map
    (fun p => if c.ssaValueRefCounts p > 0 then p else ssa.ValueInvalid), ?_, ?_, ?_, rfl⟩
  · simp [emitted, lowerFunctionArguments, collect_eq, compiler.emit]
  · simp [ssa.BlockRef.Params]
  · intro i p hp
    constructor
    · intro h
      simp [List.getElem?_map, hp, h]
    · intro h
      simp [List.getElem?_map, hp, h]

/-! ### The order in which the two branches are lowered -/

theorem lowerBlockArguments_trace (c : compiler σ) (args : List ssa.Value)
    (succ : ssa.BlockRef) :
    ∃ t, (lowerBlockArguments c args succ).state.trace = c.trace ++ t := by
  by_cases hlen : args.length = succ.Params
  · by_cases hsep : nonOverlapping (moveEdges c args succ)
    · obtain ⟨c2, h1, h2, _⟩ := lowerBlockArguments_direct c args succ hlen hsep
      exact ⟨_, by rw [h1]; exact h2⟩
    · obtain ⟨c2, h1, h2⟩ := lowerBlockArguments_twoPhase c args succ hlen hsep
      exact ⟨_, by rw [h1]; exact h2⟩
  · exact ⟨[], by simp [lowerBlockArguments, hlen, Outcome.state]⟩

theorem lowerBranches_trace (c : compiler σ) (br0 br1 : ssa.Instruction) :
    ∃ t, (lowerBranches c br0 (some br1)).state.trace =
      c.trace ++ [Event.SetCurrentGroupID br0.gid, Event.LowerSingleBranch br0,
        Event.FlushPendingInstructions, Event.SetCurrentGroupID br1.gid,
        Event.LowerConditionalBranch br1, Event.FlushPendingInstructions] ++ t := by
  obtain ⟨c1, hc1⟩ : ∃ c1, c1 =
      (((((c.setCurrentGroupID br0.gid).machLower (.LowerSingleBranch br0) br0).emit
        .FlushPendingInstructions).setCurrentGroupID br1.gid).machLower
          (.LowerConditionalBranch br1) br1).emit .FlushPendingInstructions := ⟨_, rfl⟩
  have ht : c1.trace = c.trace ++ [Event.SetCurrentGroupID br0.gid,
      Event.LowerSingleBranch br0, Event.FlushPendingInstructions,
      Event.SetCurrentGroupID br1.gid, Event.LowerConditionalBranch br1,
      Event.FlushPendingInstructions] := by
    rw [hc1]
    simp [compiler.emit, compiler.machLower, compiler.setCurrentGroupID]
  simp only [lowerBranches, ← hc1]
  split
  · split
    · exact ⟨[], by simp [Outcome.state, ht]⟩
    · split
      · exact ⟨[Event.CalleeGenVRegsToFunctionReturns br0.BranchData.1,
          Event.FlushPendingInstructions], by
          simp [Outcome.state, ht, compiler.emit, lowerFunctionReturns]⟩
      · split
        · obtain ⟨t, htr⟩ := lowerBlockArguments_trace c1 br0.BranchData.1 br0.BranchData.2
          split
          · rename_i p c4 heq
            rw [heq] at htr
            exact ⟨t, by simpa [Outcome.state, ht] using htr⟩
          · rename_i c4 heq
            rw [heq] at htr
            simp only [Outcome.state] at htr
            exact ⟨t ++ [Event.FlushPendingInstructions], by
              simp [Outcome.state, compiler.emit, htr, ht]⟩
        · exact ⟨[Event.FlushPendingInstructions], by
            simp [Outcome.state, ht, compiler.emit]⟩
  · exact ⟨[Event.FlushPendingInstructions], by simp [Outcome.state, ht, compiler.emit]⟩

/-- C15, amended: with a conditional branch `br1` present, `lowerBranches` first propagates
the group id of `br0` and lowers `br0` with `LowerSingleBranch`, followed by a flush, and
only then propagates the group id of `br1` and lowers `br1` with `LowerConditionalBranch`,
followed by a flush; these six calls open what it records, whatever follows. -/
theorem lowerBranches_unconditional_first (c : compiler σ) (br0 br1 : ssa.Instruction) :
    ∃ t, emittedByBranches c br0 (some br1) =
      [Event.SetCurrentGroupID br0.gid, Event.LowerSingleBranch br0,
        Event.FlushPendingInstructions, Event.SetCurrentGroupID br1.gid,
        Event.LowerConditionalBranch br1, Event.FlushPendingInstructions] ++ t := by
  obtain ⟨t, ht⟩ := lowerBranches_trace c br0 br1
  exact ⟨t, by simp [emittedByBranches, emitted, ht]⟩

/-- C15 as stated fails: for a jump after a conditional branch the trace holds
`LowerSingleBranch` of the jump before `LowerConditionalBranch` of the conditional branch,
not the order the claim gives. -/
theorem lowerBranches_unconditional_first_counterexample :
    emittedByBranches exampleCompiler (exampleJump [] (exampleBlock [])) (some exampleBrz) =
      [Event.SetCurrentGroupID 1, Event.LowerSingleBranch (exampleJump [] (exampleBlock [])),
        Event.FlushPendingInstructions, Event.SetCurrentGroupID 2,
        Event.LowerConditionalBranch exampleBrz, Event.FlushPendingInstructions,
        Event.FlushPendingInstructions] ∧
    ¬ ∃ t, emittedByBranches exampleCompiler (exampleJump [] (exampleBlock []))
        (some exampleBrz) =
      [Event.SetCurrentGroupID 2, Event.LowerConditionalBranch exampleBrz,
        Event.FlushPendingInstructions, Event.SetCurrentGroupID 1,
        Event.LowerSingleBranch (exampleJump [] (exampleBlock [])),
        Event.FlushPendingInstructions] ++ t := by
  have h : emittedByBranches exampleCompiler (exampleJump [] (exampleBlock []))
      (some exampleBrz) =
      [Event.SetCurrentGroupID 1, Event.LowerSingleBranch (exampleJump [] (exampleBlock [])),
        Event.FlushPendingInstructions, Event.SetCurrentGroupID 2,
        Event.LowerConditionalBranch exampleBrz, Event.FlushPendingInstructions,
        Event.FlushPendingInstructions] := by decide
  refine ⟨h, ?_⟩
  rintro ⟨t, ht⟩
  rw [h] at ht
  simp at ht

/-! ### Which jumps have their argument count checked -/

/-- C16, amended: a jump that carries at least one argument, whose target is not the return
block and declares a number of parameters different from the number of arguments, makes
`lowerBranches` fail with an invariant violation: the count mismatch, or the critical-edge
violation when a conditional branch precedes the jump. -/
theorem lowerBranches_count_mismatch (c : compiler σ) (br0 : ssa.Instruction)
    (br1 : Option ssa.Instruction)
    (hjump : br0.opcode = .OpcodeJump) (hargs : br0.BranchData.1 ≠ [])
    (htarget : br0.BranchData.2.returnBlock = false)
    (hcount : br0.BranchData.1.length ≠ br0.BranchData.2.Params) :
    (br1 = none → (lowerBranches c br0 br1).failure = some .mismatchedArguments) ∧
    (br1 ≠ none → (lowerBranches c br0 br1).failure = some .criticalEdgeSplitFailed) ∧
    (lowerBranches c br0 br1).failure ≠ none := by
  have hne : br0.BranchData.1.length ≠ 0 := fun h => hargs (List.length_eq_zero.1 h)
  cases br1 with
  | none =>
    have : (lowerBranches c br0 none).failure = some .mismatchedArguments := by
      simp [lowerBranches, hjump, hne, htarget, lowerBlockArguments, hcount, Outcome.failure]
    simp [this]
  | some b1 =>
    have : (lowerBranches c br0 (some b1)).failure = some .criticalEdgeSplitFailed := by
      simp [lowerBranches, hjump, hne, Outcome.failure]
    simp [this]

/-- C16 at the input of the spec: a jump with 2 arguments to a block with 3 parameters. -/
theorem lowerBranches_count_mismatch_witness :
    (lowerBranches exampleCompiler (exampleJump [⟨1⟩, ⟨2⟩] (exampleBlock [⟨3⟩, ⟨4⟩, ⟨5⟩]))
      none).failure = some .mismatchedArguments :=
  (lowerBranches_count_mismatch exampleCompiler
    (exampleJump [⟨1⟩, ⟨2⟩] (exampleBlock [⟨3⟩, ⟨4⟩, ⟨5⟩])) none (by decide) (by decide)
    (by decide) (by decide)).1 rfl

/-- C16 as stated fails on the two cases it names: a jump without arguments to a block
that declares two parameters, and a jump with one argument to the return block (which
declares none), are both lowered without any failure; the second has its argument
marshaled as a return value. -/
theorem lowerBranches_count_mismatch_counterexample :
    ((exampleJump [] (exampleBlock [⟨3⟩, ⟨4⟩])).BranchData.1.length ≠
        (exampleJump [] (exampleBlock [⟨3⟩, ⟨4⟩])).BranchData.2.Params ∧
      (lowerBranches exampleCompiler (exampleJump [] (exampleBlock [⟨3⟩, ⟨4⟩]))
        none).failure = none) ∧
    ((exampleJump [⟨1⟩] exampleReturnBlock).BranchData.1.length ≠
        (exampleJump [⟨1⟩] exampleReturnBlock).BranchData.2.Params ∧
      (lowerBranches exampleCompiler (exampleJump [⟨1⟩] exampleReturnBlock)
        none).failure = none ∧
      emittedByBranches exampleCompiler (exampleJump [⟨1⟩] exampleReturnBlock) none =
        [Event.SetCurrentGroupID 1,
          Event.LowerSingleBranch (exampleJump [⟨1⟩] exampleReturnBlock),
          Event.FlushPendingInstructions, Event.CalleeGenVRegsToFunctionReturns [⟨1⟩],
          Event.FlushPendingInstructions]) := by
  decide

/-! ### Blocks are lowered, then linked, in iteration order -/

/-- A recorded call that neither starts a block nor links two blocks. -/
theorem inner_of_ne (e : Event) (h1 : ∀ b, e ≠ .StartBlock b)
    (h2 : ∀ p n, e ≠ .LinkAdjacentBlocks p n) :
    e.startedBlock = none ∧ e.linkedBlocks = none := by
  cases e <;> simp [Event.startedBlock, Event.linkedBlocks] at h1 h2 ⊢

theorem directMoves_inner (es : List (VReg × VReg)) :
    ∀ e ∈ directMoves es, e.startedBlock = none ∧ e.linkedBlocks = none := by
  intro e he
  obtain ⟨x, _, rfl⟩ := List.mem_map.1 he
  exact ⟨rfl, rfl⟩

theorem constantLoads_inner (ks : List (ssa.Instruction × VReg)) :
    ∀ e ∈ constantLoads ks, e.startedBlock = none ∧ e.linkedBlocks = none := by
  intro e he
  obtain ⟨x, _, rfl⟩ := List.mem_map.1 he
  exact ⟨rfl, rfl⟩

theorem toTempsCalls_inner (ts : List VReg) (es : List (VReg × VReg)) :
    ∀ e ∈ toTempsCalls ts es, e.startedBlock = none ∧ e.linkedBlocks = none := by
  induction ts generalizing es with
  | nil => simp [toTempsCalls]
  | cons t ts ih =>
    cases es with
    | nil => simp [toTempsCalls]
    | cons x es =>
      intro e he
      simp only [toTempsCalls, List.mem_cons] at he
      rcases he with rfl | rfl | he
      · exact ⟨rfl, rfl⟩
      · exact ⟨rfl, rfl⟩
      · exact ih es e he

theorem lowerBlockArguments_inner (c c2 : compiler σ) (args : List ssa.Value)
    (succ : ssa.BlockRef) (h : lowerBlockArguments c args succ = .done c2) :
    ∃ t, c2.trace = c.trace ++ t ∧
      ∀ e ∈ t, e.startedBlock = none ∧ e.linkedBlocks = none := by
  by_cases hlen : args.length = succ.Params
  · by_cases hsep : nonOverlapping (moveEdges c args succ)
    · obtain ⟨c3, h1, h2, _⟩ := lowerBlockArguments_direct c args succ hlen hsep
      rw [h] at h1
      cases h1
      refine ⟨_, h2, ?_⟩
      intro e he
      rcases List.mem_append.1 he with he | he
      · exact directMoves_inner _ e he
      · exact constantLoads_inner _ e he
    · obtain ⟨c3, h1, h2⟩ := lowerBlockArguments_twoPhase c args succ hlen hsep
      rw [h] at h1
      cases h1
      refine ⟨_, h2, ?_⟩
      intro e he
      rcases List.mem_append.1 he with he | he
      · exact toTempsCalls_inner _ _ e he
      · rcases List.mem_append.1 he with he | he
        · rw [movesFromTemps_eq_directMoves] at he
          exact directMoves_inner _ e he
        · exact constantLoads_inner _ e he
  · simp [lowerBlockArguments, hlen] at h

theorem lowerBranches_inner (c c2 : compiler σ) (br0 : ssa.Instruction)
    (br1 : Option ssa.Instruction) (h : lowerBranches c br0 br1 = .done c2) :
    ∃ t, c2.trace = c.trace ++ t ∧
      ∀ e ∈ t, e.startedBlock = none ∧ e.linkedBlocks = none := by
  obtain ⟨c1, hc1⟩ : ∃ c1 : compiler σ, c1 =
      (match br1 with
        | some b1 =>
          ((((c.setCurrentGroupID br0.gid).machLower (.LowerSingleBranch br0) br0).emit
            .FlushPendingInstructions).setCurrentGroupID b1.gid).machLower
              (.LowerConditionalBranch b1) b1 |>.emit .FlushPendingInstructions
        | none =>
          ((c.setCurrentGroupID br0.gid).machLower (.LowerSingleBranch br0) br0).emit
            .FlushPendingInstructions) := ⟨_, rfl⟩
  obtain ⟨t1, ht1, hq1⟩ : ∃ t1, c1.trace = c.trace ++ t1 ∧
      ∀ e ∈ t1, e.startedBlock = none ∧ e.linkedBlocks = none := by
    cases br1 with
    | none =>
      refine ⟨[Event.SetCurrentGroupID br0.gid, Event.LowerSingleBranch br0,
        Event.FlushPendingInstructions], ?_, ?_⟩
      · rw [hc1]
        simp [compiler.emit, compiler.machLower, compiler.setCurrentGroupID]
      · intro e he
        simp only [List.mem_cons, List.mem_singleton, List.not_mem_nil, or_false] at he
        rcases he with rfl | rfl | rfl <;> exact ⟨rfl, rfl⟩
    | some b1 =>
      refine ⟨[Event.SetCurrentGroupID br0.gid, Event.LowerSingleBranch br0,
        Event.FlushPendingInstructions, Event.SetCurrentGroupID b1.gid,
        Event.LowerConditionalBranch b1, Event.FlushPendingInstructions], ?_, ?_⟩
      · rw [hc1]
        simp [compiler.emit, compiler.machLower, compiler.setCurrentGroupID]
      · intro e he
        simp only [List.mem_cons, List.mem_singleton, List.not_mem_nil, or_false] at he
        rcases he with rfl | rfl | rfl | rfl | rfl | rfl <;> exact ⟨rfl, rfl⟩
  have hflush : ∀ t, (∀ e ∈ t, e.startedBlock = none ∧ e.linkedBlocks = none) →
      ∀ e ∈ t1 ++ t ++ [Event.FlushPendingInstructions],
        e.startedBlock = none ∧ e.linkedBlocks = none := by
    intro t hq e he
    simp only [List.mem_append, List.mem_singleton] at he
    rcases he with (he | he) | rfl
    · exact hq1 e he
    · exact hq e he
    · exact ⟨rfl, rfl⟩
  have hrew : lowerBranches c br0 br1 =
      (if br0.opcode = .OpcodeJump then
        if (decide (br0.BranchData.1.length ≠ 0) && br1.isSome) = true then
          .panicked .criticalEdgeSplitFailed c1
        else if (decide (br0.BranchData.1.length ≠ 0) && br0.BranchData.2.returnBlock) = true
        then .done ((lowerFunctionReturns c1 br0.BranchData.1).emit .FlushPendingInstructions)
        else if decide (br0.BranchData.1.length ≠ 0) = true then
          match lowerBlockArguments c1 br0.BranchData.1 br0.BranchData.2 with
          | .panicked p c => .panicked p c
          | .done c => .done (c.emit .FlushPendingInstructions)
        else .done (c1.emit .FlushPendingInstructions)
      else .done (c1.emit .FlushPendingInstructions)) := by
    rw [hc1]
    cases br1 <;> rfl
  rw [hrew] at h
  split at h
  · split at h
    · cases h
    · split at h
      · cases h
        refine ⟨t1 ++ [Event.CalleeGenVRegsToFunctionReturns br0.BranchData.1] ++
          [Event.FlushPendingInstructions], ?_, ?_⟩
        · simp [compiler.emit, lowerFunctionReturns, ht1]
        · exact hflush _ (by
            intro e he
            simp only [List.mem_singleton] at he
            subst he
            exact ⟨rfl, rfl⟩)
      · split at h
        · split at h
          · cases h
          · rename_i c4 heq
            cases h
            obtain ⟨t, ht, hq⟩ := lowerBlockArguments_inner c1 c4 _ _ heq
            refine ⟨t1 ++ t ++ [Event.FlushPendingInstructions], ?_, hflush t hq⟩
            simp [compiler.emit, ht, ht1]
        · cases h
          refine ⟨t1 ++ [] ++ [Event.FlushPendingInstructions], ?_, hflush [] (by simp)⟩
          simp [compiler.emit, ht1]
  · cases h
    refine ⟨t1 ++ [] ++ [Event.FlushPendingInstructions], ?_, hflush [] (by simp)⟩
    simp [compiler.emit, ht1]

theorem body_inner (l : List ssa.Instruction) (c : compiler σ) :
    ∃ t, (lowerBlock.body c l).trace = c.trace ++ t ∧
      ∀ e ∈ t, e.startedBlock = none ∧ e.linkedBlocks = none := by
  induction l generalizing c with
  | nil => exact ⟨[], by simp [lowerBlock.body], by simp⟩
  | cons cur prevs ih =>
    simp only [lowerBlock.body]
    split
    · obtain ⟨t, ht, hq⟩ := ih (c.setCurrentGroupID cur.gid)
      refine ⟨Event.SetCurrentGroupID cur.gid :: t, ?_, ?_⟩
      · rw [ht]
        simp [compiler.setCurrentGroupID, compiler.emit]
      · intro e he
        rcases List.mem_cons.1 he with rfl | he
        · exact ⟨rfl, rfl⟩
        · exact hq e he
    · split
      · obtain ⟨t, ht, hq⟩ := ih (((lowerFunctionReturns (c.setCurrentGroupID cur.gid)
          cur.ReturnVals).emit .InsertReturn).emit .FlushPendingInstructions)
        refine ⟨Event.SetCurrentGroupID cur.gid ::
          Event.CalleeGenVRegsToFunctionReturns cur.ReturnVals ::
          Event.InsertReturn :: Event.FlushPendingInstructions :: t, ?_, ?_⟩
        · rw [ht]
          simp [compiler.setCurrentGroupID, compiler.emit, lowerFunctionReturns]
        · intro e he
          simp only [List.mem_cons] at he
          rcases he with rfl | rfl | rfl | rfl | he
          · exact ⟨rfl, rfl⟩
          · exact ⟨rfl, rfl⟩
          · exact ⟨rfl, rfl⟩
          · exact ⟨rfl, rfl⟩
          · exact hq e he
      · obtain ⟨t, ht, hq⟩ := ih (((c.setCurrentGroupID cur.gid).machLower
          (.LowerInstr cur) cur).emit .FlushPendingInstructions)
        refine ⟨Event.SetCurrentGroupID cur.gid :: Event.LowerInstr cur ::
          Event.FlushPendingInstructions :: t, ?_, ?_⟩
        · rw [ht]
          simp [compiler.setCurrentGroupID, compiler.emit, compiler.machLower]
        · intro e he
          simp only [List.mem_cons] at he
          rcases he with rfl | rfl | rfl | he
          · exact ⟨rfl, rfl⟩
          · exact ⟨rfl, rfl⟩
          · exact ⟨rfl, rfl⟩
          · exact hq e he

theorem finish_inner (c : compiler σ) (blk : ssa.BasicBlock) :
    ∃ t, (lowerBlock.finish c blk).trace = c.trace ++ t ∧
      ∀ e ∈ t, e.startedBlock = none ∧ e.linkedBlocks = none := by
  by_cases h : blk.ref.entryBlock = true
  · refine ⟨[Event.CalleeGenFunctionArgsToVRegs
        (lowerFunctionArguments.collect { c with tmpVals := [] } blk.ref.params).tmpVals,
      Event.FlushPendingInstructions, Event.EndBlock], ?_, ?_⟩
    · simp [lowerBlock.finish, h, lowerFunctionArguments, compiler.emit, collect_trace]
    · intro e he
      simp only [List.mem_cons, List.mem_singleton, List.not_mem_nil, or_false] at he
      rcases he with rfl | rfl | rfl <;> exact ⟨rfl, rfl⟩
  · refine ⟨[.EndBlock], by simp [lowerBlock.finish, h, compiler.emit], ?_⟩
    intro e he
    simp only [List.mem_singleton] at he
    subst he
    exact ⟨rfl, rfl⟩

/-- A call of `lowerBlock` that completes records `StartBlock` of its block first, and
after it no other `StartBlock` and no `LinkAdjacentBlocks`. -/
theorem lowerBlock_inner (c c2 : compiler σ) (blk : ssa.BasicBlock)
    (h : lowerBlock c blk = .done c2) :
    ∃ t, c2.trace = c.trace ++ Event.StartBlock blk.ref :: t ∧
      ∀ e ∈ t, e.startedBlock = none ∧ e.linkedBlocks = none := by
  unfold lowerBlock at h
  simp only at h
  cases hg : lowerBlock.gather blk.instrs.reverse with
  | none =>
    rw [hg] at h
    cases h
  | some r =>
    obtain ⟨br0, br1, cur⟩ := r
    rw [hg] at h
    simp only at h
    have hstart : (c.emit (.StartBlock blk.ref)).trace = c.trace ++ [.StartBlock blk.ref] :=
      rfl
    have key : ∀ c1 : compiler σ, ∀ t1,
        c1.trace = c.trace ++ Event.StartBlock blk.ref :: t1 →
        (∀ e ∈ t1, e.startedBlock = none ∧ e.linkedBlocks = none) →
        ∃ t, (lowerBlock.finish (lowerBlock.body c1 cur) blk).trace =
            c.trace ++ Event.StartBlock blk.ref :: t ∧
          ∀ e ∈ t, e.startedBlock = none ∧ e.linkedBlocks = none := by
      intro c1 t1 ht1 hq1
      obtain ⟨t2, ht2, hq2⟩ := body_inner cur c1
      obtain ⟨t3, ht3, hq3⟩ := finish_inner (lowerBlock.body c1 cur) blk
      refine ⟨t1 ++ t2 ++ t3, ?_, ?_⟩
      · rw [ht3, ht2, ht1]
        simp
      · intro e he
        simp only [List.mem_append] at he
        rcases he with (he | he) | he
        · exact hq1 e he
        · exact hq2 e he
        · exact hq3 e he
    cases br0 with
    | none =>
      simp only at h
      split at h
      · cases h
      · cases h
        exact key _ [] (by simp [hstart]) (by simp)
    | some b0 =>
      simp only at h
      cases hr : lowerBranches (c.emit (.StartBlock blk.ref)) b0 br1 with
      | panicked p c3 =>
        rw [hr] at h
        cases h
      | done c3 =>
        rw [hr] at h
        simp only at h
        obtain ⟨t1, ht1, hq1⟩ := lowerBranches_inner _ c3 b0 br1 hr
        split at h
        · cases h
        · cases h
          exact key c3 t1 (by rw [ht1, hstart]; simp) hq1

theorem lowerAll_spec (rpo : List ssa.BasicBlock) :
    ∀ c c2 : compiler σ, lowerBlocks.lowerAll c rpo = .done c2 →
      ∃ t, c2.trace = c.trace ++ t ∧
        t.filterMap Event.startedBlock = rpo.map (fun b => b.ref) ∧
        t.filterMap Event.linkedBlocks = [] := by
  induction rpo with
  | nil =>
    intro c c2 h
    simp only [lowerBlocks.lowerAll, Outcome.done.injEq] at h
    subst h
    exact ⟨[], by simp, rfl, rfl⟩
  | cons blk rest ih =>
    intro c c2 h
    simp only [lowerBlocks.lowerAll] at h
    cases hb : lowerBlock c blk with
    | panicked p c3 =>
      rw [hb] at h
      cases h
    | done c3 =>
      rw [hb] at h
      simp only at h
      obtain ⟨t1, ht1, hq1⟩ := lowerBlock_inner c c3 blk hb
      obtain ⟨t2, ht2, hs2, hl2⟩ := ih c3 c2 h
      have hn1 : t1.filterMap Event.startedBlock = [] :=
        List.filterMap_eq_nil_iff.2 (fun e he => (hq1 e he).1)
      have hn2 : t1.filterMap Event.linkedBlocks = [] :=
        List.filterMap_eq_nil_iff.2 (fun e he => (hq1 e he).2)
      refine ⟨Event.StartBlock blk.ref :: t1 ++ t2, ?_, ?_, ?_⟩
      · rw [ht2, ht1]
        simp
      · simp [List.filterMap_cons, List.filterMap_append, Event.startedBlock, hn1, hs2]
      · simp [List.filterMap_cons, List.filterMap_append, Event.linkedBlocks, hn2, hl2]

theorem linkAll_eq (rpo : List ssa.BasicBlock) :
    ∀ (c : compiler σ) (prev : Option ssa.BasicBlock),
      lowerBlocks.linkAll c prev rpo = { c with trace := c.trace ++ linkCalls prev rpo } := by
  induction rpo with
  | nil =>
    intro c prev
    cases prev <;> simp [lowerBlocks.linkAll, linkCalls]
  | cons b rest ih =>
    intro c prev
    cases prev with
    | none => simp [lowerBlocks.linkAll, linkCalls, ih]
    | some p => simp [lowerBlocks.linkAll, linkCalls, ih, compiler.emit]

theorem linkCalls_some (p : ssa.BasicBlock) (rpo : List ssa.BasicBlock) :
    linkCalls (some p) rpo =
      ((p :: rpo).zip rpo).map (fun q => Event.LinkAdjacentBlocks q.1.ref q.2.ref) := by
  induction rpo generalizing p with
  | nil => simp [linkCalls]
  | cons b rest ih => simp [linkCalls, ih]

theorem linkCalls_none (rpo : List ssa.BasicBlock) :
    linkCalls none rpo =
      (adjacentPairs rpo).map (fun q => Event.LinkAdjacentBlocks q.1 q.2) := by
  cases rpo with
  | nil => simp [linkCalls, adjacentPairs]
  | cons b rest => simp [linkCalls, linkCalls_some, adjacentPairs]

/-- C13, amended: when `lowerBlock` completes on each of the blocks `b1, ..., bn` the
reverse-post-order iteration yields, `lowerBlocks` completes; it calls `lowerBlock` on
`b1, ..., bn` in that order (the `StartBlock` calls recorded are those of `b1, ..., bn`) and
only after that calls `LinkAdjacentBlocks`, exactly `n - 1` times, on the pairs
`(b_i, b_{i+1})` in order. -/
theorem lowerBlocks_lower_then_link (c : compiler σ) (rpo : List ssa.BasicBlock)
    (hok : (lowerBlocks.lowerAll c rpo).failure = none) :
    ∃ c2 t, lowerBlocks c rpo = .done c2 ∧
      emitted c c2 =
        t ++ (adjacentPairs rpo).map (fun q => Event.LinkAdjacentBlocks q.1 q.2) ∧
      t.filterMap Event.startedBlock = rpo.map (fun b => b.ref) ∧
      t.filterMap Event.linkedBlocks = [] ∧
      (adjacentPairs rpo).length = rpo.length - 1 := by
  cases h : lowerBlocks.lowerAll c rpo with
  | panicked p c3 => simp [h, Outcome.failure] at hok
  | done c3 =>
    obtain ⟨t, ht, hs, hl⟩ := lowerAll_spec rpo c c3 h
    refine ⟨lowerBlocks.linkAll c3 none rpo, t, by simp only [lowerBlocks, h], ?_, hs, hl, ?_⟩
    · simp [emitted, linkAll_eq, ht, linkCalls_none]
    · simp [adjacentPairs]

/-- C13 at a concrete input: two blocks. -/
theorem lowerBlocks_lower_then_link_witness :
    ∃ c2 t, lowerBlocks exampleCompiler [exampleBlockA, exampleBlockB] = .done c2 ∧
      emitted exampleCompiler c2 =
        t ++ [Event.LinkAdjacentBlocks exampleBlockA.ref exampleBlockB.ref] ∧
      t.filterMap Event.startedBlock = [exampleBlockA.ref, exampleBlockB.ref] ∧
      t.filterMap Event.linkedBlocks = [] ∧
      (adjacentPairs [exampleBlockA, exampleBlockB]).length = 1 :=
  lowerBlocks_lower_then_link exampleCompiler [exampleBlockA, exampleBlockB] (by decide)

/-- C13 as stated fails: when the first of two blocks is rejected (its jump carries an
argument after a conditional branch), `lowerBlocks` stops there: the second block is never
lowered and `LinkAdjacentBlocks` is never called. -/
theorem lowerBlocks_lower_then_link_counterexample :
    (lowerBlocks exampleCompiler [exampleBlockCritical, exampleBlockB]).failure =
      some .criticalEdgeSplitFailed ∧
    (emitted exampleCompiler
      (lowerBlocks exampleCompiler [exampleBlockCritical, exampleBlockB]).state).filterMap
        Event.startedBlock = [exampleBlockCritical.ref] ∧
    (emitted exampleCompiler
      (lowerBlocks exampleCompiler [exampleBlockCritical, exampleBlockB]).state).filterMap
        Event.linkedBlocks = [] := by
  decide

/-! ### The two-phase strategy, call by call -/

theorem allocClass_toTempsCalls (ts : List VReg) (es : List (VReg × VReg))
    (h : ts.length = es.length) :
    (toTempsCalls ts es).filterMap Event.allocClass = es.map (fun e => e.1.RegType) := by
  induction ts generalizing es with
  | nil =>
    cases es with
    | nil => rfl
    | cons e es => simp at h
  | cons t ts ih =>
    cases es with
    | nil => simp at h
    | cons e es =>
      simp only [List.length_cons, Nat.add_right_cancel_iff] at h
      simp [toTempsCalls, Event.allocClass, ih es h]

theorem allocClass_directMoves (es : List (VReg × VReg)) :
    (directMoves es).filterMap Event.allocClass = [] := by
  apply List.filterMap_eq_nil_iff.2
  intro e he
  obtain ⟨x, _, rfl⟩ := List.mem_map.1 he
  rfl

theorem allocClass_constantLoads (ks : List (ssa.Instruction × VReg)) :
    (constantLoads ks).filterMap Event.allocClass = [] := by
  apply List.filterMap_eq_nil_iff.2
  intro e he
  obtain ⟨x, _, rfl⟩ := List.mem_map.1 he
  rfl

/-- C17, amended: when the argument count matches and some move-edge destination is also a
move-edge source, `lowerBlockArguments` completes; with `n` move edges it calls
`AllocateVReg` exactly `n` times, the `i`-th call with the register class of `src_i`; it
records first, edge by edge, the allocation of `t_i` and the copy `t_i <- src_i`, and only
then the `n` copies `dst_i <- t_i` in edge order, followed by the constant loads: `2n`
moves, no destination written before every source is in its temporary. -/
theorem lowerBlockArguments_two_phase_order (c : compiler σ) (args : List ssa.Value)
    (succ : ssa.BlockRef) (hlen : args.length = succ.Params)
    (hov : ¬ nonOverlapping (moveEdges c args succ)) :
    (lowerBlockArguments c args succ).failure = none ∧
    (emittedBy c args succ).filterMap Event.allocClass =
      (moveEdges c args succ).map (fun e => e.1.RegType) ∧
    (temporaries c args succ).length = (moveEdges c args succ).length ∧
    emittedBy c args succ =
      toTempsCalls (temporaries c args succ) (moveEdges c args succ) ++
        (movesFromTemps (temporaries c args succ) (moveEdges c args succ) ++
          constantLoads (constantEdges c args succ)) ∧
    emittedMoves c args succ =
      movesToTemps (temporaries c args succ) (moveEdges c args succ) ++
        movesFromTemps (temporaries c args succ) (moveEdges c args succ) ∧
    (emittedMoves c args succ).length = 2 * (moveEdges c args succ).length := by
  have hT := temporaries_twoPhase c args succ hlen hov
  have hE := emittedBy_twoPhase c args succ hlen hov
  have hL := temporaries_length c args succ hlen hov
  have hM := emittedMoves_twoPhase c args succ hlen hov
  refine ⟨failure_of_length_eq c args succ hlen, ?_, hL, ?_, hM, ?_⟩
  · rw [hE]
    simp only [List.filterMap_append, allocClass_constantLoads, List.append_nil]
    rw [movesFromTemps_eq_directMoves, allocClass_directMoves, List.append_nil]
    exact allocClass_toTempsCalls _ _ (by simp [allocateAll_length])
  · rw [hT]
    exact hE
  · rw [hM]
    simp [movesToTemps, movesFromTemps, hL]
    omega

/-- C17 at a concrete input: the swap `R1 -> R2`, `R2 -> R1`. -/
theorem lowerBlockArguments_two_phase_order_witness :
    (emittedBy exampleCompiler [⟨1⟩, ⟨2⟩] (exampleBlock [⟨2⟩, ⟨1⟩])).filterMap
        Event.allocClass = [.RegTypeInt, .RegTypeInt] ∧
    emittedBy exampleCompiler [⟨1⟩, ⟨2⟩] (exampleBlock [⟨2⟩, ⟨1⟩]) =
      [Event.AllocateVReg .RegTypeInt ⟨1000, 0, .RegTypeInt⟩,
        Event.InsertMove ⟨1000, 0, .RegTypeInt⟩ ⟨1, 0, .RegTypeInt⟩,
        Event.AllocateVReg .RegTypeInt ⟨1001, 0, .RegTypeInt⟩,
        Event.InsertMove ⟨1001, 0, .RegTypeInt⟩ ⟨2, 0, .RegTypeInt⟩,
        Event.InsertMove ⟨2, 0, .RegTypeInt⟩ ⟨1000, 0, .RegTypeInt⟩,
        Event.InsertMove ⟨1, 0, .RegTypeInt⟩ ⟨1001, 0, .RegTypeInt⟩] ∧
    (emittedMoves exampleCompiler [⟨1⟩, ⟨2⟩] (exampleBlock [⟨2⟩, ⟨1⟩])).length = 2 * 2 :=
  ⟨(lowerBlockArguments_two_phase_order exampleCompiler [⟨1⟩, ⟨2⟩]
      (exampleBlock [⟨2⟩, ⟨1⟩]) (by decide) (by decide)).2.1,
    by decide,
    (lowerBlockArguments_two_phase_order exampleCompiler [⟨1⟩, ⟨2⟩]
      (exampleBlock [⟨2⟩, ⟨1⟩]) (by decide) (by decide)).2.2.2.2.2⟩

/-- C17 as stated fails: the swap `R1 -> R2`, `R2 -> R1` passed against a successor with
three parameters has two overlapping move edges, yet the call stops at the count check:
no allocation, no move. -/
theorem lowerBlockArguments_two_phase_order_counterexample :
    ¬ nonOverlapping (moveEdges exampleCompiler [⟨1⟩, ⟨2⟩] (exampleBlock [⟨2⟩, ⟨1⟩, ⟨3⟩])) ∧
    (moveEdges exampleCompiler [⟨1⟩, ⟨2⟩] (exampleBlock [⟨2⟩, ⟨1⟩, ⟨3⟩])).length = 2 ∧
    (lowerBlockArguments exampleCompiler [⟨1⟩, ⟨2⟩]
      (exampleBlock [⟨2⟩, ⟨1⟩, ⟨3⟩])).failure = some .mismatchedArguments ∧
    temporaries exampleCompiler [⟨1⟩, ⟨2⟩] (exampleBlock [⟨2⟩, ⟨1⟩, ⟨3⟩]) = [] ∧
    emittedMoves exampleCompiler [⟨1⟩, ⟨2⟩] (exampleBlock [⟨2⟩, ⟨1⟩, ⟨3⟩]) = [] := by
  decide

/-! ### Running the complete recorded sequence -/

/-- Allocations do not touch registers: the first phase as recorded runs like its moves. -/
theorem exec_toTempsCalls {V : Type} (cval : ssa.Instruction → V)
    (ts : List VReg) (es : List (VReg × VReg)) (s : VReg → V) :
    exec cval s (toTempsCalls ts es) = exec cval s (movesToTemps ts es) := by
  induction ts generalizing es s with
  | nil => cases es <;> rfl
  | cons t ts ih =>
    cases es with
    | nil => rfl
    | cons e es =>
      have h1 : exec cval s (toTempsCalls (t :: ts) (e :: es)) =
          exec cval (Function.update s t (s e.1)) (toTempsCalls ts es) := rfl
      have h2 : exec cval s (movesToTemps (t :: ts) (e :: es)) =
          exec cval (Function.update s t (s e.1)) (movesToTemps ts es) := rfl
      rw [h1, h2, ih]

/-- A register that is no destination of a constant load keeps its value. -/
theorem exec_constantLoads_frame {V : Type} (cval : ssa.Instruction → V)
    (ks : List (ssa.Instruction × VReg)) (s : VReg → V) (r : VReg)
    (hr : r ∉ ks.map Prod.snd) : exec cval s (constantLoads ks) r = s r := by
  induction ks generalizing s with
  | nil => rfl
  | cons k ks ih =>
    simp only [List.map_cons, List.mem_cons, not_or] at hr
    have : exec cval s (constantLoads (k :: ks)) =
        exec cval (Function.update s k.2 (cval k.1)) (constantLoads ks) := rfl
    rw [this, ih _ hr.2, Function.update_noteq hr.1]

/-- With pairwise distinct destinations every constant load leaves its constant. -/
theorem exec_constantLoads_dst {V : Type} (cval : ssa.Instruction → V)
    (ks : List (ssa.Instruction × VReg)) (s : VReg → V)
    (hnd : (ks.map Prod.snd).Nodup) (k : ssa.Instruction × VReg) (hk : k ∈ ks) :
    exec cval s (constantLoads ks) k.2 = cval k.1 := by
  induction ks generalizing s with
  | nil => simp at hk
  | cons q ks ih =>
    have hstep : exec cval s (constantLoads (q :: ks)) =
        exec cval (Function.update s q.2 (cval q.1)) (constantLoads ks) := rfl
    simp only [List.map_cons, List.nodup_cons] at hnd
    rw [hstep]
    rcases List.mem_cons.1 hk with rfl | hk2
    · rw [exec_constantLoads_frame cval ks _ _ hnd.1, Function.update_same]
    · exact ih _ hnd.2 hk2

theorem filterMap_map_sublist {α β γ : Type} (f : α → Option β) (g : β → γ) (h : α → γ)
    (hfg : ∀ x y, f x = some y → g y = h x) (l : List α) :
    ((l.filterMap f).map g).Sublist (l.map h) := by
  induction l with
  | nil => simp
  | cons x l ih =>
    cases hx : f x with
    | none =>
      rw [List.filterMap_cons_none hx, List.map_cons]
      exact ih.cons _
    | some y =>
      rw [List.filterMap_cons_some hx, List.map_cons, List.map_cons, hfg x y hx]
      exact ih.cons₂ _

theorem moveEdgeOf_some (vreg : ssa.Value → VReg) (defs : ssa.Value → SSAValueDefinition)
    (p : ssa.Value × ssa.Value) (e : VReg × VReg) :
    moveEdgeOf vreg defs p = some e ↔
      constantDef defs p.1 = none ∧ vreg p.1 ≠ vreg p.2 ∧ e = (vreg p.1, vreg p.2) := by
  unfold moveEdgeOf
  cases h : constantDef defs p.1 with
  | some ci => simp
  | none =>
    by_cases hne : vreg p.1 = vreg p.2
    · simp [hne]
    · simp [hne, eq_comm]

theorem constEdgeOf_some (vreg : ssa.Value → VReg) (defs : ssa.Value → SSAValueDefinition)
    (p : ssa.Value × ssa.Value) (k : ssa.Instruction × VReg) :
    constEdgeOf vreg defs p = some k ↔
      constantDef defs p.1 = some k.1 ∧ k.2 = vreg p.2 := by
  unfold constEdgeOf
  cases h : constantDef defs p.1 with
  | none => simp
  | some ci =>
    simp only [Option.map_some', Option.some.injEq]
    constructor
    · rintro rfl
      exact ⟨rfl, rfl⟩
    · rintro ⟨h1, h2⟩
      exact Prod.ext h1 h2.symm

/-- The registers after the whole recorded sequence, from the registers `s1` after the
moves. -/
theorem exec_assignment {V : Type} (cval : ssa.Instruction → V)
    (vreg : ssa.Value → VReg) (defs : ssa.Value → SSAValueDefinition)
    (zs : List (ssa.Value × ssa.Value)) (ts : List VReg) (s s1 : VReg → V)
    (hnd : (zs.map (fun p => vreg p.2)).Nodup)
    (hts : ∀ t ∈ ts, t ∉ zs.map (fun p => vreg p.2))
    (hdst : ∀ e ∈ zs.filterMap (moveEdgeOf vreg defs), s1 e.2 = s e.1)
    (hframe : ∀ r, r ∉ ts → r ∉ (zs.filterMap (moveEdgeOf vreg defs)).map Prod.snd →
      s1 r = s r) :
    (∀ p ∈ zs, exec cval s1 (constantLoads (zs.filterMap (constEdgeOf vreg defs)))
        (vreg p.2) =
      match constantDef defs p.1 with
      | some cInst => cval cInst
      | none => s (vreg p.1)) ∧
    (∀ r, r ∉ zs.map (fun p => vreg p.2) → r ∉ ts →
      exec cval s1 (constantLoads (zs.filterMap (constEdgeOf vreg defs))) r = s r) := by
  have hinj := List.inj_on_of_nodup_map hnd
  have hK : ((zs.filterMap (constEdgeOf vreg defs)).map Prod.snd).Nodup :=
    (filterMap_map_sublist _ Prod.snd (fun p => vreg p.2)
      (fun x y h => ((constEdgeOf_some vreg defs x y).1 h).2) zs).nodup hnd
  have hKmem : ∀ r, r ∈ (zs.filterMap (constEdgeOf vreg defs)).map Prod.snd →
      ∃ q ∈ zs, vreg q.2 = r ∧ (constantDef defs q.1).isSome := by
    intro r hr
    obtain ⟨k, hk, rfl⟩ := List.mem_map.1 hr
    obtain ⟨q, hq, hqk⟩ := List.mem_filterMap.1 hk
    have := (constEdgeOf_some vreg defs q k).1 hqk
    exact ⟨q, hq, this.2.symm, by simp [this.1]⟩
  have hEmem : ∀ r, r ∈ (zs.filterMap (moveEdgeOf vreg defs)).map Prod.snd →
      ∃ q ∈ zs, vreg q.2 = r ∧ constantDef defs q.1 = none ∧ vreg q.1 ≠ vreg q.2 := by
    intro r hr
    obtain ⟨e, he, rfl⟩ := List.mem_map.1 hr
    obtain ⟨q, hq, hqe⟩ := List.mem_filterMap.1 he
    have := (moveEdgeOf_some vreg defs q e).1 hqe
    exact ⟨q, hq, by rw [this.2.2], this.1, this.2.1⟩
  constructor
  · intro p hp
    cases hc : constantDef defs p.1 with
    | some ci =>
      have hk : (ci, vreg p.2) ∈ zs.filterMap (constEdgeOf vreg defs) :=
        List.mem_filterMap.2 ⟨p, hp, (constEdgeOf_some vreg defs p _).2 ⟨hc, rfl⟩⟩
      exact exec_constantLoads_dst cval _ s1 hK (ci, vreg p.2) hk
    | none =>
      have hnotK : vreg p.2 ∉ (zs.filterMap (constEdgeOf vreg defs)).map Prod.snd := by
        intro hmem
        obtain ⟨q, hq, hqr, hqc⟩ := hKmem _ hmem
        have : q = p := hinj hq hp hqr
        subst this
        simp [hc] at hqc
      show exec cval s1 (constantLoads (zs.filterMap (constEdgeOf vreg defs))) (vreg p.2) =
        s (vreg p.1)
      rw [exec_constantLoads_frame cval _ s1 _ hnotK]
      by_cases hne : vreg p.1 = vreg p.2
      · have hnotE : vreg p.2 ∉ (zs.filterMap (moveEdgeOf vreg defs)).map Prod.snd := by
          intro hmem
          obtain ⟨q, hq, hqr, _, hqne⟩ := hEmem _ hmem
          have : q = p := hinj hq hp hqr
          subst this
          exact hqne hne
        have hnotT : vreg p.2 ∉ ts := fun ht =>
          hts _ ht (List.mem_map.2 ⟨p, hp, rfl⟩)
        rw [hframe _ hnotT hnotE, hne]
      · have he : (vreg p.1, vreg p.2) ∈ zs.filterMap (moveEdgeOf vreg defs) :=
          List.mem_filterMap.2 ⟨p, hp, (moveEdgeOf_some vreg defs p _).2 ⟨hc, hne, rfl⟩⟩
        exact hdst _ he
  · intro r hr hrt
    have hnotK : r ∉ (zs.filterMap (constEdgeOf vreg defs)).map Prod.snd := by
      intro hmem
      obtain ⟨q, hq, hqr, _⟩ := hKmem _ hmem
      exact hr (List.mem_map.2 ⟨q, hq, hqr⟩)
    have hnotE : r ∉ (zs.filterMap (moveEdgeOf vreg defs)).map Prod.snd := by
      intro hmem
      obtain ⟨q, hq, hqr, _⟩ := hEmem _ hmem
      exact hr (List.mem_map.2 ⟨q, hq, hqr⟩)
    rw [exec_constantLoads_frame cval _ s1 _ hnotK, hframe _ hrt hnotE]

theorem moveEdges_dst_sublist (vreg : ssa.Value → VReg)
    (defs : ssa.Value → SSAValueDefinition) (zs : List (ssa.Value × ssa.Value)) :
    ((zs.filterMap (moveEdgeOf vreg defs)).map Prod.snd).Sublist
      (zs.map (fun p => vreg p.2)) :=
  filterMap_map_sublist _ Prod.snd (fun p => vreg p.2)
    (fun x y h => by rw [((moveEdgeOf_some vreg defs x y).1 h).2.2]) zs

theorem zip_map_snd (c : compiler σ) (args : List ssa.Value) (succ : ssa.BlockRef)
    (hlen : args.length = succ.Params) :
    (args.zip succ.params).map (fun p => c.ssaValueToVRegs p.2) =
      succ.params.map c.VRegOf := by
  have : (fun p : ssa.Value × ssa.Value => c.ssaValueToVRegs p.2) =
      c.VRegOf ∘ Prod.snd := rfl
  rw [this, ← List.map_map, List.map_snd_zip]
  exact le_of_eq hlen.symm

/-- C19: when the argument count matches, the parameter registers are pairwise distinct
and the temporaries returned by `AllocateVReg` are pairwise distinct and are neither a
move-edge source nor a parameter register, `lowerBlockArguments` completes, what it
records is a sequence without constant loads followed by all the constant loads, and
running the whole recorded sequence in order from any register state `s` leaves in the
register of parameter `i` the value `s(VRegOf(args[i]))` when `args[i]` is not a constant
and the value of the constant when it is; registers that are neither a parameter register
nor a temporary keep their value. -/
theorem lowerBlockArguments_parallel_assignment {V : Type} (cval : ssa.Instruction → V)
    (c : compiler σ) (args : List ssa.Value) (succ : ssa.BlockRef) (s : VReg → V)
    (hlen : args.length = succ.Params)
    (hparams : (succ.params.map c.VRegOf).Nodup)
    (htmp : (temporaries c args succ).Nodup)
    (hfresh : ∀ t ∈ temporaries c args succ,
      t ∉ (moveEdges c args succ).map Prod.fst ∧ t ∉ succ.params.map c.VRegOf) :
    (lowerBlockArguments c args succ).failure = none ∧
    (∃ pre, emittedBy c args succ = pre ++ emittedLoads c args succ ∧
      pre.filter Event.isLoadConstant = [] ∧ pre.filter Event.isMove = emittedMoves c args succ) ∧
    (∀ (i : Nat) (a p : ssa.Value), args[i]? = some a → succ.params[i]? = some p →
      exec cval s (emittedBy c args succ) (c.VRegOf p) =
        match constantDef c.ssaValueDefinitions a with
        | some cInst => cval cInst
        | none => s (c.VRegOf a)) ∧
    (∀ r, r ∉ succ.params.map c.VRegOf → r ∉ temporaries c args succ →
      exec cval s (emittedBy c args succ) r = s r) := by
  have hZ := zip_map_snd c args succ hlen
  have hndZ : ((args.zip succ.params).map (fun p => c.ssaValueToVRegs p.2)).Nodup := by
    rw [hZ]; exact hparams
  have hE := moveEdges_eq c args succ
  have hK := constantEdges_eq c args succ
  have hEsub := moveEdges_dst_sublist c.ssaValueToVRegs c.ssaValueDefinitions
    (args.zip succ.params)
  rw [← hE, hZ] at hEsub
  have hEnd : ((moveEdges c args succ).map Prod.snd).Nodup := hEsub.nodup hparams
  have hts : ∀ t ∈ temporaries c args succ,
      t ∉ (args.zip succ.params).map (fun p => c.ssaValueToVRegs p.2) := by
    intro t ht
    rw [hZ]
    exact (hfresh t ht).2
  -- the registers after the moves
  have hmoves : ∃ pre, emittedBy c args succ = pre ++ constantLoads (constantEdges c args succ) ∧
      pre.filter Event.isLoadConstant = [] ∧
      pre.filter Event.isMove = emittedMoves c args succ ∧
      (∀ e ∈ moveEdges c args succ, exec cval s pre e.2 = s e.1) ∧
      (∀ r, r ∉ temporaries c args succ → r ∉ (moveEdges c args succ).map Prod.snd →
        exec cval s pre r = s r) := by
    by_cases hov : nonOverlapping (moveEdges c args succ)
    · refine ⟨directMoves (moveEdges c args succ), emittedBy_direct c args succ hlen hov,
        filter_isLoad_directMoves _, ?_, ?_, ?_⟩
      · rw [emittedMoves_direct c args succ hlen hov, filter_isMove_directMoves]
      · intro e he
        apply exec_directMoves_dst cval _ s hEnd _ e he
        intro p hp hmem
        obtain ⟨q, hq, hqp⟩ := List.mem_map.1 hmem
        exact hov q hq (by rw [hqp]; exact List.mem_map.2 ⟨p, hp, rfl⟩)
      · intro r _ hr
        exact exec_directMoves_frame cval _ s r hr
    · have hT := temporaries_length c args succ hlen hov
      have key := exec_twoPhase cval (temporaries c args succ) (moveEdges c args succ) s
        hT htmp hEnd (fun t ht => ⟨(hfresh t ht).1, fun hmem =>
          (hfresh t ht).2 (hEsub.subset hmem)⟩)
      have hexec : exec cval s
          (toTempsCalls (temporaries c args succ) (moveEdges c args succ) ++
            movesFromTemps (temporaries c args succ) (moveEdges c args succ)) =
          exec cval s
            (movesToTemps (temporaries c args succ) (moveEdges c args succ) ++
              movesFromTemps (temporaries c args succ) (moveEdges c args succ)) := by
        rw [exec_append, exec_toTempsCalls, ← exec_append]
      refine ⟨toTempsCalls (temporaries c args succ) (moveEdges c args succ) ++
          movesFromTemps (temporaries c args succ) (moveEdges c args succ), ?_, ?_, ?_, ?_, ?_⟩
      · rw [List.append_assoc, temporaries_twoPhase c args succ hlen hov]
        exact emittedBy_twoPhase c args succ hlen hov
      · rw [List.filter_append, filter_isLoad_toTempsCalls, movesFromTemps_eq_directMoves,
          filter_isLoad_directMoves]
        rfl
      · rw [emittedMoves_twoPhase c args succ hlen hov, List.filter_append,
          filter_isMove_toTempsCalls]
        congr 1
        rw [movesFromTemps_eq_directMoves, filter_isMove_directMoves]
      · intro e he
        rw [hexec]
        exact key.1 e he
      · intro r hr1 hr2
        rw [hexec]
        exact key.2 r hr1 hr2
  obtain ⟨pre, hpre, hpreL, hpreM, hdst, hframe⟩ := hmoves
  have hloads : emittedLoads c args succ = constantLoads (constantEdges c args succ) := by
    rw [emittedLoads, hpre, List.filter_append, hpreL, List.nil_append,
      filter_isLoad_constantLoads]
  have key := exec_assignment cval c.ssaValueToVRegs c.ssaValueDefinitions
    (args.zip succ.params) (temporaries c args succ) s (exec cval s pre) hndZ hts
    (by rw [← hE]; exact hdst) (by rw [← hE]; exact hframe)
  rw [← hK] at key
  refine ⟨failure_of_length_eq c args succ hlen, ⟨pre, by rw [hloads]; exact hpre, hpreL, hpreM⟩,
    ?_, ?_⟩
  · intro i a p ha hp
    have hmem : (a, p) ∈ args.zip succ.params := by
      apply List.mem_iff_getElem?.2
      exact ⟨i, List.getElem?_zip_eq_some.2 ⟨ha, hp⟩⟩
    rw [hpre, exec_append]
    exact key.1 (a, p) hmem
  · intro r hr hrt
    rw [hpre, exec_append]
    apply key.2 r _ hrt
    rw [hZ]
    exact hr

/-- C19 at a concrete input where the destination of a constant edge is the source of a
move edge: the constant `v100` goes to the parameter in `R1` while `R1` goes to the
parameter in `R2`. -/
theorem lowerBlockArguments_parallel_assignment_witness :
    emittedBy exampleCompiler [⟨100⟩, ⟨1⟩] (exampleBlock [⟨1⟩, ⟨2⟩]) =
      [Event.InsertMove ⟨2, 0, .RegTypeInt⟩ ⟨1, 0, .RegTypeInt⟩,
        Event.InsertLoadConstant ⟨100, .OpcodeIconst, 0, [], exampleBlock []⟩
          ⟨1, 0, .RegTypeInt⟩] ∧
    exec (fun i => i.id + 7) (fun r => r.id)
        (emittedBy exampleCompiler [⟨100⟩, ⟨1⟩] (exampleBlock [⟨1⟩, ⟨2⟩]))
        ⟨1, 0, .RegTypeInt⟩ = 107 ∧
    exec (fun i => i.id + 7) (fun r => r.id)
        (emittedBy exampleCompiler [⟨100⟩, ⟨1⟩] (exampleBlock [⟨1⟩, ⟨2⟩]))
        ⟨2, 0, .RegTypeInt⟩ = 1 :=
  ⟨by decide,
    (lowerBlockArguments_parallel_assignment (fun i => i.id + 7) exampleCompiler
      [⟨100⟩, ⟨1⟩] (exampleBlock [⟨1⟩, ⟨2⟩]) (fun r => r.id)
      (by decide) (by decide) (by decide) (by decide)).2.2.1 0 ⟨100⟩ ⟨1⟩ rfl rfl,
    (lowerBlockArguments_parallel_assignment (fun i => i.id + 7) exampleCompiler
      [⟨100⟩, ⟨1⟩] (exampleBlock [⟨1⟩, ⟨2⟩]) (fun r => r.id)
      (by decide) (by decide) (by decide) (by decide)).2.2.1 1 ⟨1⟩ ⟨2⟩ rfl rfl⟩

namespace amd64

/-! ## Adjacency, node by node -/

/-- On a stream, `prevLinked` says that every node with a successor is the `prev` of that
successor. -/
theorem prevLinked_iff_adjacent (m : machine) (l : List Nat) (hs : nextSeg m l none) :
    prevLinked m l ↔
      ∀ a ∈ l, ∀ b, m.nextOf a = some (some b) → m.prevOf b = some (some a) := by
  induction l with
  | nil => simp [prevLinked]
  | cons a l ih =>
    simp only [nextSeg] at hs
    cases l with
    | nil =>
      simp only [prevLinked, prevSeg, true_iff]
      intro x hx b hb
      simp only [List.mem_singleton] at hx
      subst hx
      rw [hs.1] at hb
      simp [headOr] at hb
    | cons n t =>
      have ih2 := ih hs.2
      simp only [prevLinked, prevSeg] at ih2 ⊢
      have hna : m.nextOf a = some (some n) := hs.1
      constructor
      · rintro ⟨h1, h2⟩ x hx b hb
        rcases List.mem_cons.1 hx with rfl | hx2
        · rw [hna] at hb
          simp only [Option.some.injEq] at hb
          subst hb
          exact h1
        · exact ih2.1 h2 x hx2 b hb
      · intro h
        exact ⟨h a (by simp) n hna,
          ih2.2 (fun x hx b hb => h x (List.mem_cons_of_mem _ hx) b hb)⟩

/-- C18: on a well-formed doubly-linked stream whose root is neither a return nor a
redundant copy, with spill-slot size 0 and no clobbered register, `SetupEpilogue`
completes (given fuel for one iteration per node) and the stream reachable from the root
afterwards is again well formed: it ends in nil, and every node of it that has a successor
is the `prev` of that successor. -/
theorem SetupEpilogue_keeps_adjacency (m : machine) (root : Nat) (body : List Nat)
    (fuel : Nat) (r : instruction)
    (hroot : m.RootInstr = some root) (hwf : wellFormed m (root :: body))
    (hr : m.payload root = some r) (hret : r.kind ≠ .ret) (hred : r.redundantCopy = false)
    (hspill : m.spillSlotSize = 0) (hclob : m.clobberedRegs = [])
    (hfuel : (root :: body).length < fuel) :
    ∃ m2 l2, SetupEpilogue fuel m = .done m2 ∧ m2.RootInstr = some root ∧
      wellFormed m2 (root :: l2) ∧
      (∀ a ∈ root :: l2, ∀ b, m2.nextOf a = some (some b) →
        m2.prevOf b = some (some a)) := by
  obtain ⟨m2, l2, e2, wf2, _, _, _, _, _, r2, _, _⟩ :=
    SetupEpilogue_spec m root body fuel r hroot hwf hr hret hred
      (fun _ => ⟨le_of_eq hspill, hclob⟩) hfuel
  exact ⟨m2, l2, e2, by rw [r2, hroot], wf2,
    (prevLinked_iff_adjacent m2 _ wf2.1).1 wf2.2⟩

/-- C18 at a concrete input: `nop -> mov %rax,%rax -> mov %rcx,%rcx -> ret -> mov %rax,%rax`
has a run of two redundant copies, a redundant copy right before the return and a
redundant copy at the end. -/
theorem SetupEpilogue_keeps_adjacency_witness :
    wellFormed exampleCopyRuns [0, 1, 2, 3, 4] ∧
    ∃ m2 l2, SetupEpilogue 6 exampleCopyRuns = .done m2 ∧ m2.RootInstr = some 0 ∧
      wellFormed m2 (0 :: l2) ∧
      (∀ a ∈ 0 :: l2, ∀ b, m2.nextOf a = some (some b) → m2.prevOf b = some (some a)) :=
  ⟨by decide,
    SetupEpilogue_keeps_adjacency exampleCopyRuns 0 [1, 2, 3, 4] 6
      (exampleNode .nop0 none none) (by decide) (by decide) (by decide) (by decide)
      (by decide) (by decide) (by decide) (by decide)⟩

/-- C20: on a well-formed stream whose root is neither a return nor a copy, with
spill-slot size 0 and no clobbered register, `SetupEpilogue` completes (given fuel for one
iteration per node), and the sequence of instructions reachable from the root afterwards
is the input sequence with every redundant copy deleted and every return `r` replaced by
`mov %rbp,%rsp; pop %rbp; r`: nothing else is added, removed or reordered. -/
theorem SetupEpilogue_rewrites_stream (m : machine) (root : Nat) (body : List Nat)
    (fuel : Nat) (r : instruction)
    (hroot : m.RootInstr = some root) (hwf : wellFormed m (root :: body))
    (hr : m.payload root = some r) (hret : r.kind ≠ .ret) (hcopy : r.IsCopy = false)
    (hspill : m.spillSlotSize = 0) (hclob : m.clobberedRegs = [])
    (hfuel : (root :: body).length < fuel) :
    ∃ m2 l2, SetupEpilogue fuel m = .done m2 ∧ m2.RootInstr = some root ∧
      isStream m2 (root :: l2) ∧
      (m.contents (root :: body)).length = (root :: body).length ∧
      (m2.contents (root :: l2)).length = (root :: l2).length ∧
      m2.contents (root :: l2) = withEpilogues (m.contents (root :: body)) := by
  have hred : r.redundantCopy = false := by simp [instruction.redundantCopy, hcopy]
  obtain ⟨m2, l2, e2, wf2, _, c2, _, _, _, r2, _, _⟩ :=
    SetupEpilogue_spec m root body fuel r hroot hwf hr hret hred
      (fun _ => ⟨le_of_eq hspill, hclob⟩) hfuel
  exact ⟨m2, l2, e2, by rw [r2, hroot], wf2.1, contents_length m _ _ hwf.1,
    contents_length m2 _ _ wf2.1, c2⟩

/-- C20 at a concrete input: `nop -> mov %rax,%rax -> mov %rcx,%rcx -> ret -> mov %rax,%rax`
becomes `nop -> mov %rbp,%rsp -> pop %rbp -> ret`. -/
theorem SetupEpilogue_rewrites_stream_witness :
    exampleCopyRuns.contents [0, 1, 2, 3, 4] =
      [exampleNode .nop0 none none, exampleCopy raxVReg raxVReg none none,
        exampleCopy rcxVReg rcxVReg none none, exampleNode .ret none none,
        exampleCopy raxVReg raxVReg none none] ∧
    ∃ m2 l2, SetupEpilogue 6 exampleCopyRuns = .done m2 ∧ m2.RootInstr = some 0 ∧
      isStream m2 (0 :: l2) ∧
      (exampleCopyRuns.contents [0, 1, 2, 3, 4]).length = 5 ∧
      (m2.contents (0 :: l2)).length = (0 :: l2).length ∧
      m2.contents (0 :: l2) =
        [exampleNode .nop0 none none, movRbpRsp, popRbp, exampleNode .ret none none] :=
  ⟨by decide,
    SetupEpilogue_rewrites_stream exampleCopyRuns 0 [1, 2, 3, 4] 6
      (exampleNode .nop0 none none) (by decide) (by decide) (by decide) (by decide)
      (by decide) (by decide) (by decide) (by decide)⟩

/-! ## The stack-bounds flag -/

theorem linkInstr_checkFlag (m m2 : machine) (p n : Option Nat)
    (h : linkInstr m p n = .done m2) :
    m2.stackBoundsCheckDisabled = m.stackBoundsCheckDisabled := by
  unfold linkInstr at h
  cases p with
  | none => simp at h
  | some p =>
    simp only at h
    split at h
    · cases n with
      | none => simp at h
      | some n =>
        simp only at h
        split at h
        · cases h
          rfl
        · simp at h
    · simp at h

theorem SetupPrologue_checkFlag (m m2 : machine) (h : SetupPrologue m = .done m2) :
    m2.stackBoundsCheckDisabled = m.stackBoundsCheckDisabled := by
  unfold SetupPrologue at h
  simp only at h
  split at h
  · simp at h
  · split at h
    · simp at h
    · split at h
      · simp at h
      · rename_i ma e1
        have f1 := linkInstr_checkFlag _ _ _ _ e1
        split at h
        · simp at h
        · rename_i mb e2
          have f2 := linkInstr_checkFlag _ _ _ _ e2
          split at h
          · simp at h
          · split at h
            · simp at h
            · have f3 := linkInstr_checkFlag _ _ _ _ h
              rw [f3, f2]
              exact f1

/-- C12, what the code does instead: with stack-bounds checking enabled, no clobbered
register and spill-slot size 0, `SetupPrologue` on a stream with at least one instruction
after the root does not abort: it completes, and what it put between the root and the
first instruction is `push %rbp; mov %rsp,%rbp` and nothing else, the two records it
allocated; no stack-bounds check was emitted, and checking is still marked enabled. -/
theorem SetupPrologue_bounds_check_skipped (m : machine) (root i1 : Nat)
    (hroot : m.RootInstr = some root) (hn : m.nextOf root = some (some i1))
    (hi1 : i1 < m.instrs.length)
    (hclob : m.clobberedRegs = []) (hspill : m.spillSlotSize = 0)
    (hcheck : m.stackBoundsCheckDisabled = false) :
    ∃ m2, SetupPrologue m = .done m2 ∧ (SetupPrologue m).failure = none ∧
      m2.stackBoundsCheckDisabled = false ∧
      m2.instrs.length = m.instrs.length + 2 ∧
      m2.nextOf root = some (some m.instrs.length) ∧
      m2.nextOf m.instrs.length = some (some (m.instrs.length + 1)) ∧
      m2.nextOf (m.instrs.length + 1) = some (some i1) ∧
      m2.payload m.instrs.length = some pushRbp ∧
      m2.payload (m.instrs.length + 1) = some movRspRbp ∧
      (∀ b, b < m.instrs.length → m2.payload b = m.payload b) := by
  have hroot_lt : root < m.instrs.length := nextOf_lt m root _ hn
  obtain ⟨m2, e, len, n2, _, y2, _⟩ :=
    SetupPrologue_spec m root i1 hroot hn hi1 (le_of_eq hspill) hclob
  refine ⟨m2, e, by rw [e]; rfl, by rw [SetupPrologue_checkFlag m m2 e, hcheck], len,
    by rw [n2]; simp, ?_, ?_, by rw [y2]; simp,
    by rw [y2]; simp, ?_⟩
  · rw [n2]
    have : m.instrs.length ≠ root := by omega
    simp [this]
  · rw [n2]
    have : m.instrs.length + 1 ≠ root := by omega
    simp [this]
  · intro b hb
    rw [y2]
    have : b ≠ m.instrs.length := by omega
    have : b ≠ m.instrs.length + 1 := by omega
    simp [*]

/-- C12 at a concrete input: `nop -> mov %rax,%rcx -> mov %rax,%rax -> ret` with
stack-bounds checking enabled. -/
theorem SetupPrologue_bounds_check_skipped_witness :
    exampleBoundsChecked.stackBoundsCheckDisabled = false ∧
    ∃ m2, SetupPrologue exampleBoundsChecked = .done m2 ∧
      (SetupPrologue exampleBoundsChecked).failure = none ∧
      m2.stackBoundsCheckDisabled = false ∧
      m2.instrs.length = 4 + 2 ∧
      m2.nextOf 0 = some (some 4) ∧ m2.nextOf 4 = some (some (4 + 1)) ∧
      m2.nextOf (4 + 1) = some (some 1) ∧
      m2.payload 4 = some pushRbp ∧ m2.payload (4 + 1) = some movRspRbp ∧
      (∀ b, b < 4 → m2.payload b = exampleBoundsChecked.payload b) :=
  ⟨rfl,
    SetupPrologue_bounds_check_skipped exampleBoundsChecked 0 1 (by decide) (by decide)
      (by decide) (by decide) (by decide) (by decide)⟩


/-! ## The unimplemented frame features -/

theorem setupEpilogueAfter_abort (m : machine) (p : Nat) (hp : p < m.instrs.length)
    (hframe : 0 < m.spillSlotSize ∨ m.clobberedRegs ≠ []) :
    setupEpilogueAfter m (some p) =
      .panicked (if 0 < m.spillSlotSize then .todoDeallocateSpillSlots
        else .todoRestoreClobberedRegisters) m := by
  obtain ⟨v, hv⟩ : ∃ v, m.nextOf p = some v := by
    simp [machine.nextOf, List.getElem?_eq_getElem hp]
  by_cases hs : 0 < m.spillSlotSize
  · simp only [setupEpilogueAfter, hv, gt_iff_lt, hs, ↓reduceIte]
  · have hc : m.clobberedRegs ≠ [] := hframe.resolve_left hs
    have hl : 0 < m.clobberedRegs.length := List.length_pos.2 hc
    simp only [setupEpilogueAfter, hv, gt_iff_lt, hs, ↓reduceIte, hl]

theorem SetupPrologue_abort (m : machine) (root : Nat) (hroot : m.RootInstr = some root)
    (hlt : root < m.instrs.length)
    (hframe : m.clobberedRegs ≠ [] ∨ 0 < m.spillSlotSize) :
    (SetupPrologue m).failure =
      some (if m.clobberedRegs ≠ [] then .todoSaveClobberedRegisters
        else .todoAllocateSpillSlots) := by
  obtain ⟨v, hn⟩ : ∃ v, m.nextOf root = some v := by
    simp [machine.nextOf, List.getElem?_eq_getElem hlt]
  obtain ⟨m1, hm1⟩ : ∃ m1, m1 =
      (m.allocateInstr (fun i => i.asPush64 (newOperandReg rbpVReg))).2 := ⟨_, rfl⟩
  have l1 : m1.instrs.length = m.instrs.length + 1 := by rw [hm1, allocateInstr_length]
  obtain ⟨m2, hm2⟩ : ∃ m2, m2 =
      (m1.setNext root (some m.instrs.length)).setPrev m.instrs.length (some root) :=
    ⟨_, rfl⟩
  have l2 : m2.instrs.length = m.instrs.length + 1 := by
    rw [hm2, setPrev_length, setNext_length, l1]
  obtain ⟨m3, hm3⟩ : ∃ m3, m3 =
      (m2.allocateInstr (fun i => i.asMovRR rspVReg rbpVReg true)).2 := ⟨_, rfl⟩
  have l3 : m3.instrs.length = m.instrs.length + 2 := by rw [hm3, allocateInstr_length, l2]
  obtain ⟨m4, hm4⟩ : ∃ m4, m4 =
      (m3.setNext m.instrs.length (some (m.instrs.length + 1))).setPrev
        (m.instrs.length + 1) (some m.instrs.length) := ⟨_, rfl⟩
  have e1 : linkInstr m1 (some root) (some m.instrs.length) = .done m2 := by
    rw [hm2]
    exact linkInstr_eq m1 root _ (by omega) (by omega)
  have e2 : linkInstr m3 (some m.instrs.length) (some (m.instrs.length + 1)) = .done m4 := by
    rw [hm4]
    exact linkInstr_eq m3 _ _ (by omega) (by omega)
  have c4 : m4.clobberedRegs = m.clobberedRegs := by
    rw [hm4, (setPrev_frame _ _ _).2.2.1, (setNext_frame _ _ _).2.2.1, hm3,
      (allocateInstr_frame _ _).2.2.1, hm2, (setPrev_frame _ _ _).2.2.1,
      (setNext_frame _ _ _).2.2.1, hm1, (allocateInstr_frame _ _).2.2.1]
  have s4 : m4.spillSlotSize = m.spillSlotSize := by
    rw [hm4, (setPrev_frame _ _ _).2.1, (setNext_frame _ _ _).2.1, hm3,
      (allocateInstr_frame _ _).2.1, hm2, (setPrev_frame _ _ _).2.1,
      (setNext_frame _ _ _).2.1, hm1, (allocateInstr_frame _ _).2.1]
  by_cases hc : m.clobberedRegs = []
  · have hs : 0 < m.spillSlotSize := hframe.resolve_left (fun h => h hc)
    simp only [SetupPrologue, hroot, hn, allocateInstr_fst, ← hm1, e1, l2, ← hm3, e2, c4,
      s4, hc, List.length_nil, gt_iff_lt, lt_self_iff_false, ↓reduceIte, hs, Outcome.failure,
      ne_eq, not_true_eq_false]
  · have hl : 0 < m.clobberedRegs.length := List.length_pos.2 hc
    simp only [SetupPrologue, hroot, hn, allocateInstr_fst, ← hm1, e1, l2, ← hm3, e2, c4,
      gt_iff_lt, hl, ↓reduceIte, Outcome.failure, ne_eq, hc, not_false_eq_true]

/-- The loop of `SetupEpilogue` at a node `p` already passed, with the nodes `rest` still
to visit, one of them a return, when the frame needs spill slots or clobbered registers:
it stops at the first return with the failure of the first unimplemented step. -/
theorem loop_abort (rest : List Nat) :
    ∀ (fuel : Nat) (m : machine) (p : Nat),
      nextSeg m rest none → prevSeg m (some p) rest → p < m.instrs.length →
      (p :: rest).Nodup →
      (∃ a ∈ rest, ∃ i, m.payload a = some i ∧ i.kind = .ret) →
      (0 < m.spillSlotSize ∨ m.clobberedRegs ≠ []) →
      rest.length < fuel →
      (SetupEpilogue.loop fuel m (headOr rest none)).failure =
        some (if 0 < m.spillSlotSize then .todoDeallocateSpillSlots
          else .todoRestoreClobberedRegisters) := by
  induction rest with
  | nil =>
    intro fuel m p _ _ _ _ hex
    obtain ⟨a, ha, _⟩ := hex
    simp at ha
  | cons a rest ih =>
    intro fuel m p h3 h5 hlt_p hnd hex hframe h8
    obtain ⟨fuel, rfl⟩ : ∃ f, fuel = f + 1 := ⟨fuel - 1, by simp at h8; omega⟩
    simp only [nextSeg] at h3
    simp only [prevSeg] at h5
    obtain ⟨cur, hcur, hnext⟩ := instr_of_nextOf m a _ h3.1
    have hprev : cur.prev = some p := prev_of_prevOf m a cur _ hcur h5.1
    simp only [List.nodup_cons, List.mem_cons, not_or] at hnd
    obtain ⟨⟨hpa, hpr⟩, har, hnd_r⟩ := hnd
    have hlt_a : a < m.instrs.length := nextOf_lt m a _ h3.1
    have hlt_r := nextSeg_lt m rest _ h3.2
    have hfuel : rest.length < fuel := by simp at h8; omega
    have hpay : m.payload a = some cur.unlink := by simp [machine.payload, hcur]
    have hhead : headOr (a :: rest) none = some a := rfl
    rw [hhead]
    by_cases hret : cur.kind = .ret
    · simp only [SetupEpilogue.loop, hcur, hret, ↓reduceIte, hprev,
        setupEpilogueAfter_abort m p hlt_p hframe, Outcome.failure]
    · have hk : ¬ cur.unlink.kind = .ret := hret
      have hex2 : ∃ b ∈ rest, ∃ i, m.payload b = some i ∧ i.kind = .ret := by
        obtain ⟨b, hb, i, hi, hki⟩ := hex
        rcases List.mem_cons.1 hb with rfl | hb2
        · rw [hpay] at hi
          cases hi
          exact absurd hki hk
        · exact ⟨b, hb2, i, hi, hki⟩
      by_cases hred : cur.redundantCopy = true
      · obtain ⟨m1, eloop, hm1⟩ : ∃ m1 : machine,
            SetupEpilogue.loop (fuel + 1) m (some a) =
              SetupEpilogue.loop fuel m1 ((m1.nextOf a).getD none) ∧
            ((rest = [] ∧ m1 = m.setNext p none) ∨
              ∃ n t, rest = n :: t ∧ m1 = (m.setNext p (some n)).setPrev n (some p)) := by
          cases hr : rest with
          | nil =>
            refine ⟨m.setNext p none, ?_, Or.inl ⟨rfl, rfl⟩⟩
            rw [hr] at hnext
            simp only [headOr] at hnext
            simp only [SetupEpilogue.loop, hcur, hret, ↓reduceIte, hred, hprev, hlt_p, hnext]
          | cons n t =>
            refine ⟨(m.setNext p (some n)).setPrev n (some p), ?_, Or.inr ⟨n, t, rfl, rfl⟩⟩
            rw [hr] at hnext
            simp only [headOr] at hnext
            simp only [SetupEpilogue.loop, hcur, hret, ↓reduceIte, hred, hprev, hlt_p, hnext]
        have hn1 : ∀ b, m1.nextOf b = if b = p then some (headOr rest none) else m.nextOf b := by
          intro b
          rcases hm1 with ⟨hr, hm⟩ | ⟨n, t, hr, hm⟩
          · rw [hm, hr]; simp only [headOr]; rw [setNext_nextOf _ _ _ _ hlt_p]
          · rw [hm, hr]; simp only [headOr]; rw [setPrev_nextOf, setNext_nextOf _ _ _ _ hlt_p]
        have hp1 : ∀ b, m1.prevOf b =
            if headOr rest none = some b then some (some p) else m.prevOf b := by
          intro b
          rcases hm1 with ⟨hr, hm⟩ | ⟨n, t, hr, hm⟩
          · rw [hm, hr]; simp only [headOr]; rw [setNext_prevOf]; simp
          · rw [hm, hr]
            simp only [headOr]
            rw [setPrev_prevOf _ _ _ _ (by rw [setNext_length]; exact hlt_r n (by simp [hr])),
              setNext_prevOf]
            by_cases hb : b = n
            · simp [hb]
            · have : ¬ n = b := fun h => hb h.symm
              simp [hb, this]
        have hy1 : ∀ b, m1.payload b = m.payload b := by
          intro b
          rcases hm1 with ⟨_, hm⟩ | ⟨n, t, _, hm⟩
          · rw [hm, setNext_payload]
          · rw [hm, setPrev_payload, setNext_payload]
        have hl1 : m1.instrs.length = m.instrs.length := by
          rcases hm1 with ⟨_, hm⟩ | ⟨n, t, _, hm⟩
          · rw [hm, setNext_length]
          · rw [hm, setPrev_length, setNext_length]
        have hf1 : m1.spillSlotSize = m.spillSlotSize ∧
            m1.clobberedRegs = m.clobberedRegs := by
          rcases hm1 with ⟨_, hm⟩ | ⟨n, t, _, hm⟩
          · rw [hm]; exact ⟨rfl, rfl⟩
          · rw [hm]; exact ⟨rfl, rfl⟩
        have g3 : nextSeg m1 rest none :=
          nextSeg_congr m m1 rest _ (fun b hb => by
            rw [hn1]
            have : b ≠ p := fun h => hpr (h ▸ hb)
            simp [this]) h3.2
        have g5 : prevSeg m1 (some p) rest := by
          cases rest with
          | nil => trivial
          | cons n t =>
            have h52 := h5.2
            simp only [prevSeg] at h52 ⊢
            refine ⟨by rw [hp1]; simp [headOr], ?_⟩
            refine prevSeg_congr m m1 t _ (fun b hb => ?_) h52.2
            rw [hp1]
            have : ¬ n = b := by
              intro h
              have := (List.nodup_cons.1 hnd_r).1
              exact this (h ▸ hb)
            simp [headOr, this]
        have hna : m1.nextOf a = some (headOr rest none) := by
          rw [hn1]
          have : a ≠ p := fun h => hpa h.symm
          simp [this, h3.1]
        have key := ih fuel m1 p g3 g5 (by rw [hl1]; exact hlt_p)
          (List.nodup_cons.2 ⟨hpr, hnd_r⟩)
          (by
            obtain ⟨b, hb, i, hi, hki⟩ := hex2
            exact ⟨b, hb, i, by rw [hy1]; exact hi, hki⟩)
          (by rw [hf1.1, hf1.2]; exact hframe) hfuel
        rw [eloop, hna, Option.getD_some, key, hf1.1]
      · have key := ih fuel m a h3.2 h5.2 hlt_a (List.nodup_cons.2 ⟨har, hnd_r⟩) hex2
          hframe hfuel
        simp only [SetupEpilogue.loop, hcur, hret, ↓reduceIte, hred, hnext]
        exact key

theorem SetupEpilogue_abort (m : machine) (root : Nat) (body : List Nat) (fuel : Nat)
    (r : instruction)
    (hroot : m.RootInstr = some root) (hwf : wellFormed m (root :: body))
    (hr : m.payload root = some r) (hret : r.kind ≠ .ret) (hred : r.redundantCopy = false)
    (hex : ∃ a ∈ body, ∃ i, m.payload a = some i ∧ i.kind = .ret)
    (hframe : 0 < m.spillSlotSize ∨ m.clobberedRegs ≠ [])
    (hfuel : (root :: body).length < fuel) :
    (SetupEpilogue fuel m).failure =
      some (if 0 < m.spillSlotSize then .todoDeallocateSpillSlots
        else .todoRestoreClobberedRegisters) := by
  obtain ⟨hs, hp⟩ := hwf
  have hnd := nextSeg_nodup m _ hs
  simp only [isStream, nextSeg] at hs
  obtain ⟨cur, hcur, hnext⟩ := instr_of_nextOf m root _ hs.1
  have hlt : root < m.instrs.length := nextOf_lt m root _ hs.1
  have hru : r = cur.unlink := by
    simpa [machine.payload, hcur] using hr.symm
  have hk : ¬ cur.kind = .ret := by rw [hru] at hret; exact hret
  have hrc : ¬ cur.redundantCopy = true := by
    rw [hru] at hred
    intro h
    have : cur.unlink.redundantCopy = true := h
    rw [hred] at this
    cases this
  obtain ⟨fuel, rfl⟩ : ∃ f, fuel = f + 1 := ⟨fuel - 1, by simp at hfuel; omega⟩
  have key := loop_abort body fuel m root hs.2 hp hlt hnd hex hframe
    (by simp at hfuel; omega)
  simp only [SetupEpilogue, hroot, SetupEpilogue.loop, hcur, hk, ↓reduceIte, hrc, hnext]
  exact key

/-- C11, amended: whenever the clobbered-register set is non-empty or the spill-slot size
is greater than zero, frame construction aborts with an unimplemented-feature failure.
`SetupPrologue` does so on every stream (its root is an allocated record), with the
failure of the first unimplemented step: saving the clobbered registers, else allocating
the spill slots. `SetupEpilogue` does so (given fuel for one iteration per node) on
every well-formed stream that contains a return and whose root is neither a return nor a
redundant copy, with the failure of the first unimplemented step: deallocating the spill
slots, else restoring the clobbered registers. -/
theorem frame_unimplemented_aborts (m : machine) (root : Nat)
    (hroot : m.RootInstr = some root) (hlt : root < m.instrs.length)
    (hframe : m.clobberedRegs ≠ [] ∨ 0 < m.spillSlotSize) :
    (SetupPrologue m).failure =
      some (if m.clobberedRegs ≠ [] then .todoSaveClobberedRegisters
        else .todoAllocateSpillSlots) ∧
    ∀ (body : List Nat) (r : instruction) (fuel : Nat),
      wellFormed m (root :: body) → m.payload root = some r → r.kind ≠ .ret →
      r.redundantCopy = false →
      (∃ a ∈ body, ∃ i, m.payload a = some i ∧ i.kind = .ret) →
      (root :: body).length < fuel →
      (SetupEpilogue fuel m).failure =
        some (if 0 < m.spillSlotSize then .todoDeallocateSpillSlots
          else .todoRestoreClobberedRegisters) :=
  ⟨SetupPrologue_abort m root hroot hlt hframe,
    fun body r fuel hwf hr hret hred hex hfuel =>
      SetupEpilogue_abort m root body fuel r hroot hwf hr hret hred hex hframe.symm hfuel⟩

/-- C11 at two concrete inputs: `nop -> ret -> mov %rax,%rax` with 8 bytes of spill slots,
and `nop -> ret` with `%rax` clobbered. -/
theorem frame_unimplemented_aborts_witness :
    ((SetupPrologue exampleSpill).failure = some .todoAllocateSpillSlots ∧
      (SetupEpilogue 4 exampleSpill).failure = some .todoDeallocateSpillSlots) ∧
    ((SetupPrologue exampleClobbered).failure = some .todoSaveClobberedRegisters ∧
      (SetupEpilogue 3 exampleClobbered).failure = some .todoRestoreClobberedRegisters) :=
  ⟨⟨(frame_unimplemented_aborts exampleSpill 0 rfl (by decide) (by decide)).1,
      (frame_unimplemented_aborts exampleSpill 0 rfl (by decide) (by decide)).2 [1, 2]
        (exampleNode .nop0 none none) 4 (by decide) (by decide) (by decide) (by decide)
        ⟨1, by decide, exampleNode .ret none none, by decide, rfl⟩ (by decide)⟩,
    ⟨(frame_unimplemented_aborts exampleClobbered 0 rfl (by decide) (by decide)).1,
      (frame_unimplemented_aborts exampleClobbered 0 rfl (by decide) (by decide)).2 [1]
        (exampleNode .nop0 none none) 3 (by decide) (by decide) (by decide) (by decide)
        ⟨1, by decide, exampleNode .ret none none, by decide, rfl⟩ (by decide)⟩⟩

/-- C11 as stated fails for `SetupEpilogue`: the stream made of a single return, which is
its root, contains a return and belongs to a function with 8 bytes of spill slots, yet
`SetupEpilogue` does not reach the unimplemented-feature failure: it dereferences the nil
`prev` of the root. `SetupPrologue` does abort with the unimplemented-feature failure. -/
theorem frame_unimplemented_aborts_counterexample :
    isStream exampleRootRetSpill [0] ∧ exampleRootRetSpill.RootInstr = some 0 ∧
    exampleRootRetSpill.kindOf 0 = some .ret ∧ 0 < exampleRootRetSpill.spillSlotSize ∧
    (∀ fuel, SetupEpilogue (fuel + 1) exampleRootRetSpill =
      .panicked .nilDereference exampleRootRetSpill) ∧
    (∀ fuel, (SetupEpilogue (fuel + 1) exampleRootRetSpill).failure ≠
      some .todoDeallocateSpillSlots) ∧
    (SetupPrologue exampleRootRetSpill).failure = some .todoAllocateSpillSlots :=
  ⟨by decide, rfl, rfl, by decide, fun _ => rfl,
    fun _ => by
      show some Panic.nilDereference ≠ some Panic.todoDeallocateSpillSlots
      decide,
    by decide⟩

end amd64

end Wazevo
